import Mathlib

/-!
Verification of the geometric mesh-construction and point-location engine of
the `potassium` repository.

The development shallowly embeds the core processing modules:

* `src/processing/normals.py` — transect generation and the crossing-normal
  conflict resolver (`remove_crossing_normals`);
* `src/processing/splitting.py` — sub-curve extraction (`extract_subcurve`);
* `src/processing/close_shape.py` — recursive cell bisection
  (`split_shape_if_needed`, `generate_closed_shapes_with_polylines`);
* `src/processing/merging.py` — polyline stitching (`merge_polylines`);
* `src/processing/ditch.py` — endpoint projection (`process_ditch_endpoints`);
* `src/utils/helpers.py` — the spatial locator (`make_shape_finder`).

Conventions.  Python floats are modelled exactly: by rationals where the code
only compares and multiplies coordinates (the conflict resolver and the
transect intersection selection), and by real numbers where arc length —
hence square roots — enters (curve operations).  Euclidean-distance
comparisons are embedded as squared-distance comparisons, which order
identically.  Exceptions are modelled by `Option`; the shapely library
operations used by the code (`intersects`, `project`, `interpolate`,
`substring`, `contains`) are embedded by their documented exact semantics.
-/

/-! ### Exact rational plane geometry (spans of transects) -/

/-- A planar point with rational coordinates. -/
structure Pt where
  x : ℚ
  y : ℚ
deriving DecidableEq, Repr

instance : Inhabited Pt := ⟨⟨0, 0⟩⟩

/-- A straight two-point segment, e.g. the span of a transect. -/
structure Seg where
  a : Pt
  b : Pt
deriving DecidableEq, Repr

instance : Inhabited Seg := ⟨⟨default, default⟩⟩

/-- Twice the signed area of the triangle `p q r`; the standard orientation
test underlying exact segment intersection. -/
def orient (p q r : Pt) : ℚ :=
  (q.x - p.x) * (r.y - p.y) - (q.y - p.y) * (r.x - p.x)

/-- Point `r` lies in the closed axis-aligned bounding box of `p` and `q`. -/
def inBox (p q r : Pt) : Prop :=
  min p.x q.x ≤ r.x ∧ r.x ≤ max p.x q.x ∧ min p.y q.y ≤ r.y ∧ r.y ≤ max p.y q.y

instance (p q r : Pt) : Decidable (inBox p q r) := by
  unfold inBox; infer_instance

/-- Point `r` lies on the closed segment from `p` to `q`. -/
def onSeg (p q r : Pt) : Prop := orient p q r = 0 ∧ inBox p q r

instance (p q r : Pt) : Decidable (onSeg p q r) := by
  unfold onSeg; infer_instance

/-- Exact nonempty-intersection test for two closed segments: the classical
orientation-based predicate embedding shapely's `LineString.intersects` for
two-point lines. -/
def segIntersects (s t : Seg) : Prop :=
  (((0 < orient t.a t.b s.a ∧ orient t.a t.b s.b < 0) ∨
    (orient t.a t.b s.a < 0 ∧ 0 < orient t.a t.b s.b)) ∧
   ((0 < orient s.a s.b t.a ∧ orient s.a s.b t.b < 0) ∨
    (orient s.a s.b t.a < 0 ∧ 0 < orient s.a s.b t.b))) ∨
  (orient t.a t.b s.a = 0 ∧ inBox t.a t.b s.a) ∨
  (orient t.a t.b s.b = 0 ∧ inBox t.a t.b s.b) ∨
  (orient s.a s.b t.a = 0 ∧ inBox s.a s.b t.a) ∨
  (orient s.a s.b t.b = 0 ∧ inBox s.a s.b t.b)

instance (s t : Seg) : Decidable (segIntersects s t) := by
  unfold segIntersects; infer_instance

/-- The axis-aligned bounding boxes of two segments overlap: the R-tree
candidate test (`idx.intersection(line.bounds)`) of the source. -/
def boundsOverlap (s t : Seg) : Prop :=
  min s.a.x s.b.x ≤ max t.a.x t.b.x ∧ min t.a.x t.b.x ≤ max s.a.x s.b.x ∧
  min s.a.y s.b.y ≤ max t.a.y t.b.y ∧ min t.a.y t.b.y ≤ max s.a.y s.b.y

instance (s t : Seg) : Decidable (boundsOverlap s t) := by
  unfold boundsOverlap; infer_instance

/-! ### Conflict resolver: `remove_crossing_normals` (src/processing/normals.py) -/

/-- A transect: a centerline station paired with its two-point normal span,
one entry of the `points_with_normals` list. -/
structure Transect where
  station : Pt
  span : Seg
deriving DecidableEq, Repr

instance : Inhabited Transect := ⟨⟨default, default⟩⟩

/-- Span of the `i`-th transect (`points_with_normals[i][1]`); out-of-range
indices read a default and are never produced by the algorithm. -/
def spanAt (ts : List Transect) (i : Nat) : Seg := (ts.getD i default).span

/-- Transect `j` is counted as crossing transect `i` during the initial scan:
it is a distinct R-tree candidate (bounding boxes overlap) whose span
intersects span `i`. -/
def crossPair (ts : List Transect) (i j : Nat) : Prop :=
  j ≠ i ∧ boundsOverlap (spanAt ts j) (spanAt ts i) ∧
    segIntersects (spanAt ts i) (spanAt ts j)

instance (ts : List Transect) (i j : Nat) : Decidable (crossPair ts i j) := by
  unfold crossPair; infer_instance

/-- Initial `intersecting_pairs[i]`. -/
def initPairs (ts : List Transect) (i : Nat) : List Nat :=
  (List.range ts.length).filter (fun j => decide (crossPair ts i j))

/-- Initial `crossings[i]`. -/
def initCrossings (ts : List Transect) (i : Nat) : ℤ := (initPairs ts i).length

/-- Mutable state of the removal loop: liveness flags, crossing counters and
per-transect sets of intersecting partners. -/
structure RState where
  alive : Nat → Bool
  crossings : Nat → ℤ
  pairs : Nat → List Nat

/-- State before the first removal iteration. -/
def initState (ts : List Transect) : RState :=
  ⟨fun _ => true, fun i => initCrossings ts i, fun i => initPairs ts i⟩

/-- `[i for i in crossings if alive[i] and crossings[i] > 0]`; dictionary
iteration order is ascending index order here, since entries are inserted in
index order and deleted entries are exactly the dead ones. -/
def candidates (n : Nat) (s : RState) : List Nat :=
  (List.range n).filter (fun i => s.alive i && decide (0 < s.crossings i))

/-- Python `max(candidates, key=crossings)`: first candidate with the
maximal counter (later candidates replace only on a strictly larger key). -/
def pickMax (s : RState) : Nat → List Nat → Nat
  | best, [] => best
  | best, i :: rest => pickMax s (if s.crossings best < s.crossings i then i else best) rest

/-- One removal: mark `k` dead, decrement the counters of its live partners
and discard `k` from their pair sets.  The deleted dictionary entries of the
source (`del crossings[k]`, `del intersecting_pairs[k]`) are never read
again because `k` is dead, so they are simply left in place here. -/
def removeStep (s : RState) (k : Nat) : RState :=
  let aliveNext := Function.update s.alive k false
  { alive := aliveNext
    crossings := fun m =>
      if m ∈ s.pairs k ∧ aliveNext m = true then s.crossings m - 1 else s.crossings m
    pairs := fun m =>
      if m ∈ s.pairs k ∧ aliveNext m = true then (s.pairs m).erase k else s.pairs m }

/-- The `while total_crossings > 0` loop.  Each iteration kills one live
transect, so a fuel of `n` suffices; the fuel-exhausted branch is proved
unreachable below. -/
def resolveLoop (n : Nat) : Nat → RState → RState
  | 0, s => s
  | fuel + 1, s =>
    match candidates n s with
    | [] => s
    | c :: cs => resolveLoop n fuel (removeStep s (pickMax s c cs))

/-- Embedding of `remove_crossing_normals`: run the removal loop, then keep
the transects still alive, in input order. -/
def remove_crossing_normals (ts : List Transect) : List Transect :=
  let s := resolveLoop ts.length ts.length (initState ts)
  (ts.enum.filter (fun ip => s.alive ip.1)).map (fun ip => ip.2)

/-- Number of live transects among the first `n`. -/
def aliveCount (n : Nat) (s : RState) : Nat :=
  ((List.range n).filter (fun i => s.alive i)).length

/-- Loop invariant: every live counter equals the number of live partners in
its initial pair set. -/
def CrossInv (ts : List Transect) (s : RState) : Prop :=
  ∀ i, i < ts.length → s.alive i = true →
    s.crossings i =
      (((List.range ts.length).filter
        (fun j => s.alive j && decide (crossPair ts i j))).length : ℤ)

/-- Loop invariant: every live pair set is the initial pair set restricted to
live transects. -/
def PairsInv (ts : List Transect) (s : RState) : Prop :=
  ∀ i, i < ts.length → s.alive i = true →
    ∀ j : Nat, j ∈ s.pairs i ↔ j ∈ initPairs ts i ∧ s.alive j = true

/-- Loop invariant: pair sets stay duplicate-free. -/
def NodupPairs (s : RState) : Prop := ∀ i, (s.pairs i).Nodup

/-! ### Transect generation: intersection selection (src/processing/normals.py) -/

/-- Intersection point of two closed segments in generic position: the
computable core of shapely's `LineString.intersection` on two segments.
Parallel or collinear configurations (zero denominator) yield no point. -/
def segInterPoint (s t : Seg) : Option Pt :=
  let rx := s.b.x - s.a.x
  let ry := s.b.y - s.a.y
  let sx := t.b.x - t.a.x
  let sy := t.b.y - t.a.y
  let den := rx * sy - ry * sx
  if den = 0 then none
  else
    let tp := ((t.a.x - s.a.x) * sy - (t.a.y - s.a.y) * sx) / den
    let up := ((t.a.x - s.a.x) * ry - (t.a.y - s.a.y) * rx) / den
    if 0 ≤ tp ∧ tp ≤ 1 ∧ 0 ≤ up ∧ up ≤ 1 then
      some ⟨s.a.x + tp * rx, s.a.y + tp * ry⟩
    else none

/-- The consecutive-vertex edges of a polyline. -/
def polylineEdges (l : List Pt) : List Seg :=
  (l.zip l.tail).map (fun pq => ⟨pq.1, pq.2⟩)

/-- All intersection points of the (very long) normal line with a boundary
polyline: the `north_points` / `south_points` lists of the source. -/
def intersectionPoints (nline : Seg) (boundary : List Pt) : List Pt :=
  (polylineEdges boundary).filterMap (fun e => segInterPoint nline e)

/-- Squared Euclidean distance; compares identically to `p.distance(q)`. -/
def sqDist (p q : Pt) : ℚ := (p.x - q.x) ^ 2 + (p.y - q.y) ^ 2

/-- Python `min(points, key=lambda p: p.distance(point))`: first point with
minimal distance to the station. -/
def nearestPoint (station : Pt) : Pt → List Pt → Pt
  | best, [] => best
  | best, q :: rest =>
      nearestPoint station (if sqDist q station < sqDist best station then q else best) rest

/-- `min(north_points, key=...)` when any intersection exists. -/
def nearestIntersection (station : Pt) (nline : Seg) (boundary : List Pt) : Option Pt :=
  match intersectionPoints nline boundary with
  | [] => none
  | c :: cs => some (nearestPoint station c cs)

/-- The per-station tail of
`generate_infinite_normals_on_linestring_with_polyline` (lines 134-161):
intersect the infinite normal line with both boundaries, keep the nearest
intersection on each side, and emit the two-point span; stations missing an
intersection on either side produce nothing. -/
def normalSpanAt (station : Pt) (nline : Seg) (north south : List Pt) : Option Transect :=
  match nearestIntersection station nline north, nearestIntersection station nline south with
  | some np, some sp => some ⟨station, ⟨np, sp⟩⟩
  | _, _ => none

/-! ### Real-coordinate curves: shapely LineString operations

The curve modules (`splitting.py`, `close_shape.py`, `ditch.py`,
`helpers.py`) measure arc length, so their points carry real coordinates.
Distance comparisons inside `project` are embedded as squared-distance
comparisons, which order identically to the Euclidean distances the library
compares. -/

/-- A planar point with real coordinates. -/
structure RPt where
  x : ℝ
  y : ℝ

instance : Inhabited RPt := ⟨⟨0, 0⟩⟩

/-- Euclidean distance between two points. -/
noncomputable def rdist (p q : RPt) : ℝ :=
  Real.sqrt ((p.x - q.x) ^ 2 + (p.y - q.y) ^ 2)

/-- Squared Euclidean distance. -/
noncomputable def sqDistR (p q : RPt) : ℝ := (p.x - q.x) ^ 2 + (p.y - q.y) ^ 2

/-- Arc length of a polyline (`line.length`). -/
noncomputable def curveLen : List RPt → ℝ
  | p :: q :: rest => rdist p q + curveLen (q :: rest)
  | _ => 0

/-- Linear interpolation between two points. -/
noncomputable def lerp (p q : RPt) (t : ℝ) : RPt :=
  ⟨p.x + t * (q.x - p.x), p.y + t * (q.y - p.y)⟩

/-- shapely `line.interpolate(d)` for a nonnegative distance `d`: walk the
edges, clamping to the ends.  (Negative distances, which shapely measures
from the far end, never arise in the embedded code paths: they only receive
`project` results and fractions of the length.) -/
noncomputable def interpolate : List RPt → ℝ → RPt
  | [], _ => ⟨0, 0⟩
  | [p], _ => p
  | p :: q :: rest, d =>
    if d ≤ 0 then p
    else if d ≤ rdist p q then lerp p q (d / rdist p q)
    else interpolate (q :: rest) (d - rdist p q)

/-- `line.interpolate(f, normalized=True)`. -/
noncomputable def interpolateNormalized (l : List RPt) (f : ℝ) : RPt :=
  interpolate l (f * curveLen l)

/-- Clamped least-squares parameter of the point of edge `a b` nearest to
`p`. -/
noncomputable def edgeParam (a b p : RPt) : ℝ :=
  max 0 (min 1 (((p.x - a.x) * (b.x - a.x) + (p.y - a.y) * (b.y - a.y)) /
    ((b.x - a.x) ^ 2 + (b.y - a.y) ^ 2)))

/-- Edge scan of `project`: fold over the edges keeping the first position
realizing the minimal distance (strict improvement replaces). -/
noncomputable def projectAux (p : RPt) : List RPt → ℝ → ℝ → ℝ → ℝ
  | a :: b :: rest, acc, bestD, bestPos =>
    if sqDistR p (lerp a b (edgeParam a b p)) < bestD then
      projectAux p (b :: rest) (acc + rdist a b)
        (sqDistR p (lerp a b (edgeParam a b p))) (acc + edgeParam a b p * rdist a b)
    else projectAux p (b :: rest) (acc + rdist a b) bestD bestPos
  | _, _, _, bestPos => bestPos

/-- shapely `line.project(point)`: the arc-length position of the point of
the polyline nearest to `point`; the first position attaining the minimum
wins on ties. -/
noncomputable def project (l : List RPt) (p : RPt) : ℝ :=
  match l with
  | a :: rest => projectAux p (a :: rest) 0 (sqDistR p a) 0
  | [] => 0

/-- Forward substring between arc positions `d1 ≤ d2`: the interpolated
start, the vertices strictly inside the range, and the interpolated end;
positions beyond the ends clamp. -/
noncomputable def subFwd : List RPt → ℝ → ℝ → List RPt
  | p :: q :: rest, d1, d2 =>
    if d1 < d2 then
      if d2 ≤ rdist p q then
        [interpolate (p :: q :: rest) d1, interpolate (p :: q :: rest) d2]
      else if rdist p q ≤ d1 then
        subFwd (q :: rest) (d1 - rdist p q) (d2 - rdist p q)
      else
        interpolate (p :: q :: rest) d1 :: subFwd (q :: rest) 0 (d2 - rdist p q)
    else [interpolate (p :: q :: rest) d1]
  | l, d1, _ => [interpolate l d1]

/-- shapely `substring(line, d1, d2)`: when the start distance exceeds the
end distance the substring is traversed in reverse, so that its first point
sits at `d1`; equal distances give a single point. -/
noncomputable def substring (l : List RPt) (d1 d2 : ℝ) : List RPt :=
  if d1 ≤ d2 then subFwd l d1 d2 else (subFwd l d2 d1).reverse

/-! ### Sub-curve extraction (src/processing/splitting.py) -/

/-- Embedding of `extract_subcurve`: project both points and take the
substring between the two arc positions.  A null point makes
`line.project` raise; the `except` arm returns an empty `LineString`, so
null points are `none` and yield the empty curve. -/
noncomputable def extract_subcurve (line : List RPt) (point1 point2 : Option RPt) :
    List RPt :=
  match point1, point2 with
  | some p1, some p2 => substring line (project line p1) (project line p2)
  | _, _ => []

/-! ### Mesh builder (src/processing/close_shape.py) -/

/-- A mesh cell, mirroring `geometry.close_shape.ClosedShape`: the polygon
is the closed ring listed in `intersections`. -/
structure ClosedShape where
  intersections : List RPt
  work_line_1 : List RPt
  work_line_2 : List RPt
  tangent_line_1 : List RPt
  tangent_line_2 : List RPt
  polygon : List RPt

/-- The closed ring of polygon coordinates built in the base case of
`split_shape_if_needed`. -/
noncomputable def shapeRing (upper_segment lower_segment : List RPt)
    (current_above current_below next_above next_below : RPt) : List RPt :=
  current_above ::
    (upper_segment ++ next_above :: next_below :: (lower_segment ++ [current_below, current_above]))

/-- Embedding of `split_shape_if_needed`.  The Python recursion carries no
fuel; here a fuel argument makes the recursion structural, `none` marking
exhaustion.  Sufficient fuel is proved to exist for positive `meters` and
faithfully projecting sub-curves. -/
noncomputable def split_shape_if_needed :
    Nat → List RPt → List RPt → ℝ → RPt → RPt → RPt → RPt → Option (List ClosedShape)
  | 0, _, _, _, _, _, _, _ => none
  | fuel + 1, upper_segment, lower_segment, meters,
      current_above, current_below, next_above, next_below =>
    if curveLen upper_segment > meters ∨ curveLen lower_segment > meters then
      match split_shape_if_needed fuel
        (extract_subcurve upper_segment (some current_above)
          (some (interpolateNormalized upper_segment (1 / 2))))
        (extract_subcurve lower_segment
          (some (interpolateNormalized lower_segment (1 / 2))) (some current_below))
        meters current_above current_below
        (interpolateNormalized upper_segment (1 / 2))
        (interpolateNormalized lower_segment (1 / 2)) with
      | none => none
      | some left_shapes =>
        match split_shape_if_needed fuel
          (extract_subcurve upper_segment
            (some (interpolateNormalized upper_segment (1 / 2))) (some next_above))
          (extract_subcurve lower_segment (some next_below)
            (some (interpolateNormalized lower_segment (1 / 2))))
          meters (interpolateNormalized upper_segment (1 / 2))
          (interpolateNormalized lower_segment (1 / 2)) next_above next_below with
        | none => none
        | some right_shapes => some (left_shapes ++ right_shapes)
    else
      some [{ intersections :=
                shapeRing upper_segment lower_segment
                  current_above current_below next_above next_below
              work_line_1 := [current_above, current_below]
              work_line_2 := [next_above, next_below]
              tangent_line_1 := upper_segment
              tangent_line_2 := lower_segment
              polygon :=
                shapeRing upper_segment lower_segment
                  current_above current_below next_above next_below }]

/-- Embedding of `generate_closed_shapes_with_polylines`.  Each entry of
`center_normals` is `(station, above, below)`: the station point and the two
coordinates of the normal span (`normal.coords[0]`, `normal.coords[1]`). -/
noncomputable def generate_closed_shapes_with_polylines :
    Nat → List (RPt × RPt × RPt) → List RPt → List RPt → ℝ → Option (List ClosedShape)
  | fuel, cur :: next :: rest, north_line, south_line, meters =>
    match split_shape_if_needed fuel
        (extract_subcurve north_line (some cur.2.1) (some next.2.1))
        (extract_subcurve south_line (some next.2.2) (some cur.2.2))
        meters cur.2.1 cur.2.2 next.2.1 next.2.2,
      generate_closed_shapes_with_polylines fuel (next :: rest) north_line south_line meters with
    | some cells, some more => some (cells ++ more)
    | _, _ => none
  | _, _, _, _, _ => some []

/-! ### Spatial locator (src/utils/helpers.py, src/geometry/close_shape.py) -/

/-- Orientation test with real coordinates. -/
noncomputable def orientR (p q r : RPt) : ℝ :=
  (q.x - p.x) * (r.y - p.y) - (q.y - p.y) * (r.x - p.x)

/-- Closed bounding-box membership with real coordinates. -/
def inBoxR (p q r : RPt) : Prop :=
  min p.x q.x ≤ r.x ∧ r.x ≤ max p.x q.x ∧ min p.y q.y ≤ r.y ∧ r.y ≤ max p.y q.y

/-- Point `r` lies on the closed segment from `p` to `q`. -/
def onSegR (p q r : RPt) : Prop := orientR p q r = 0 ∧ inBoxR p q r

/-- Consecutive-vertex edges of a closed ring (the ring lists its first
point again at the end, as built by `split_shape_if_needed`). -/
def ringEdges (ring : List RPt) : List (RPt × RPt) := ring.zip ring.tail

/-- The point lies on the boundary of the ring. -/
def onRing (ring : List RPt) (p : RPt) : Prop :=
  ∃ e ∈ ringEdges ring, onSegR e.1 e.2 p

/-- One edge crosses the horizontal ray from `p` to the right (even-odd
rule). -/
def crossesRay (a b p : RPt) : Prop :=
  ((p.y < a.y) ≠ (p.y < b.y)) ∧ p.x < (b.x - a.x) * (p.y - a.y) / (b.y - a.y) + a.x

open scoped Classical in
/-- Number of ring edges crossing the rightward ray from `p`. -/
noncomputable def crossingCount (ring : List RPt) (p : RPt) : Nat :=
  (ringEdges ring).countP (fun e => decide (crossesRay e.1 e.2 p))

/-- GEOS semantics of `polygon.contains(point)`: the point is strictly
interior — inside by the even-odd rule and not on the boundary. -/
def polyContains (ring : List RPt) (p : RPt) : Prop :=
  Odd (crossingCount ring p) ∧ ¬ onRing ring p

/-- `ClosedShape.contains_point` of src/geometry/close_shape.py. -/
def ClosedShape.contains_point (s : ClosedShape) (p : RPt) : Prop :=
  polyContains s.polygon p

/-- The query point lies in the axis-aligned bounding box
(`shape.polygon.bounds`) of the ring. -/
def bboxContains (ring : List RPt) (p : RPt) : Prop :=
  (∃ q ∈ ring, q.x ≤ p.x) ∧ (∃ q ∈ ring, p.x ≤ q.x) ∧
  (∃ q ∈ ring, q.y ≤ p.y) ∧ (∃ q ∈ ring, p.y ≤ q.y)

open scoped Classical in
/-- Embedding of the query closure built by `make_shape_finder`: collect the
R-tree candidates (bounding box containing the point), walk them in
ascending index order and return the first shape strictly containing the
point, together with its index; `none` when no shape contains it.  The
sorted candidate walk of the source equals this single ascending scan. -/
noncomputable def make_shape_finder (closed_shapes : List ClosedShape) (point : RPt) :
    Option (Nat × ClosedShape) :=
  closed_shapes.enum.find?
    (fun is => decide (bboxContains is.2.polygon point ∧ is.2.contains_point point))

/-! ### Endpoint projector (src/processing/ditch.py) -/

/-- An input feature (ditch): its curve plus the attributes used by the
processing loop. -/
structure Ditch where
  name : String
  date : String
  riverpart : String
  code : String
  points : List RPt

/-- One CSV row written by `process_ditch_endpoints`. -/
structure DitchRow where
  name : String
  date : String
  riverpart : String
  code : String
  ditch_len : ℝ
  dam_len : ℝ
  manual_len : ℝ

/-- Per-feature outcome: a written row, or a printed warning that the start
or end point has no containing shape (the feature is then skipped). -/
inductive DitchOutcome where
  | row : DitchRow → DitchOutcome
  | unresolvedStart : String → String → DitchOutcome
  | unresolvedEnd : String → String → DitchOutcome

/-- Lookup of the loaded manual projection geometry by the composite key
`(RIVERPART, CODE)`. -/
def lookupManual (manual_projections : List ((String × String) × List RPt))
    (key : String × String) : Option (List RPt) :=
  (manual_projections.find? (fun kg => kg.1 = key)).map (fun kg => kg.2)

/-- The body of the per-ditch loop of `process_ditch_endpoints` (plotting
and file output stripped): locate both endpoints; a missing shape prints a
warning and skips the feature (`continue`); otherwise project both endpoints
onto the containing shapes' `tangent_line_1`, measure along the full north
dam line between the projections, and record the row. -/
noncomputable def process_one_ditch (closed_shapes : List ClosedShape)
    (north_dam_line : List RPt)
    (manual_projections : List ((String × String) × List RPt)) (ditch : Ditch) :
    DitchOutcome :=
  match make_shape_finder closed_shapes (ditch.points.headD default) with
  | none => .unresolvedStart ditch.riverpart ditch.code
  | some (_, start_shape) =>
    match make_shape_finder closed_shapes (ditch.points.getLastD default) with
    | none => .unresolvedEnd ditch.riverpart ditch.code
    | some (_, end_shape) =>
      .row
        { name := ditch.name
          date := ditch.date
          riverpart := ditch.riverpart
          code := ditch.code
          ditch_len := curveLen ditch.points
          dam_len :=
            curveLen (extract_subcurve north_dam_line
              (some (interpolate start_shape.tangent_line_1
                (project start_shape.tangent_line_1 (ditch.points.headD default))))
              (some (interpolate end_shape.tangent_line_1
                (project end_shape.tangent_line_1 (ditch.points.getLastD default)))))
          manual_len :=
            match lookupManual manual_projections (ditch.riverpart, ditch.code) with
            | some g => curveLen g
            | none => 0 }

/-- Embedding of `process_ditch_endpoints`: the ordered list of per-feature
outcomes.  `south_dam_line` is a parameter of the source function too; it is
used only for plotting there, hence unused here. -/
noncomputable def process_ditch_endpoints (ditchs : List Ditch)
    (closed_shapes : List ClosedShape)
    (north_dam_line south_dam_line : List RPt)
    (manual_projections : List ((String × String) × List RPt)) : List DitchOutcome :=
  ditchs.map (process_one_ditch closed_shapes north_dam_line manual_projections)

/-- The CSV rows among the outcomes. -/
def ditchRows (outcomes : List DitchOutcome) : List DitchRow :=
  outcomes.filterMap (fun o =>
    match o with
    | .row r => some r
    | _ => none)

/-- Modelled from the spec: the `lengthB` of
`projectFeatureEndpoints(feature, mesh, boundaryA, boundaryB) ->
{lengthA, lengthB, featureLength}` — project each located endpoint onto the
containing cell's tangent-line-B to get a point on boundary B, then measure
the full boundary B between the two projections.  The code of
`process_ditch_endpoints` has no counterpart of this quantity (it touches
only `tangent_line_1` and the north dam line); this definition follows the
spec's words, for comparison against the code's output. -/
noncomputable def specLengthB (closed_shapes : List ClosedShape)
    (south_dam_line : List RPt) (ditch : Ditch) : Option ℝ :=
  match make_shape_finder closed_shapes (ditch.points.headD default),
    make_shape_finder closed_shapes (ditch.points.getLastD default) with
  | some (_, s1), some (_, s2) =>
    some (curveLen (extract_subcurve south_dam_line
      (some (interpolate s1.tangent_line_2
        (project s1.tangent_line_2 (ditch.points.headD default))))
      (some (interpolate s2.tangent_line_2
        (project s2.tangent_line_2 (ditch.points.getLastD default))))))
  | _, _ => none

/-! ### Curve stitcher (src/processing/merging.py)

The stitcher compares distances and coordinates but never measures arc
length, so it lives in the exact rational world; its arc lengths are read
off afterwards by casting the points into the real world. -/

/-- A raw curve fragment (`geometry.polyline.Polyline`). -/
structure Polyline where
  id : String
  points : List Pt
deriving DecidableEq

instance : Inhabited Polyline := ⟨⟨"", []⟩⟩

/-- First point of a fragment (`polyline.points[0]`). -/
def headPt (l : List Pt) : Pt := l.headD default

/-- Last point of a fragment (`polyline.points[-1]`). -/
def lastPt (l : List Pt) : Pt := l.getLastD default

/-- Casting a rational point into the real plane. -/
noncomputable def ptR (p : Pt) : RPt := ⟨(p.x : ℝ), (p.y : ℝ)⟩

/-- Arc length of a rational polyline. -/
noncomputable def curveLenQ (l : List Pt) : ℝ := curveLen (l.map ptR)

/-- One endpoint inspection of `find_starting_polyline`: replace the
current best on a lexicographically strictly smaller `(x, y)`; the stored
point list is oriented so the inspected endpoint comes first (the source
reverses unless the endpoint equals `points[0]`). -/
def considerStart (st : Option (Pt × Polyline × List Pt)) (pl : Polyline) (pt : Pt) :
    Option (Pt × Polyline × List Pt) :=
  match st with
  | none =>
    some (pt, pl, if pt = headPt pl.points then pl.points else pl.points.reverse)
  | some (mp, _, _) =>
    if pt.x < mp.x ∨ (pt.x = mp.x ∧ pt.y < mp.y) then
      some (pt, pl, if pt = headPt pl.points then pl.points else pl.points.reverse)
    else st

/-- Embedding of `find_starting_polyline`: scan every fragment's two
endpoints for the lexicographically smallest point. -/
def find_starting_polyline (polylines : List Polyline) : Option (Polyline × List Pt) :=
  match polylines.foldl
    (fun st pl => considerStart (considerStart st pl (headPt pl.points)) pl (lastPt pl.points))
    none with
  | none => none
  | some (_, pl, pts) => some (pl, pts)

/-- One fragment inspection of `find_closest_polyline`: first the distance
to the fragment's first point, then to its last point, each replacing the
best on a strict improvement.  The Boolean records
`best_orientation_is_reversed`.  `none` stands for the initial infinite
distance.  Distances compare by squares. -/
def closestStep (current_end : Pt) (st : Option (Polyline × Bool × ℚ)) (pl : Polyline) :
    Option (Polyline × Bool × ℚ) :=
  let st1 :=
    match st with
    | none => some (pl, false, sqDist current_end (headPt pl.points))
    | some (_, _, d) =>
      if sqDist current_end (headPt pl.points) < d then
        some (pl, false, sqDist current_end (headPt pl.points))
      else st
  match st1 with
  | none => some (pl, true, sqDist current_end (lastPt pl.points))
  | some (_, _, d) =>
    if sqDist current_end (lastPt pl.points) < d then
      some (pl, true, sqDist current_end (lastPt pl.points))
    else st1

/-- Embedding of `find_closest_polyline`: the fragment nearest to
`current_end`, its points oriented so the nearer endpoint comes first, and
the (squared) distance; `none` for an empty pool (the source's
`(None, [], inf)`). -/
def find_closest_polyline (current_end : Pt) (polylines : List Polyline) :
    Option (Polyline × List Pt × ℚ) :=
  match polylines.foldl (closestStep current_end) none with
  | none => none
  | some (pl, rev, d) => some (pl, if rev then pl.points.reverse else pl.points, d)

/-- The `while polylines_to_process` loop of `merge_polylines`: grow the
merged chain at whichever end has the nearer remaining fragment
(`dist_to_start < dist_to_end` prefers the head), dropping the duplicated
junction point.  One fragment is consumed per iteration, so fuel
`polylines.length` suffices. -/
def mergeLoop : Nat → List Pt → List Polyline → List Pt
  | 0, merged, _ => merged
  | _ + 1, merged, [] => merged
  | fuel + 1, merged, pl :: pls =>
    match find_closest_polyline (lastPt merged) (pl :: pls),
      find_closest_polyline (headPt merged) (pl :: pls) with
    | none, none => merged
    | none, some (pre, prePts, _) =>
      mergeLoop fuel (prePts.reverse.dropLast ++ merged) ((pl :: pls).erase pre)
    | some (app, appPts, _), none =>
      mergeLoop fuel (merged ++ appPts.tail) ((pl :: pls).erase app)
    | some (app, appPts, dEnd), some (pre, prePts, dStart) =>
      if dStart < dEnd then
        mergeLoop fuel (prePts.reverse.dropLast ++ merged) ((pl :: pls).erase pre)
      else
        mergeLoop fuel (merged ++ appPts.tail) ((pl :: pls).erase app)

/-- Embedding of `merge_polylines` (the bidirectional-growth version):
`None` on an empty input, otherwise start from the fragment holding the
lexicographically smallest endpoint and grow in both directions. -/
def merge_polylines (polylines : List Polyline) : Option Polyline :=
  match polylines with
  | [] => none
  | _ :: _ =>
    match find_starting_polyline polylines with
    | none => none
    | some (sp, pts) => some ⟨"merged", mergeLoop polylines.length pts (polylines.erase sp)⟩

/-! ### Concrete fixtures exercising the endpoint projector -/

/-- North dam line of the concrete projector example. -/
noncomputable def northLineW : List RPt := [⟨0, 0⟩, ⟨4, 0⟩]

/-- South dam line of the concrete projector example (slanted, length 5). -/
noncomputable def southLineW : List RPt := [⟨0, 2⟩, ⟨3, 6⟩]

/-- One rectangular mesh cell over the strip between the two dam lines. -/
noncomputable def squareCellW : ClosedShape :=
  ⟨[⟨0, 0⟩, ⟨4, 0⟩, ⟨4, 2⟩, ⟨0, 2⟩, ⟨0, 0⟩], [⟨0, 0⟩, ⟨0, 2⟩], [⟨4, 0⟩, ⟨4, 2⟩],
    [⟨0, 0⟩, ⟨4, 0⟩], [⟨0, 2⟩, ⟨3, 6⟩], [⟨0, 0⟩, ⟨4, 0⟩, ⟨4, 2⟩, ⟨0, 2⟩, ⟨0, 0⟩]⟩

/-- A feature whose two endpoints lie strictly inside the cell. -/
noncomputable def goodDitchW : Ditch := ⟨"n", "d", "r", "good", [⟨1, 1⟩, ⟨3, 1⟩]⟩

/-- A feature whose endpoints lie outside every cell. -/
noncomputable def badDitchW : Ditch := ⟨"n", "d", "r", "bad", [⟨10, 10⟩, ⟨11, 10⟩]⟩

/-! ### Faithful-projection hypotheses for the mesh builder analysis -/

/-- The arc-length parameterization of the polyline is injective on the
curve: curves that never revisit a coordinate (the normal situation for a
bankline) satisfy this. -/
def InjInterp (l : List RPt) : Prop :=
  ∀ d1 d2 : ℝ, 0 ≤ d1 → d1 ≤ curveLen l → 0 ≤ d2 → d2 ≤ curveLen l →
    interpolate l d1 = interpolate l d2 → d1 = d2

/-- Every edge of the (suffix of the) polyline whose clamped nearest-point
candidate coincides with `p` sits at arc position `d`; `acc` is the arc
length consumed before the suffix. -/
def EdgeZeros (p : RPt) (d : ℝ) : List RPt → ℝ → Prop
  | a :: b :: rest, acc =>
    (sqDistR p (lerp a b (edgeParam a b p)) = 0 →
      acc + edgeParam a b p * rdist a b = d) ∧
    EdgeZeros p d (b :: rest) (acc + rdist a b)
  | _, _ => True

/-- Some edge of the polyline has its clamped nearest-point candidate
exactly at `p`. -/
def EdgeHitsZero (p : RPt) : List RPt → Prop
  | a :: b :: rest =>
    sqDistR p (lerp a b (edgeParam a b p)) = 0 ∨ EdgeHitsZero p (b :: rest)
  | _ => False

/-- A self-overlapping north line used to refute the halving argument of
the recursive bisection: it runs right to (4,0), back to (1,0) and up to
(1,3), so its arc midpoint (3,0) already occurs at arc position 3. -/
noncomputable def c9U : List RPt := [⟨0, 0⟩, ⟨4, 0⟩, ⟨1, 0⟩, ⟨1, 3⟩]

/-! ### Path-decomposition predicates for the stitcher analysis -/

/-- Modelled from the spec: the expected simple path, as an ordered list of
fragment chunks; joining drops each duplicated junction point. -/
def joinChunks : List (List Pt) → List Pt
  | [] => []
  | c :: cs => c ++ (joinChunks cs).tail

/-- Consecutive chunks share their junction endpoint exactly. -/
def Chained : List (List Pt) → Prop
  | c1 :: c2 :: cs => lastPt c1 = headPt c2 ∧ Chained (c2 :: cs)
  | _ => True

/-- The junction points of a decomposition: every chunk head plus the
final endpoint. A simple path has pairwise distinct junctions. -/
def junctions (frags : List (List Pt)) : List Pt :=
  frags.map headPt ++ [lastPt (frags.getLastD [])]

/-- The chunks form a chain leaving from `v`, scanning forward. -/
def ChainFrom : Pt → List (List Pt) → Prop
  | _, [] => True
  | v, c :: cs => headPt c = v ∧ ChainFrom (lastPt c) cs

/-- The chunks form a chain arriving at `v`, listed nearest-first. -/
def ChainFromRev : Pt → List (List Pt) → Prop
  | _, [] => True
  | v, c :: cs => lastPt c = v ∧ ChainFromRev (headPt c) cs

/-- A pool fragment carries a chunk in either orientation. -/
def ChunkOf (pl : Polyline) (c : List Pt) : Prop :=
  pl.points = c ∨ pl.points = c.reverse

/-! ### Theorems: basic geometry -/

theorem boundsOverlap_symm {s t : Seg} (h : boundsOverlap s t) : boundsOverlap t s := by
  obtain ⟨h1, h2, h3, h4⟩ := h
  exact ⟨h2, h1, h4, h3⟩

theorem segIntersects_symm {s t : Seg} (h : segIntersects s t) : segIntersects t s := by
  unfold segIntersects at h ⊢
  tauto

/-- A point of both bounding boxes forces the boxes to overlap. -/
theorem boundsOverlap_of_common_point {s t : Seg} {p : Pt}
    (hs : inBox s.a s.b p) (ht : inBox t.a t.b p) : boundsOverlap s t := by
  obtain ⟨hs1, hs2, hs3, hs4⟩ := hs
  obtain ⟨ht1, ht2, ht3, ht4⟩ := ht
  exact ⟨le_trans hs1 ht2, le_trans ht1 hs2, le_trans hs3 ht4, le_trans ht3 hs4⟩

/-- Convexity: a point interpolated with parameter `0 ≤ u ≤ 1` stays in the
coordinate interval of the two endpoints. -/
theorem convex_coord_mem {a b u : ℚ} (h0 : 0 ≤ u) (h1 : u ≤ 1) :
    min a b ≤ a + u * (b - a) ∧ a + u * (b - a) ≤ max a b := by
  rcases le_total a b with hab | hab
  · constructor
    · calc min a b ≤ a := min_le_left a b
        _ ≤ a + u * (b - a) := by nlinarith
    · calc a + u * (b - a) ≤ b := by nlinarith
        _ ≤ max a b := le_max_right a b
  · constructor
    · calc min a b ≤ b := min_le_right a b
        _ ≤ a + u * (b - a) := by nlinarith
    · calc a + u * (b - a) ≤ a := by nlinarith
        _ ≤ max a b := le_max_left a b

/-- The orientation test is affine in its third argument along a segment. -/
theorem orient_affine (u v a b w : Pt) (t : ℚ)
    (hx : w.x = a.x + t * (b.x - a.x)) (hy : w.y = a.y + t * (b.y - a.y)) :
    orient u v w = (1 - t) * orient u v a + t * orient u v b := by
  unfold orient
  rw [hx, hy]
  ring

theorem orient_self_right (p q : Pt) : orient p q q = 0 := by
  unfold orient; ring

theorem orient_self_mid (p q : Pt) : orient p q p = 0 := by
  unfold orient; ring

theorem inBox_self_left (p q : Pt) : inBox p q p :=
  ⟨min_le_left _ _, le_max_left _ _, min_le_left _ _, le_max_left _ _⟩

theorem inBox_self_right (p q : Pt) : inBox p q q :=
  ⟨min_le_right _ _, le_max_right _ _, min_le_right _ _, le_max_right _ _⟩

/-- A segment parameter defined by oppositely signed orientation values lies
in the unit interval. -/
theorem param_unit_of_signs {d3 d4 s1 : ℚ} (h : s1 * (d3 - d4) = d3)
    (hsign : (0 < d3 ∧ d4 < 0) ∨ (d3 < 0 ∧ 0 < d4)) : 0 ≤ s1 ∧ s1 ≤ 1 := by
  rcases hsign with ⟨a1, a2⟩ | ⟨a1, a2⟩
  · have hd : 0 < d3 - d4 := by linarith
    have hs1 : s1 = d3 / (d3 - d4) := by
      rw [eq_div_iff (ne_of_gt hd)]; exact h
    refine ⟨?_, ?_⟩
    · rw [hs1]; exact div_nonneg a1.le hd.le
    · rw [hs1, div_le_one hd]; linarith
  · have hd : 0 < d4 - d3 := by linarith
    have h' : s1 * (d4 - d3) = -d3 := by linear_combination -h
    have hs1 : s1 = (-d3) / (d4 - d3) := by
      rw [eq_div_iff (ne_of_gt hd)]; exact h'
    refine ⟨?_, ?_⟩
    · rw [hs1]; exact div_nonneg (by linarith) hd.le
    · rw [hs1, div_le_one hd]; linarith

/-- A vector with zero cross product against a nonzero vector is a scalar
multiple of it. -/
theorem collinear_decompose {vx vy wx wy : ℚ} (hv : vx ^ 2 + vy ^ 2 ≠ 0)
    (h : vx * wy - vy * wx = 0) :
    wx = ((wx * vx + wy * vy) / (vx ^ 2 + vy ^ 2)) * vx ∧
    wy = ((wx * vx + wy * vy) / (vx ^ 2 + vy ^ 2)) * vy := by
  constructor
  · field_simp
    linear_combination (-vy) * h
  · field_simp
    linear_combination vx * h

/-- A proper crossing yields a common point, hence a point of both bounding
boxes. -/
theorem proper_cross_common_point {s t : Seg}
    (hs : (0 < orient t.a t.b s.a ∧ orient t.a t.b s.b < 0) ∨
          (orient t.a t.b s.a < 0 ∧ 0 < orient t.a t.b s.b))
    (ht : (0 < orient s.a s.b t.a ∧ orient s.a s.b t.b < 0) ∨
          (orient s.a s.b t.a < 0 ∧ 0 < orient s.a s.b t.b)) :
    ∃ p : Pt, inBox s.a s.b p ∧ inBox t.a t.b p := by
  set d1 := orient t.a t.b s.a with hd1
  set d2 := orient t.a t.b s.b with hd2
  set d3 := orient s.a s.b t.a with hd3
  set d4 := orient s.a s.b t.b with hd4
  have hden : d1 - d2 ≠ 0 := by
    rcases hs with ⟨h1, h2⟩ | ⟨h1, h2⟩ <;> intro hc <;> linarith
  set u := d1 / (d1 - d2) with hu
  have hueq : u * (d1 - d2) = d1 := div_mul_cancel₀ d1 hden
  obtain ⟨hu0, hu1⟩ := param_unit_of_signs hueq hs
  refine ⟨⟨s.a.x + u * (s.b.x - s.a.x), s.a.y + u * (s.b.y - s.a.y)⟩, ?_, ?_⟩
  · obtain ⟨cx1, cx2⟩ := convex_coord_mem (a := s.a.x) (b := s.b.x) hu0 hu1
    obtain ⟨cy1, cy2⟩ := convex_coord_mem (a := s.a.y) (b := s.b.y) hu0 hu1
    exact ⟨cx1, cx2, cy1, cy2⟩
  · set p : Pt := ⟨s.a.x + u * (s.b.x - s.a.x), s.a.y + u * (s.b.y - s.a.y)⟩ with hp
    -- p lies on the line through t
    have hop : orient t.a t.b p = 0 := by
      have haff := orient_affine t.a t.b s.a s.b p u rfl rfl
      rw [← hd1, ← hd2] at haff
      rw [haff]
      rw [hu]
      field_simp
      ring
    -- t is nondegenerate
    have hv : (t.b.x - t.a.x) ^ 2 + (t.b.y - t.a.y) ^ 2 ≠ 0 := by
      intro hc
      have h1 : t.b.x - t.a.x = 0 := by
        nlinarith [sq_nonneg (t.b.x - t.a.x), sq_nonneg (t.b.y - t.a.y)]
      have h2 : t.b.y - t.a.y = 0 := by
        nlinarith [sq_nonneg (t.b.x - t.a.x), sq_nonneg (t.b.y - t.a.y)]
      have hdd : d3 - d4 =
          (s.b.y - s.a.y) * (t.b.x - t.a.x) - (s.b.x - s.a.x) * (t.b.y - t.a.y) := by
        rw [hd3, hd4]; unfold orient; ring
      rw [h1, h2] at hdd
      rcases ht with ⟨a1, a2⟩ | ⟨a1, a2⟩ <;> nlinarith [hdd]
    have hcross : (t.b.x - t.a.x) * (p.y - t.a.y) - (t.b.y - t.a.y) * (p.x - t.a.x) = 0 := by
      have := hop
      rw [hd1] at *
      unfold orient at this
      linarith [this]
    obtain ⟨hwx, hwy⟩ := collinear_decompose hv hcross
    set s1 : ℚ := ((p.x - t.a.x) * (t.b.x - t.a.x) + (p.y - t.a.y) * (t.b.y - t.a.y)) /
      ((t.b.x - t.a.x) ^ 2 + (t.b.y - t.a.y) ^ 2) with hs1def
    have hx : p.x = t.a.x + s1 * (t.b.x - t.a.x) := by linarith [hwx]
    have hy : p.y = t.a.y + s1 * (t.b.y - t.a.y) := by linarith [hwy]
    -- p lies on the line through s as well
    have hps : orient s.a s.b p = 0 := by
      have haff := orient_affine s.a s.b s.a s.b p u rfl rfl
      rw [haff, orient_self_mid, orient_self_right]
      ring
    have haffT := orient_affine s.a s.b t.a t.b p s1 hx hy
    rw [← hd3, ← hd4, hps] at haffT
    have hs1eq : s1 * (d3 - d4) = d3 := by linear_combination haffT
    obtain ⟨hs10, hs11⟩ := param_unit_of_signs hs1eq ht
    obtain ⟨cx1, cx2⟩ := convex_coord_mem (a := t.a.x) (b := t.b.x) hs10 hs11
    obtain ⟨cy1, cy2⟩ := convex_coord_mem (a := t.a.y) (b := t.b.y) hs10 hs11
    rw [← hx] at cx1 cx2
    rw [← hy] at cy1 cy2
    exact ⟨cx1, cx2, cy1, cy2⟩

/-- Intersecting segments always have overlapping bounding boxes, so the
R-tree candidate prefilter in `remove_crossing_normals` never discards an
intersecting pair. -/
theorem segIntersects_boundsOverlap {s t : Seg} (h : segIntersects s t) :
    boundsOverlap s t := by
  rcases h with ⟨hs, ht⟩ | ⟨_, hb⟩ | ⟨_, hb⟩ | ⟨_, hb⟩ | ⟨_, hb⟩
  · obtain ⟨p, hp1, hp2⟩ := proper_cross_common_point hs ht
    exact boundsOverlap_of_common_point hp1 hp2
  · exact boundsOverlap_of_common_point (inBox_self_left s.a s.b) hb
  · exact boundsOverlap_of_common_point (inBox_self_right s.a s.b) hb
  · exact boundsOverlap_of_common_point hb (inBox_self_left t.a t.b)
  · exact boundsOverlap_of_common_point hb (inBox_self_right t.a t.b)

/-! ### Theorems: the conflict resolver -/

theorem crossPair_symm {ts : List Transect} {i j : Nat} (h : crossPair ts i j) :
    crossPair ts j i := by
  obtain ⟨hne, hb, hs⟩ := h
  exact ⟨hne.symm, boundsOverlap_symm (boundsOverlap_symm (boundsOverlap_symm hb)),
    segIntersects_symm hs⟩

/-- Counting helper: flipping one listed element of a Boolean predicate from
`true` to `false` drops the filter length by one. -/
theorem filter_length_flip {l : List Nat} (hl : l.Nodup) {f g : Nat → Bool} {k : Nat}
    (hfg : ∀ j, j ≠ k → f j = g j) (hf : f k = true) (hg : g k = false) (hk : k ∈ l) :
    (l.filter f).length = (l.filter g).length + 1 := by
  induction l with
  | nil => cases hk
  | cons a l ih =>
    rcases List.mem_cons.1 hk with rfl | hk'
    · have hnotin : k ∉ l := (List.nodup_cons.1 hl).1
      have hsame : l.filter f = l.filter g :=
        List.filter_congr (fun j hj => hfg j (fun hEq => hnotin (hEq ▸ hj)))
      simp [List.filter_cons, hf, hg, hsame]
    · have hne : a ≠ k := by rintro rfl; exact (List.nodup_cons.1 hl).1 hk'
      have hfa : f a = g a := hfg a hne
      have hrec := ih (List.nodup_cons.1 hl).2 hk'
      rw [List.filter_cons, List.filter_cons, hfa]
      cases hga : g a
      · simpa [hga] using hrec
      · simpa [hga] using hrec

/-- Counting helper: two predicates agreeing off `k` and both false at `k`
filter identically. -/
theorem filter_congr_off {l : List Nat} {f g : Nat → Bool} {k : Nat}
    (hfg : ∀ j, j ≠ k → f j = g j) (hf : f k = false) (hg : g k = false) :
    l.filter f = l.filter g := by
  refine List.filter_congr (fun j _ => ?_)
  by_cases hj : j = k
  · rw [hj, hf, hg]
  · exact hfg j hj

theorem removeStep_alive (s : RState) (k : Nat) :
    (removeStep s k).alive = Function.update s.alive k false := rfl

theorem removeStep_crossings (s : RState) (k m : Nat) :
    (removeStep s k).crossings m =
      if m ∈ s.pairs k ∧ Function.update s.alive k false m = true
      then s.crossings m - 1 else s.crossings m := rfl

theorem removeStep_pairs (s : RState) (k m : Nat) :
    (removeStep s k).pairs m =
      if m ∈ s.pairs k ∧ Function.update s.alive k false m = true
      then (s.pairs m).erase k else s.pairs m := rfl

theorem removeStep_alive_iff {s : RState} {k m : Nat} :
    (removeStep s k).alive m = true ↔ m ≠ k ∧ s.alive m = true := by
  rw [removeStep_alive]
  by_cases hm : m = k
  · subst hm; rw [Function.update_same]; simp
  · rw [Function.update_noteq hm]; simp [hm]

/-- A live transect's membership in anyone's current pair set forces the
symmetric crossing relation. -/
theorem mem_initPairs_iff {ts : List Transect} {i j : Nat} :
    j ∈ initPairs ts i ↔ j < ts.length ∧ crossPair ts i j := by
  unfold initPairs
  rw [List.mem_filter, List.mem_range]
  simp

theorem removeStep_CrossInv {ts : List Transect} {s : RState} {k : Nat}
    (hk : k < ts.length) (hkAlive : s.alive k = true)
    (hc : CrossInv ts s) (hp : PairsInv ts s) :
    CrossInv ts (removeStep s k) := by
  intro m hm hmAlive
  obtain ⟨hmk, hmAliveOld⟩ := removeStep_alive_iff.1 hmAlive
  have hAliveNext : Function.update s.alive k false m = true := by
    rw [Function.update_noteq hmk]; exact hmAliveOld
  have hcm := hc m hm hmAliveOld
  by_cases hmem : m ∈ s.pairs k
  · -- the counter of m is decremented and the live partner k disappears
    have hcount :
        ((List.range ts.length).filter
          (fun j => s.alive j && decide (crossPair ts m j))).length =
        ((List.range ts.length).filter
          (fun j => (removeStep s k).alive j && decide (crossPair ts m j))).length + 1 := by
      refine filter_length_flip (List.nodup_range ts.length) ?_ ?_ ?_
        (List.mem_range.2 hk)
      · intro j hj
        have : (removeStep s k).alive j = s.alive j := by
          rw [removeStep_alive, Function.update_noteq hj]
        rw [this]
      · have hmk' : m ∈ initPairs ts k ∧ s.alive m = true :=
          (hp k hk hkAlive m).1 hmem
        have hcp : crossPair ts m k := crossPair_symm (mem_initPairs_iff.1 hmk'.1).2
        simp [hkAlive, hcp]
      · have : (removeStep s k).alive k = false := by
          rw [removeStep_alive, Function.update_same]
        simp [this]
    have hval : (removeStep s k).crossings m = s.crossings m - 1 := by
      rw [removeStep_crossings, if_pos ⟨hmem, hAliveNext⟩]
    rw [hval, hcm]
    rw [hcount]
    push_cast
    ring
  · -- m is unaffected, and k was never among its crossing partners
    have hnotc : ¬ crossPair ts m k := by
      intro hcp
      have : m ∈ s.pairs k := by
        refine (hp k hk hkAlive m).2 ⟨?_, hmAliveOld⟩
        exact mem_initPairs_iff.2 ⟨hm, crossPair_symm hcp⟩
      exact hmem this
    have hcount :
        ((List.range ts.length).filter
          (fun j => s.alive j && decide (crossPair ts m j))) =
        ((List.range ts.length).filter
          (fun j => (removeStep s k).alive j && decide (crossPair ts m j))) := by
      refine filter_congr_off ?_ ?_ ?_ (k := k)
      · intro j hj
        have : (removeStep s k).alive j = s.alive j := by
          rw [removeStep_alive, Function.update_noteq hj]
        rw [this]
      · simp [hnotc]
      · simp [hnotc]
    have hval : (removeStep s k).crossings m = s.crossings m := by
      rw [removeStep_crossings, if_neg (fun hcon => hmem hcon.1)]
    rw [hval, hcm, hcount]

theorem removeStep_PairsInv {ts : List Transect} {s : RState} {k : Nat}
    (hk : k < ts.length) (hkAlive : s.alive k = true)
    (hp : PairsInv ts s) (hn : NodupPairs s) :
    PairsInv ts (removeStep s k) := by
  intro m hm hmAlive j
  obtain ⟨hmk, hmAliveOld⟩ := removeStep_alive_iff.1 hmAlive
  have hAliveNext : Function.update s.alive k false m = true := by
    rw [Function.update_noteq hmk]; exact hmAliveOld
  have hAliveNext_iff : ∀ j : Nat, (Function.update s.alive k false j = true) ↔
      (j ≠ k ∧ s.alive j = true) := by
    intro j
    constructor
    · intro h
      by_cases hj : j = k
      · subst hj; rw [Function.update_same] at h; cases h
      · rw [Function.update_noteq hj] at h; exact ⟨hj, h⟩
    · rintro ⟨hj, h⟩; rw [Function.update_noteq hj]; exact h
  by_cases hmem : m ∈ s.pairs k
  · have hval : (removeStep s k).pairs m = (s.pairs m).erase k := by
      unfold removeStep
      simp only []
      rw [if_pos ⟨hmem, hAliveNext⟩]
    rw [hval, (hn m).mem_erase_iff]
    rw [hp m hm hmAliveOld j]
    show (j ≠ k ∧ (j ∈ initPairs ts m ∧ s.alive j = true)) ↔ _
    constructor
    · rintro ⟨hjk, hji, hja⟩
      refine ⟨hji, ?_⟩
      show Function.update s.alive k false j = true
      exact (hAliveNext_iff j).2 ⟨hjk, hja⟩
    · rintro ⟨hji, hja⟩
      obtain ⟨hjk, hja'⟩ := (hAliveNext_iff j).1 hja
      exact ⟨hjk, hji, hja'⟩
  · have hval : (removeStep s k).pairs m = s.pairs m := by
      rw [removeStep_pairs, if_neg (fun hcon => hmem hcon.1)]
    rw [hval, hp m hm hmAliveOld j]
    constructor
    · rintro ⟨hji, hja⟩
      refine ⟨hji, ?_⟩
      show Function.update s.alive k false j = true
      refine (hAliveNext_iff j).2 ⟨?_, hja⟩
      rintro rfl
      -- j = k would put k among m's partners, contradicting hmem
      have : m ∈ s.pairs j := by
        refine (hp j hk hkAlive m).2 ⟨?_, hmAliveOld⟩
        exact mem_initPairs_iff.2 ⟨hm, crossPair_symm (mem_initPairs_iff.1 hji).2⟩
      exact hmem this
    · rintro ⟨hji, hja⟩
      obtain ⟨hjk, hja'⟩ := (hAliveNext_iff j).1 hja
      exact ⟨hji, hja'⟩

theorem removeStep_NodupPairs {s : RState} {k : Nat} (hn : NodupPairs s) :
    NodupPairs (removeStep s k) := by
  intro m
  rw [removeStep_pairs]
  by_cases hcond : m ∈ s.pairs k ∧ Function.update s.alive k false m = true
  · rw [if_pos hcond]; exact (hn m).erase k
  · rw [if_neg hcond]; exact hn m

theorem removeStep_aliveCount {n : Nat} {s : RState} {k : Nat}
    (hk : k < n) (hkAlive : s.alive k = true) :
    aliveCount n s = aliveCount n (removeStep s k) + 1 := by
  unfold aliveCount
  refine filter_length_flip (List.nodup_range n) ?_ hkAlive ?_ (List.mem_range.2 hk)
  · intro j hj
    show s.alive j = (removeStep s k).alive j
    rw [removeStep_alive, Function.update_noteq hj]
  · show (removeStep s k).alive k = false
    rw [removeStep_alive, Function.update_same]

theorem mem_candidates {n : Nat} {s : RState} {i : Nat} :
    i ∈ candidates n s ↔ i < n ∧ s.alive i = true ∧ 0 < s.crossings i := by
  unfold candidates
  rw [List.mem_filter, List.mem_range]
  simp [and_assoc]

theorem pickMax_mem (s : RState) : ∀ (best : Nat) (l : List Nat),
    pickMax s best l ∈ best :: l := by
  intro best l
  induction l generalizing best with
  | nil => simp [pickMax]
  | cons i rest ih =>
    rw [pickMax]
    have hmem := ih (if s.crossings best < s.crossings i then i else best)
    rcases List.mem_cons.1 hmem with h | h
    · rw [h]
      by_cases hlt : s.crossings best < s.crossings i
      · simp [hlt]
      · simp [hlt]
    · simp [List.mem_cons.2 (Or.inr h)]

theorem resolveLoop_spec (ts : List Transect) :
    ∀ (fuel : Nat) (s : RState), CrossInv ts s → PairsInv ts s → NodupPairs s →
      aliveCount ts.length s ≤ fuel →
      CrossInv ts (resolveLoop ts.length fuel s) ∧
      candidates ts.length (resolveLoop ts.length fuel s) = [] := by
  intro fuel
  induction fuel with
  | zero =>
    intro s hc hp hn hcount
    rw [resolveLoop]
    refine ⟨hc, ?_⟩
    have hempty : ((List.range ts.length).filter (fun i => s.alive i)).length = 0 :=
      Nat.le_zero.1 hcount
    rw [List.length_eq_zero] at hempty
    unfold candidates
    rw [List.filter_eq_nil]
    intro i hi hcontra
    have halive : s.alive i = true := by
      simp only [Bool.and_eq_true] at hcontra
      exact hcontra.1
    have : i ∈ (List.range ts.length).filter (fun i => s.alive i) :=
      List.mem_filter.2 ⟨hi, halive⟩
    rw [hempty] at this
    cases this
  | succ fuel ih =>
    intro s hc hp hn hcount
    rw [resolveLoop]
    cases hcand : candidates ts.length s with
    | nil => exact ⟨hc, hcand⟩
    | cons c cs =>
      have hkmem : pickMax s c cs ∈ candidates ts.length s := by
        rw [hcand]; exact pickMax_mem s c cs
      obtain ⟨hk, hkAlive, _⟩ := mem_candidates.1 hkmem
      refine ih (removeStep s (pickMax s c cs))
        (removeStep_CrossInv hk hkAlive hc hp)
        (removeStep_PairsInv hk hkAlive hp hn)
        (removeStep_NodupPairs hn)
        ?_
      have := removeStep_aliveCount (s := s) (k := pickMax s c cs) hk hkAlive
      omega

/-- After the loop finishes, no two distinct live transects intersect. -/
theorem resolve_no_live_crossing (ts : List Transect) {i j : Nat}
    (hi : i < ts.length) (hj : j < ts.length)
    (hai : (resolveLoop ts.length ts.length (initState ts)).alive i = true)
    (haj : (resolveLoop ts.length ts.length (initState ts)).alive j = true)
    (hij : i ≠ j) :
    ¬ segIntersects (spanAt ts i) (spanAt ts j) := by
  have hinit_cross : CrossInv ts (initState ts) := by
    intro m hm _
    have hsame : ((List.range ts.length).filter
        (fun j => (initState ts).alive j && decide (crossPair ts m j))) = initPairs ts m := by
      unfold initPairs
      refine List.filter_congr fun j _ => ?_
      show (true && decide (crossPair ts m j)) = decide (crossPair ts m j)
      rw [Bool.true_and]
    show initCrossings ts m = _
    rw [hsame]
    rfl
  have hinit_pairs : PairsInv ts (initState ts) := by
    intro m hm _ j
    show j ∈ initPairs ts m ↔ j ∈ initPairs ts m ∧ true = true
    simp
  have hinit_nodup : NodupPairs (initState ts) := fun i => (List.nodup_range _).filter _
  have hcount : aliveCount ts.length (initState ts) ≤ ts.length := by
    unfold aliveCount
    calc ((List.range ts.length).filter (fun i => (initState ts).alive i)).length
        ≤ (List.range ts.length).length := List.length_filter_le _ _
      _ = ts.length := List.length_range ts.length
  obtain ⟨hfc, hcand⟩ := resolveLoop_spec ts ts.length (initState ts)
    hinit_cross hinit_pairs hinit_nodup hcount
  intro hint
  have hle : ¬ (0 < (resolveLoop ts.length ts.length (initState ts)).crossings i) := by
    intro hpos
    have hmem : i ∈ candidates ts.length (resolveLoop ts.length ts.length (initState ts)) :=
      mem_candidates.2 ⟨hi, hai, hpos⟩
    rw [hcand] at hmem
    cases hmem
  have hcmi := hfc i hi hai
  rw [hcmi] at hle
  have hcard0 : ((List.range ts.length).filter
      (fun j => (resolveLoop ts.length ts.length (initState ts)).alive j &&
        decide (crossPair ts i j))).length = 0 := by omega
  have hcp : crossPair ts i j :=
    ⟨hij.symm, boundsOverlap_symm (segIntersects_boundsOverlap hint), hint⟩
  have hjmem : j ∈ (List.range ts.length).filter
      (fun j => (resolveLoop ts.length ts.length (initState ts)).alive j &&
        decide (crossPair ts i j)) := by
    refine List.mem_filter.2 ⟨List.mem_range.2 hj, ?_⟩
    simp [haj, hcp]
  rw [List.length_eq_zero] at hcard0
  rw [hcard0] at hjmem
  cases hjmem

theorem remove_crossing_normals_eq (ts : List Transect) :
    remove_crossing_normals ts =
      (ts.enum.filter
        (fun ip => (resolveLoop ts.length ts.length (initState ts)).alive ip.1)).map
        (fun ip => ip.2) := rfl

/-- The output of the resolver is pairwise non-intersecting (both argument
orders). -/
theorem remove_crossing_normals_pairwise (ts : List Transect) :
    List.Pairwise
      (fun a b : Transect => ¬ segIntersects a.span b.span ∧ ¬ segIntersects b.span a.span)
      (remove_crossing_normals ts) := by
  rw [remove_crossing_normals_eq, List.pairwise_map]
  have hfst : List.Pairwise (fun p q : ℕ × Transect => p.1 ≠ q.1) ts.enum := by
    have h := List.nodup_enum_map_fst ts
    rw [List.Nodup, List.pairwise_map] at h
    exact h
  have hfilter := hfst.filter
    (fun ip => (resolveLoop ts.length ts.length (initState ts)).alive ip.1)
  refine hfilter.imp_of_mem ?_
  intro p q hp hq hne
  have hp' := List.mem_filter.1 hp
  have hq' := List.mem_filter.1 hq
  obtain ⟨hplen, hpget⟩ := List.get?_eq_some.1 ((List.mem_enum_iff_get?).1 hp'.1)
  obtain ⟨hqlen, hqget⟩ := List.get?_eq_some.1 ((List.mem_enum_iff_get?).1 hq'.1)
  have hpa : (resolveLoop ts.length ts.length (initState ts)).alive p.1 = true := by
    have := hp'.2; simpa using this
  have hqa : (resolveLoop ts.length ts.length (initState ts)).alive q.1 = true := by
    have := hq'.2; simpa using this
  have hspan_p : spanAt ts p.1 = p.2.span := by
    unfold spanAt
    rw [List.getD_eq_get?, List.get?_eq_get hplen, hpget]
    rfl
  have hspan_q : spanAt ts q.1 = q.2.span := by
    unfold spanAt
    rw [List.getD_eq_get?, List.get?_eq_get hqlen, hqget]
    rfl
  constructor
  · have := resolve_no_live_crossing ts hplen hqlen hpa hqa hne
    rwa [hspan_p, hspan_q] at this
  · have := resolve_no_live_crossing ts hqlen hplen hqa hpa (Ne.symm hne)
    rwa [hspan_p, hspan_q] at this

/-- C1: every pair of distinct transects in the list returned by the
Conflict Resolver `remove_crossing_normals` has non-intersecting spans. -/
theorem remove_crossing_normals_no_crossing (ts : List Transect) (i j : Nat)
    (hi : i < (remove_crossing_normals ts).length)
    (hj : j < (remove_crossing_normals ts).length) (hij : i ≠ j) :
    ¬ segIntersects ((remove_crossing_normals ts).get ⟨i, hi⟩).span
      ((remove_crossing_normals ts).get ⟨j, hj⟩).span := by
  have hpair := remove_crossing_normals_pairwise ts
  rw [List.pairwise_iff_get] at hpair
  rcases Nat.lt_or_ge i j with hlt | hge
  · exact (hpair ⟨i, hi⟩ ⟨j, hj⟩ (Fin.mk_lt_mk.2 hlt)).1
  · have hlt : j < i := Nat.lt_of_le_of_ne hge (Ne.symm hij)
    exact (hpair ⟨j, hj⟩ ⟨i, hi⟩ (Fin.mk_lt_mk.2 hlt)).2

/-- C1 witness: the theorem applied to a concrete two-transect input. -/
theorem remove_crossing_normals_no_crossing_witness :
    ¬ segIntersects
      ((remove_crossing_normals
        [⟨⟨0, 0⟩, ⟨⟨0, 0⟩, ⟨0, 1⟩⟩⟩, ⟨⟨1, 0⟩, ⟨⟨1, 0⟩, ⟨1, 1⟩⟩⟩]).get ⟨0, by decide⟩).span
      ((remove_crossing_normals
        [⟨⟨0, 0⟩, ⟨⟨0, 0⟩, ⟨0, 1⟩⟩⟩, ⟨⟨1, 0⟩, ⟨⟨1, 0⟩, ⟨1, 1⟩⟩⟩]).get ⟨1, by decide⟩).span :=
  remove_crossing_normals_no_crossing
    [⟨⟨0, 0⟩, ⟨⟨0, 0⟩, ⟨0, 1⟩⟩⟩, ⟨⟨1, 0⟩, ⟨⟨1, 0⟩, ⟨1, 1⟩⟩⟩] 0 1
    (by decide) (by decide) (by decide)

/-! ### Theorems: transect intersection selection -/

/-- The parametric intersection point lies on both closed segments. -/
theorem interPoint_onSeg {s t : Seg} {tp up : ℚ}
    (hden : (s.b.x - s.a.x) * (t.b.y - t.a.y) - (s.b.y - s.a.y) * (t.b.x - t.a.x) ≠ 0)
    (htp : tp = ((t.a.x - s.a.x) * (t.b.y - t.a.y) - (t.a.y - s.a.y) * (t.b.x - t.a.x)) /
      ((s.b.x - s.a.x) * (t.b.y - t.a.y) - (s.b.y - s.a.y) * (t.b.x - t.a.x)))
    (hup : up = ((t.a.x - s.a.x) * (s.b.y - s.a.y) - (t.a.y - s.a.y) * (s.b.x - s.a.x)) /
      ((s.b.x - s.a.x) * (t.b.y - t.a.y) - (s.b.y - s.a.y) * (t.b.x - t.a.x)))
    (ht0 : 0 ≤ tp) (ht1 : tp ≤ 1) (hu0 : 0 ≤ up) (hu1 : up ≤ 1) :
    onSeg s.a s.b ⟨s.a.x + tp * (s.b.x - s.a.x), s.a.y + tp * (s.b.y - s.a.y)⟩ ∧
    onSeg t.a t.b ⟨s.a.x + tp * (s.b.x - s.a.x), s.a.y + tp * (s.b.y - s.a.y)⟩ := by
  have hx2 : (⟨s.a.x + tp * (s.b.x - s.a.x), s.a.y + tp * (s.b.y - s.a.y)⟩ : Pt).x =
      t.a.x + up * (t.b.x - t.a.x) := by
    show s.a.x + tp * (s.b.x - s.a.x) = t.a.x + up * (t.b.x - t.a.x)
    subst htp hup
    field_simp
    ring
  have hy2 : (⟨s.a.x + tp * (s.b.x - s.a.x), s.a.y + tp * (s.b.y - s.a.y)⟩ : Pt).y =
      t.a.y + up * (t.b.y - t.a.y) := by
    show s.a.y + tp * (s.b.y - s.a.y) = t.a.y + up * (t.b.y - t.a.y)
    subst htp hup
    field_simp
    ring
  constructor
  · constructor
    · have haff := orient_affine s.a s.b s.a s.b
        ⟨s.a.x + tp * (s.b.x - s.a.x), s.a.y + tp * (s.b.y - s.a.y)⟩ tp rfl rfl
      rw [haff, orient_self_mid, orient_self_right]
      ring
    · obtain ⟨cx1, cx2⟩ := convex_coord_mem (a := s.a.x) (b := s.b.x) ht0 ht1
      obtain ⟨cy1, cy2⟩ := convex_coord_mem (a := s.a.y) (b := s.b.y) ht0 ht1
      exact ⟨cx1, cx2, cy1, cy2⟩
  · constructor
    · have haff := orient_affine t.a t.b t.a t.b
        ⟨s.a.x + tp * (s.b.x - s.a.x), s.a.y + tp * (s.b.y - s.a.y)⟩ up hx2 hy2
      rw [haff, orient_self_mid, orient_self_right]
      ring
    · obtain ⟨cx1, cx2⟩ := convex_coord_mem (a := t.a.x) (b := t.b.x) hu0 hu1
      obtain ⟨cy1, cy2⟩ := convex_coord_mem (a := t.a.y) (b := t.b.y) hu0 hu1
      rw [← hx2] at cx1 cx2
      rw [← hy2] at cy1 cy2
      exact ⟨cx1, cx2, cy1, cy2⟩

/-- A point produced by `segInterPoint` lies on both closed segments. -/
theorem segInterPoint_onSeg {s t : Seg} {p : Pt}
    (h : segInterPoint s t = some p) : onSeg s.a s.b p ∧ onSeg t.a t.b p := by
  simp only [segInterPoint] at h
  split_ifs at h with hden hcond
  rw [Option.some.injEq] at h
  subst h
  obtain ⟨ht0, ht1, hu0, hu1⟩ := hcond
  exact interPoint_onSeg hden rfl rfl ht0 ht1 hu0 hu1

theorem nearestPoint_mem (st : Pt) : ∀ (best : Pt) (l : List Pt),
    nearestPoint st best l ∈ best :: l := by
  intro best l
  induction l generalizing best with
  | nil => simp [nearestPoint]
  | cons i rest ih =>
    rw [nearestPoint]
    have hmem := ih (if sqDist i st < sqDist best st then i else best)
    rcases List.mem_cons.1 hmem with h | h
    · rw [h]
      by_cases hlt : sqDist i st < sqDist best st
      · simp [hlt]
      · simp [hlt]
    · simp [List.mem_cons.2 (Or.inr h)]

theorem nearestPoint_min (st : Pt) : ∀ (best : Pt) (l : List Pt) (q : Pt), q ∈ best :: l →
    sqDist (nearestPoint st best l) st ≤ sqDist q st := by
  intro best l
  induction l generalizing best with
  | nil =>
    intro q hq
    rcases List.mem_cons.1 hq with rfl | h
    · rw [nearestPoint]
    · cases h
  | cons i rest ih =>
    intro q hq
    rw [nearestPoint]
    have hstep : sqDist (if sqDist i st < sqDist best st then i else best) st ≤ sqDist best st ∧
        sqDist (if sqDist i st < sqDist best st then i else best) st ≤ sqDist i st := by
      by_cases hlt : sqDist i st < sqDist best st
      · rw [if_pos hlt]; exact ⟨hlt.le, le_refl _⟩
      · rw [if_neg hlt]; exact ⟨le_refl _, not_lt.1 hlt⟩
    have hself := ih (if sqDist i st < sqDist best st then i else best)
      (if sqDist i st < sqDist best st then i else best) (List.mem_cons.2 (Or.inl rfl))
    rcases List.mem_cons.1 hq with rfl | hq'
    · exact le_trans hself hstep.1
    · rcases List.mem_cons.1 hq' with rfl | hq''
      · exact le_trans hself hstep.2
      · exact ih _ q (List.mem_cons.2 (Or.inr hq''))

/-- Everything the selection stage guarantees for one boundary side. -/
theorem nearestIntersection_spec {station : Pt} {nline : Seg} {boundary : List Pt} {p : Pt}
    (h : nearestIntersection station nline boundary = some p) :
    p ∈ intersectionPoints nline boundary ∧
    (∀ q ∈ intersectionPoints nline boundary, sqDist p station ≤ sqDist q station) ∧
    (∃ e ∈ polylineEdges boundary, onSeg e.a e.b p) ∧
    onSeg nline.a nline.b p := by
  unfold nearestIntersection at h
  cases hcands : intersectionPoints nline boundary with
  | nil => rw [hcands] at h; cases h
  | cons c cs =>
    rw [hcands] at h
    rw [Option.some.injEq] at h
    subst h
    have hmem : nearestPoint station c cs ∈ intersectionPoints nline boundary := by
      rw [hcands]; exact nearestPoint_mem station c cs
    obtain ⟨e, he, hsome⟩ := List.mem_filterMap.1 hmem
    refine ⟨nearestPoint_mem station c cs, ?_, ⟨e, he, (segInterPoint_onSeg hsome).2⟩,
      (segInterPoint_onSeg hsome).1⟩
    intro q hq
    exact nearestPoint_min station c cs q hq

/-- C8: every transect emitted by the selection stage of the Transect
Generator has its two span endpoints exactly on boundary A (north) and
boundary B (south) respectively, each being the intersection of the normal
line with that boundary nearest to the station. -/
theorem normalSpanAt_spec (station : Pt) (nline : Seg) (north south : List Pt)
    (tr : Transect) (h : normalSpanAt station nline north south = some tr) :
    ((∃ e ∈ polylineEdges north, onSeg e.a e.b tr.span.a) ∧
      onSeg nline.a nline.b tr.span.a ∧
      tr.span.a ∈ intersectionPoints nline north ∧
      (∀ q ∈ intersectionPoints nline north, sqDist tr.span.a station ≤ sqDist q station)) ∧
    ((∃ e ∈ polylineEdges south, onSeg e.a e.b tr.span.b) ∧
      onSeg nline.a nline.b tr.span.b ∧
      tr.span.b ∈ intersectionPoints nline south ∧
      (∀ q ∈ intersectionPoints nline south, sqDist tr.span.b station ≤ sqDist q station)) := by
  unfold normalSpanAt at h
  cases hn : nearestIntersection station nline north with
  | none => rw [hn] at h; cases h
  | some np =>
    cases hs : nearestIntersection station nline south with
    | none => rw [hn, hs] at h; cases h
    | some sp =>
      rw [hn, hs] at h
      rw [Option.some.injEq] at h
      subst h
      obtain ⟨hmemN, hminN, honN, honLN⟩ := nearestIntersection_spec hn
      obtain ⟨hmemS, hminS, honS, honLS⟩ := nearestIntersection_spec hs
      exact ⟨⟨honN, honLN, hmemN, hminN⟩, ⟨honS, honLS, hmemS, hminS⟩⟩

/-- C8 witness: a concrete station whose normal line meets both boundaries. -/
theorem normalSpanAt_spec_witness :
    onSeg (Pt.mk 0 (-10)) (Pt.mk 0 10) (Pt.mk 0 2) ∧
    Pt.mk 0 2 ∈ intersectionPoints ⟨⟨0, -10⟩, ⟨0, 10⟩⟩ [⟨-1, 2⟩, ⟨1, 2⟩] := by
  have h := normalSpanAt_spec ⟨0, 0⟩ ⟨⟨0, -10⟩, ⟨0, 10⟩⟩ [⟨-1, 2⟩, ⟨1, 2⟩]
    [⟨-1, -3⟩, ⟨1, -3⟩] ⟨⟨0, 0⟩, ⟨⟨0, 2⟩, ⟨0, -3⟩⟩⟩ (by
      norm_num [normalSpanAt, nearestIntersection, intersectionPoints, polylineEdges,
        segInterPoint, nearestPoint, List.filterMap_cons])
  exact ⟨h.1.2.1, h.1.2.2.1⟩

/-! ### Theorems: real-curve basics -/

/-- Evaluation helper for concrete distances. -/
theorem rdist_eval {p q : RPt} {d : ℝ} (hd : 0 ≤ d)
    (h : (p.x - q.x) ^ 2 + (p.y - q.y) ^ 2 = d ^ 2) : rdist p q = d := by
  unfold rdist
  rw [h]
  exact Real.sqrt_sq hd

/-- C7: when projecting either point fails (a null point),
`extract_subcurve` returns the empty zero-length curve; in the embedding the
exception never escapes — the function is total and yields `[]`. -/
theorem extract_subcurve_null (line : List RPt) (point1 point2 : Option RPt)
    (h : point1 = none ∨ point2 = none) :
    extract_subcurve line point1 point2 = [] ∧
      curveLen (extract_subcurve line point1 point2) = 0 := by
  rcases h with rfl | rfl
  · exact ⟨rfl, rfl⟩
  · cases point1 with
    | none => exact ⟨rfl, rfl⟩
    | some p1 => exact ⟨rfl, rfl⟩

/-- C7 witness: a concrete null first point. -/
theorem extract_subcurve_null_witness :
    extract_subcurve [⟨0, 0⟩, ⟨1, 0⟩] none (some ⟨5, 5⟩) = [] ∧
      curveLen (extract_subcurve [⟨0, 0⟩, ⟨1, 0⟩] none (some ⟨5, 5⟩)) = 0 :=
  extract_subcurve_null [⟨0, 0⟩, ⟨1, 0⟩] none (some ⟨5, 5⟩) (Or.inl rfl)

theorem subFwd_self (l : List RPt) (d : ℝ) : subFwd l d d = [interpolate l d] := by
  match l with
  | [] => rfl
  | [p] => rfl
  | p :: q :: rest =>
    rw [subFwd, if_neg (lt_irrefl d)]

/-- The forward substring reversed is the backward substring. -/
theorem substring_swap (l : List RPt) (d1 d2 : ℝ) :
    substring l d1 d2 = (substring l d2 d1).reverse := by
  unfold substring
  rcases lt_trichotomy d1 d2 with h | h | h
  · rw [if_pos h.le, if_neg (not_le.2 h), List.reverse_reverse]
  · subst h
    rw [if_pos le_rfl, subFwd_self]
    rfl
  · rw [if_neg (not_le.2 h), if_pos h.le]

/-- C6 amended: `extract_subcurve(curve, p1, p2)` returns the substring from
d1 to d2 without swapping; when d1 > d2 shapely's `substring` traverses it
in reverse, so the two argument orders return reverses of each other (equal
only as unoriented point sets, not as point sequences). -/
theorem extract_subcurve_swap_reverse (line : List RPt) (point1 point2 : Option RPt) :
    extract_subcurve line point1 point2 = (extract_subcurve line point2 point1).reverse := by
  cases point1 with
  | none =>
    cases point2 with
    | none => rfl
    | some p2 => rfl
  | some p1 =>
    cases point2 with
    | none => rfl
    | some p2 => exact substring_swap line (project line p1) (project line p2)

/-- C6 counterexample: on the segment from (0,0) to (3,0) with p1 projecting
to arc 2 and p2 to arc 1, the two argument orders give opposite
orientations, so `extract_subcurve(curve, p1, p2) = extract_subcurve(curve,
p2, p1)` is false. -/
theorem extract_subcurve_not_symmetric :
    extract_subcurve [⟨0, 0⟩, ⟨3, 0⟩] (some ⟨2, 5⟩) (some ⟨1, 7⟩) = [⟨2, 0⟩, ⟨1, 0⟩] ∧
    extract_subcurve [⟨0, 0⟩, ⟨3, 0⟩] (some ⟨1, 7⟩) (some ⟨2, 5⟩) = [⟨1, 0⟩, ⟨2, 0⟩] ∧
    extract_subcurve [⟨0, 0⟩, ⟨3, 0⟩] (some ⟨2, 5⟩) (some ⟨1, 7⟩) ≠
      extract_subcurve [⟨0, 0⟩, ⟨3, 0⟩] (some ⟨1, 7⟩) (some ⟨2, 5⟩) := by
  have h3 : rdist ⟨0, 0⟩ ⟨3, 0⟩ = 3 := rdist_eval (by norm_num) (by norm_num)
  have hp1 : project [⟨0, 0⟩, ⟨3, 0⟩] ⟨2, 5⟩ = 2 := by
    norm_num [project, projectAux, edgeParam, lerp, sqDistR, h3]
  have hp2 : project [⟨0, 0⟩, ⟨3, 0⟩] ⟨1, 7⟩ = 1 := by
    norm_num [project, projectAux, edgeParam, lerp, sqDistR, h3]
  have e1 : extract_subcurve [⟨0, 0⟩, ⟨3, 0⟩] (some ⟨2, 5⟩) (some ⟨1, 7⟩) =
      [⟨2, 0⟩, ⟨1, 0⟩] := by
    show substring _ _ _ = _
    rw [hp1, hp2]
    norm_num [substring, subFwd, interpolate, lerp, h3, RPt.mk.injEq]
  have e2 : extract_subcurve [⟨0, 0⟩, ⟨3, 0⟩] (some ⟨1, 7⟩) (some ⟨2, 5⟩) =
      [⟨1, 0⟩, ⟨2, 0⟩] := by
    show substring _ _ _ = _
    rw [hp1, hp2]
    norm_num [substring, subFwd, interpolate, lerp, h3, RPt.mk.injEq]
  refine ⟨e1, e2, ?_⟩
  rw [e1, e2]
  intro heq
  have := congrArg (fun l => (l.headD default).x) heq
  norm_num at this

/-! ### Theorems: mesh builder cell bound -/

/-- Cells emitted by `split_shape_if_needed` are emitted in the branch whose
guard bounds both tangent lines. -/
theorem split_shape_tangent_bound :
    ∀ (fuel : Nat) (upper lower : List RPt) (meters : ℝ) (ca cb na nb : RPt)
      (cells : List ClosedShape),
      split_shape_if_needed fuel upper lower meters ca cb na nb = some cells →
      ∀ c ∈ cells, curveLen c.tangent_line_1 ≤ meters ∧ curveLen c.tangent_line_2 ≤ meters := by
  intro fuel
  induction fuel with
  | zero =>
    intro upper lower meters ca cb na nb cells h
    simp only [split_shape_if_needed] at h
    cases h
  | succ fuel ih =>
    intro upper lower meters ca cb na nb cells h c hc
    rw [split_shape_if_needed] at h
    by_cases hcond : curveLen upper > meters ∨ curveLen lower > meters
    · rw [if_pos hcond] at h
      split at h
      · cases h
      · rename_i left_shapes hleft
        split at h
        · cases h
        · rename_i right_shapes hright
          rw [Option.some.injEq] at h
          subst h
          rcases List.mem_append.1 hc with h1 | h2
          · exact ih _ _ _ _ _ _ _ _ hleft c h1
          · exact ih _ _ _ _ _ _ _ _ hright c h2
    · rw [if_neg hcond] at h
      rw [Option.some.injEq] at h
      subst h
      rw [List.mem_singleton] at hc
      subst hc
      push_neg at hcond
      exact ⟨hcond.1, hcond.2⟩

/-- C3: every Cell emitted by the Mesh Builder
(`generate_closed_shapes_with_polylines` via `split_shape_if_needed`) has
both tangent-line lengths at most the configured maximum `meters`. -/
theorem generate_closed_shapes_cell_bound :
    ∀ (center_normals : List (RPt × RPt × RPt)) (fuel : Nat) (north south : List RPt)
      (meters : ℝ) (cells : List ClosedShape),
      generate_closed_shapes_with_polylines fuel center_normals north south meters =
        some cells →
      ∀ c ∈ cells, curveLen c.tangent_line_1 ≤ meters ∧ curveLen c.tangent_line_2 ≤ meters := by
  intro l
  induction l with
  | nil =>
    intro fuel north south meters cells h c hc
    simp only [generate_closed_shapes_with_polylines, Option.some.injEq] at h
    subst h
    cases hc
  | cons cur rest ih =>
    cases rest with
    | nil =>
      intro fuel north south meters cells h c hc
      simp only [generate_closed_shapes_with_polylines, Option.some.injEq] at h
      subst h
      cases hc
    | cons next rest2 =>
      intro fuel north south meters cells h c hc
      rw [generate_closed_shapes_with_polylines] at h
      split at h
      · rename_i cellsHere more hsplit hgen
        rw [Option.some.injEq] at h
        subst h
        rcases List.mem_append.1 hc with h1 | h2
        · exact split_shape_tangent_bound fuel _ _ _ _ _ _ _ _ hsplit c h1
        · exact ih fuel north south meters more hgen c h2
      · cases h

/-- C3 witness: a concrete two-transect mesh whose single cell satisfies the
bound. -/
theorem generate_closed_shapes_cell_bound_witness :
    curveLen ([⟨0, 0⟩, ⟨4, 0⟩] : List RPt) ≤ 5 ∧
      curveLen ([⟨4, 2⟩, ⟨0, 2⟩] : List RPt) ≤ 5 := by
  have hr04 : rdist ⟨0, 0⟩ ⟨4, 0⟩ = 4 := rdist_eval (by norm_num) (by norm_num)
  have hr42 : rdist ⟨0, 2⟩ ⟨4, 2⟩ = 4 := rdist_eval (by norm_num) (by norm_num)
  have hrr : rdist ⟨4, 2⟩ ⟨0, 2⟩ = 4 := rdist_eval (by norm_num) (by norm_num)
  have hp1 : project [⟨0, 0⟩, ⟨4, 0⟩] ⟨0, 0⟩ = 0 := by
    norm_num [project, projectAux, edgeParam, lerp, sqDistR, hr04]
  have hp2 : project [⟨0, 0⟩, ⟨4, 0⟩] ⟨4, 0⟩ = 4 := by
    norm_num [project, projectAux, edgeParam, lerp, sqDistR, hr04]
  have hp3 : project [⟨0, 2⟩, ⟨4, 2⟩] ⟨4, 2⟩ = 4 := by
    norm_num [project, projectAux, edgeParam, lerp, sqDistR, hr42]
  have hp4 : project [⟨0, 2⟩, ⟨4, 2⟩] ⟨0, 2⟩ = 0 := by
    norm_num [project, projectAux, edgeParam, lerp, sqDistR, hr42]
  have hu : extract_subcurve [⟨0, 0⟩, ⟨4, 0⟩] (some ⟨0, 0⟩) (some ⟨4, 0⟩) =
      [⟨0, 0⟩, ⟨4, 0⟩] := by
    show substring _ _ _ = _
    rw [hp1, hp2]
    norm_num [substring, subFwd, interpolate, lerp, hr04, RPt.mk.injEq]
  have hl : extract_subcurve [⟨0, 2⟩, ⟨4, 2⟩] (some ⟨4, 2⟩) (some ⟨0, 2⟩) =
      [⟨4, 2⟩, ⟨0, 2⟩] := by
    show substring _ _ _ = _
    rw [hp3, hp4]
    norm_num [substring, subFwd, interpolate, lerp, hr42, RPt.mk.injEq]
  have hlen_u : curveLen ([⟨0, 0⟩, ⟨4, 0⟩] : List RPt) = 4 := by
    simp [curveLen, hr04]
  have hlen_l : curveLen ([⟨4, 2⟩, ⟨0, 2⟩] : List RPt) = 4 := by
    simp [curveLen, hrr]
  have hsplit : split_shape_if_needed 1 [⟨0, 0⟩, ⟨4, 0⟩] [⟨4, 2⟩, ⟨0, 2⟩] 5
      ⟨0, 0⟩ ⟨0, 2⟩ ⟨4, 0⟩ ⟨4, 2⟩ =
      some [⟨shapeRing [⟨0, 0⟩, ⟨4, 0⟩] [⟨4, 2⟩, ⟨0, 2⟩] ⟨0, 0⟩ ⟨0, 2⟩ ⟨4, 0⟩ ⟨4, 2⟩,
        [⟨0, 0⟩, ⟨0, 2⟩], [⟨4, 0⟩, ⟨4, 2⟩], [⟨0, 0⟩, ⟨4, 0⟩], [⟨4, 2⟩, ⟨0, 2⟩],
        shapeRing [⟨0, 0⟩, ⟨4, 0⟩] [⟨4, 2⟩, ⟨0, 2⟩] ⟨0, 0⟩ ⟨0, 2⟩ ⟨4, 0⟩ ⟨4, 2⟩⟩] := by
    rw [split_shape_if_needed, if_neg]
    rw [hlen_u, hlen_l]
    norm_num
  have hrec : generate_closed_shapes_with_polylines 1
      [((⟨4, 0⟩ : RPt), (⟨4, 0⟩ : RPt), (⟨4, 2⟩ : RPt))] [⟨0, 0⟩, ⟨4, 0⟩] [⟨0, 2⟩, ⟨4, 2⟩] 5 =
      some [] := rfl
  have hgen : generate_closed_shapes_with_polylines 1
      [((⟨0, 0⟩ : RPt), (⟨0, 0⟩ : RPt), (⟨0, 2⟩ : RPt)),
       ((⟨4, 0⟩ : RPt), (⟨4, 0⟩ : RPt), (⟨4, 2⟩ : RPt))]
      [⟨0, 0⟩, ⟨4, 0⟩] [⟨0, 2⟩, ⟨4, 2⟩] 5 =
      some [⟨shapeRing [⟨0, 0⟩, ⟨4, 0⟩] [⟨4, 2⟩, ⟨0, 2⟩] ⟨0, 0⟩ ⟨0, 2⟩ ⟨4, 0⟩ ⟨4, 2⟩,
        [⟨0, 0⟩, ⟨0, 2⟩], [⟨4, 0⟩, ⟨4, 2⟩], [⟨0, 0⟩, ⟨4, 0⟩], [⟨4, 2⟩, ⟨0, 2⟩],
        shapeRing [⟨0, 0⟩, ⟨4, 0⟩] [⟨4, 2⟩, ⟨0, 2⟩] ⟨0, 0⟩ ⟨0, 2⟩ ⟨4, 0⟩ ⟨4, 2⟩⟩] := by
    rw [generate_closed_shapes_with_polylines]
    show (match split_shape_if_needed 1
        (extract_subcurve [⟨0, 0⟩, ⟨4, 0⟩] (some ⟨0, 0⟩) (some ⟨4, 0⟩))
        (extract_subcurve [⟨0, 2⟩, ⟨4, 2⟩] (some ⟨4, 2⟩) (some ⟨0, 2⟩)) 5
        ⟨0, 0⟩ ⟨0, 2⟩ ⟨4, 0⟩ ⟨4, 2⟩,
      generate_closed_shapes_with_polylines 1
        [((⟨4, 0⟩ : RPt), (⟨4, 0⟩ : RPt), (⟨4, 2⟩ : RPt))] [⟨0, 0⟩, ⟨4, 0⟩] [⟨0, 2⟩, ⟨4, 2⟩] 5 with
      | some cells, some more => some (cells ++ more)
      | _, _ => none) = _
    rw [hu, hl, hsplit, hrec]
    simp
  have hmem := generate_closed_shapes_cell_bound _ 1 _ _ 5 _ hgen
    ⟨shapeRing [⟨0, 0⟩, ⟨4, 0⟩] [⟨4, 2⟩, ⟨0, 2⟩] ⟨0, 0⟩ ⟨0, 2⟩ ⟨4, 0⟩ ⟨4, 2⟩,
      [⟨0, 0⟩, ⟨0, 2⟩], [⟨4, 0⟩, ⟨4, 2⟩], [⟨0, 0⟩, ⟨4, 0⟩], [⟨4, 2⟩, ⟨0, 2⟩],
      shapeRing [⟨0, 0⟩, ⟨4, 0⟩] [⟨4, 2⟩, ⟨0, 2⟩] ⟨0, 0⟩ ⟨0, 2⟩ ⟨4, 0⟩ ⟨4, 2⟩⟩
    (List.mem_singleton.2 rfl)
  exact hmem

/-! ### Theorems: spatial locator -/

/-- C10: the containment test of the Spatial Locator is strict-interior.  A
query point that touches the mesh only at cell boundaries — it lies on the
boundary ring of the cells it meets (for instance on a transect span or on a
tangent line shared by two adjacent cells) and inside no other cell — makes
`make_shape_finder` report not-found (`none`) rather than returning either
adjacent cell. -/
theorem make_shape_finder_boundary_none (closed_shapes : List ClosedShape) (point : RPt)
    (h : ∀ s ∈ closed_shapes,
      onRing s.polygon point ∨ ¬ Odd (crossingCount s.polygon point)) :
    make_shape_finder closed_shapes point = none := by
  unfold make_shape_finder
  rw [List.find?_eq_none]
  intro is hmem
  have hs : is.2 ∈ closed_shapes := by
    obtain ⟨hlen, hget⟩ := List.get?_eq_some.1 (List.mem_enum_iff_get?.1 hmem)
    rw [← hget]
    exact List.get_mem _ _ _
  simp only [decide_eq_true_eq]
  rintro ⟨_, hcont⟩
  rcases h is.2 hs with hb | hodd
  · exact hcont.2 hb
  · exact hodd hcont.1

/-- C10 witness: the point (0, 1) on the left edge of a square cell is not
located in it. -/
theorem make_shape_finder_boundary_none_witness :
    make_shape_finder
      [⟨[⟨0, 0⟩, ⟨4, 0⟩, ⟨4, 2⟩, ⟨0, 2⟩, ⟨0, 0⟩], [], [], [], [],
        [⟨0, 0⟩, ⟨4, 0⟩, ⟨4, 2⟩, ⟨0, 2⟩, ⟨0, 0⟩]⟩] ⟨0, 1⟩ = none := by
  refine make_shape_finder_boundary_none _ _ ?_
  intro s hs
  rw [List.mem_singleton] at hs
  subst hs
  left
  refine ⟨(⟨0, 2⟩, ⟨0, 0⟩), ?_, ?_, ?_⟩
  · simp [ringEdges]
  · norm_num [orientR]
  · norm_num [inBoxR]

/-! ### Theorems: endpoint projector -/

theorem squareCellW_crossingCount : crossingCount squareCellW.polygon ⟨1, 1⟩ = 1 := by
  have e1 : ¬ crossesRay ⟨0, 0⟩ ⟨4, 0⟩ ⟨1, 1⟩ := by norm_num [crossesRay]
  have e2 : crossesRay ⟨4, 0⟩ ⟨4, 2⟩ ⟨1, 1⟩ := by norm_num [crossesRay]
  have e3 : ¬ crossesRay ⟨4, 2⟩ ⟨0, 2⟩ ⟨1, 1⟩ := by norm_num [crossesRay]
  have e4 : ¬ crossesRay ⟨0, 2⟩ ⟨0, 0⟩ ⟨1, 1⟩ := by norm_num [crossesRay]
  show crossingCount [⟨0, 0⟩, ⟨4, 0⟩, ⟨4, 2⟩, ⟨0, 2⟩, ⟨0, 0⟩] ⟨1, 1⟩ = 1
  unfold crossingCount ringEdges
  show List.countP _ [((⟨0, 0⟩ : RPt), (⟨4, 0⟩ : RPt)), (⟨4, 0⟩, ⟨4, 2⟩), (⟨4, 2⟩, ⟨0, 2⟩),
    (⟨0, 2⟩, ⟨0, 0⟩)] = 1
  classical
  simp only [List.countP_cons, List.countP_nil]
  rw [decide_eq_false e1, decide_eq_true e2, decide_eq_false e3, decide_eq_false e4]
  simp

theorem squareCellW_not_onRing : ¬ onRing squareCellW.polygon ⟨1, 1⟩ := by
  rintro ⟨e, he, hseg⟩
  have he' : e = ((⟨0, 0⟩ : RPt), (⟨4, 0⟩ : RPt)) ∨ e = (⟨4, 0⟩, ⟨4, 2⟩) ∨
      e = (⟨4, 2⟩, ⟨0, 2⟩) ∨ e = (⟨0, 2⟩, ⟨0, 0⟩) := by
    have : e ∈ ringEdges squareCellW.polygon := he
    simpa [squareCellW, ringEdges] using this
  rcases he' with rfl | rfl | rfl | rfl <;>
    · obtain ⟨ho, _⟩ := hseg
      norm_num [orientR] at ho

theorem squareCellW_contains : squareCellW.contains_point ⟨1, 1⟩ := by
  refine ⟨?_, squareCellW_not_onRing⟩
  rw [squareCellW_crossingCount]
  decide

theorem squareCellW_crossingCount_end : crossingCount squareCellW.polygon ⟨3, 1⟩ = 1 := by
  have e1 : ¬ crossesRay ⟨0, 0⟩ ⟨4, 0⟩ ⟨3, 1⟩ := by norm_num [crossesRay]
  have e2 : crossesRay ⟨4, 0⟩ ⟨4, 2⟩ ⟨3, 1⟩ := by norm_num [crossesRay]
  have e3 : ¬ crossesRay ⟨4, 2⟩ ⟨0, 2⟩ ⟨3, 1⟩ := by norm_num [crossesRay]
  have e4 : ¬ crossesRay ⟨0, 2⟩ ⟨0, 0⟩ ⟨3, 1⟩ := by norm_num [crossesRay]
  show crossingCount [⟨0, 0⟩, ⟨4, 0⟩, ⟨4, 2⟩, ⟨0, 2⟩, ⟨0, 0⟩] ⟨3, 1⟩ = 1
  unfold crossingCount ringEdges
  show List.countP _ [((⟨0, 0⟩ : RPt), (⟨4, 0⟩ : RPt)), (⟨4, 0⟩, ⟨4, 2⟩), (⟨4, 2⟩, ⟨0, 2⟩),
    (⟨0, 2⟩, ⟨0, 0⟩)] = 1
  classical
  simp only [List.countP_cons, List.countP_nil]
  rw [decide_eq_false e1, decide_eq_true e2, decide_eq_false e3, decide_eq_false e4]
  simp

theorem squareCellW_not_onRing_end : ¬ onRing squareCellW.polygon ⟨3, 1⟩ := by
  rintro ⟨e, he, hseg⟩
  have he' : e = ((⟨0, 0⟩ : RPt), (⟨4, 0⟩ : RPt)) ∨ e = (⟨4, 0⟩, ⟨4, 2⟩) ∨
      e = (⟨4, 2⟩, ⟨0, 2⟩) ∨ e = (⟨0, 2⟩, ⟨0, 0⟩) := by
    have : e ∈ ringEdges squareCellW.polygon := he
    simpa [squareCellW, ringEdges] using this
  rcases he' with rfl | rfl | rfl | rfl <;>
    · obtain ⟨ho, _⟩ := hseg
      norm_num [orientR] at ho

theorem squareCellW_contains_end : squareCellW.contains_point ⟨3, 1⟩ := by
  refine ⟨?_, squareCellW_not_onRing_end⟩
  rw [squareCellW_crossingCount_end]
  decide

theorem squareCellW_bbox : bboxContains squareCellW.polygon ⟨1, 1⟩ := by
  refine ⟨⟨⟨0, 0⟩, ?_, by norm_num⟩, ⟨⟨4, 0⟩, ?_, by norm_num⟩,
    ⟨⟨0, 0⟩, ?_, by norm_num⟩, ⟨⟨4, 2⟩, ?_, by norm_num⟩⟩ <;> simp [squareCellW]

theorem squareCellW_bbox_end : bboxContains squareCellW.polygon ⟨3, 1⟩ := by
  refine ⟨⟨⟨0, 0⟩, ?_, by norm_num⟩, ⟨⟨4, 0⟩, ?_, by norm_num⟩,
    ⟨⟨0, 0⟩, ?_, by norm_num⟩, ⟨⟨4, 2⟩, ?_, by norm_num⟩⟩ <;> simp [squareCellW]

theorem locate_start_squareCellW :
    make_shape_finder [squareCellW] ⟨1, 1⟩ = some (0, squareCellW) := by
  unfold make_shape_finder
  show List.find? _ [(0, squareCellW)] = _
  rw [List.find?_cons_of_pos]
  simp only [decide_eq_true_eq]
  exact ⟨squareCellW_bbox, squareCellW_contains⟩

theorem locate_end_squareCellW :
    make_shape_finder [squareCellW] ⟨3, 1⟩ = some (0, squareCellW) := by
  unfold make_shape_finder
  show List.find? _ [(0, squareCellW)] = _
  rw [List.find?_cons_of_pos]
  simp only [decide_eq_true_eq]
  exact ⟨squareCellW_bbox_end, squareCellW_contains_end⟩

theorem locate_bad_squareCellW :
    make_shape_finder [squareCellW] ⟨10, 10⟩ = none := by
  unfold make_shape_finder
  show List.find? _ [(0, squareCellW)] = _
  rw [List.find?_cons_of_neg]
  · rfl
  · simp only [decide_eq_true_eq]
    rintro ⟨⟨_, ⟨q, hq, hqx⟩, _, _⟩, _⟩
    have hq' : q = (⟨0, 0⟩ : RPt) ∨ q = ⟨4, 0⟩ ∨ q = ⟨4, 2⟩ ∨ q = ⟨0, 2⟩ ∨ q = ⟨0, 0⟩ := by
      simpa [squareCellW] using hq
    rcases hq' with rfl | rfl | rfl | rfl | rfl <;> norm_num at hqx

theorem curveLen_goodDitchW : curveLen goodDitchW.points = 2 := by
  have h : rdist ⟨1, 1⟩ ⟨3, 1⟩ = 2 := rdist_eval (by norm_num) (by norm_num)
  show curveLen [⟨1, 1⟩, ⟨3, 1⟩] = 2
  simp [curveLen, h]

theorem dam_len_goodDitchW :
    curveLen (extract_subcurve northLineW
      (some (interpolate squareCellW.tangent_line_1
        (project squareCellW.tangent_line_1 (goodDitchW.points.headD default))))
      (some (interpolate squareCellW.tangent_line_1
        (project squareCellW.tangent_line_1 (goodDitchW.points.getLastD default))))) = 2 := by
  have hr04 : rdist ⟨0, 0⟩ ⟨4, 0⟩ = 4 := rdist_eval (by norm_num) (by norm_num)
  have hpa : project [⟨0, 0⟩, ⟨4, 0⟩] ⟨1, 1⟩ = 1 := by
    norm_num [project, projectAux, edgeParam, lerp, sqDistR, hr04]
  have hpb : project [⟨0, 0⟩, ⟨4, 0⟩] ⟨3, 1⟩ = 3 := by
    norm_num [project, projectAux, edgeParam, lerp, sqDistR, hr04]
  have hia : interpolate [⟨0, 0⟩, ⟨4, 0⟩] 1 = ⟨1, 0⟩ := by
    norm_num [interpolate, lerp, hr04, RPt.mk.injEq]
  have hib : interpolate [⟨0, 0⟩, ⟨4, 0⟩] 3 = ⟨3, 0⟩ := by
    norm_num [interpolate, lerp, hr04, RPt.mk.injEq]
  have hp1 : project [⟨0, 0⟩, ⟨4, 0⟩] ⟨1, 0⟩ = 1 := by
    norm_num [project, projectAux, edgeParam, lerp, sqDistR, hr04]
  have hp2 : project [⟨0, 0⟩, ⟨4, 0⟩] ⟨3, 0⟩ = 3 := by
    norm_num [project, projectAux, edgeParam, lerp, sqDistR, hr04]
  have hsub : extract_subcurve [⟨0, 0⟩, ⟨4, 0⟩] (some ⟨1, 0⟩) (some ⟨3, 0⟩) =
      [⟨1, 0⟩, ⟨3, 0⟩] := by
    show substring _ _ _ = _
    rw [hp1, hp2]
    norm_num [substring, subFwd, interpolate, lerp, hr04, RPt.mk.injEq]
  have hfinal : rdist ⟨1, 0⟩ ⟨3, 0⟩ = 2 := rdist_eval (by norm_num) (by norm_num)
  show curveLen (extract_subcurve [⟨0, 0⟩, ⟨4, 0⟩]
    (some (interpolate [⟨0, 0⟩, ⟨4, 0⟩] (project [⟨0, 0⟩, ⟨4, 0⟩] ⟨1, 1⟩)))
    (some (interpolate [⟨0, 0⟩, ⟨4, 0⟩] (project [⟨0, 0⟩, ⟨4, 0⟩] ⟨3, 1⟩)))) = 2
  rw [hpa, hpb, hia, hib, hsub]
  simp [curveLen, hfinal]

theorem process_one_goodDitchW :
    process_one_ditch [squareCellW] northLineW [] goodDitchW =
      DitchOutcome.row ⟨"n", "d", "r", "good", 2, 2, 0⟩ := by
  unfold process_one_ditch
  rw [show goodDitchW.points.headD default = (⟨1, 1⟩ : RPt) from rfl,
    show goodDitchW.points.getLastD default = (⟨3, 1⟩ : RPt) from rfl,
    locate_start_squareCellW, locate_end_squareCellW]
  have hdam := dam_len_goodDitchW
  rw [show goodDitchW.points.headD default = (⟨1, 1⟩ : RPt) from rfl,
    show goodDitchW.points.getLastD default = (⟨3, 1⟩ : RPt) from rfl] at hdam
  simp only [DitchOutcome.row.injEq, DitchRow.mk.injEq]
  refine ⟨rfl, rfl, rfl, rfl, ?_, ?_, rfl⟩
  · exact curveLen_goodDitchW
  · exact hdam

theorem process_one_badDitchW :
    process_one_ditch [squareCellW] northLineW [] badDitchW =
      DitchOutcome.unresolvedStart "r" "bad" := by
  unfold process_one_ditch
  rw [show badDitchW.points.headD default = (⟨10, 10⟩ : RPt) from rfl,
    locate_bad_squareCellW]
  rfl

theorem specLengthB_goodDitchW :
    specLengthB [squareCellW] southLineW goodDitchW = some 1 := by
  unfold specLengthB
  rw [show goodDitchW.points.headD default = (⟨1, 1⟩ : RPt) from rfl,
    show goodDitchW.points.getLastD default = (⟨3, 1⟩ : RPt) from rfl,
    locate_start_squareCellW, locate_end_squareCellW]
  have hr : rdist ⟨0, 2⟩ ⟨3, 6⟩ = 5 := rdist_eval (by norm_num) (by norm_num)
  have hpa : project [⟨0, 2⟩, ⟨3, 6⟩] ⟨1, 1⟩ = 0 := by
    norm_num [project, projectAux, edgeParam, lerp, sqDistR, hr]
  have hpb : project [⟨0, 2⟩, ⟨3, 6⟩] ⟨3, 1⟩ = 1 := by
    norm_num [project, projectAux, edgeParam, lerp, sqDistR, hr]
  have hia : interpolate [⟨0, 2⟩, ⟨3, 6⟩] 0 = ⟨0, 2⟩ := by
    norm_num [interpolate]
  have hib : interpolate [⟨0, 2⟩, ⟨3, 6⟩] 1 = ⟨3 / 5, 14 / 5⟩ := by
    norm_num [interpolate, lerp, hr, RPt.mk.injEq]
  have hp1 : project [⟨0, 2⟩, ⟨3, 6⟩] ⟨0, 2⟩ = 0 := by
    norm_num [project, projectAux, edgeParam, lerp, sqDistR, hr]
  have hp2 : project [⟨0, 2⟩, ⟨3, 6⟩] ⟨3 / 5, 14 / 5⟩ = 1 := by
    norm_num [project, projectAux, edgeParam, lerp, sqDistR, hr]
  have hsub : extract_subcurve [⟨0, 2⟩, ⟨3, 6⟩] (some ⟨0, 2⟩) (some ⟨3 / 5, 14 / 5⟩) =
      [⟨0, 2⟩, ⟨3 / 5, 14 / 5⟩] := by
    show substring _ _ _ = _
    rw [hp1, hp2]
    norm_num [substring, subFwd, interpolate, lerp, hr, RPt.mk.injEq]
  have hfinal : rdist ⟨0, 2⟩ ⟨3 / 5, 14 / 5⟩ = 1 := rdist_eval (by norm_num) (by norm_num)
  show some (curveLen (extract_subcurve [⟨0, 2⟩, ⟨3, 6⟩]
    (some (interpolate [⟨0, 2⟩, ⟨3, 6⟩] (project [⟨0, 2⟩, ⟨3, 6⟩] ⟨1, 1⟩)))
    (some (interpolate [⟨0, 2⟩, ⟨3, 6⟩] (project [⟨0, 2⟩, ⟨3, 6⟩] ⟨3, 1⟩))))) = some 1
  rw [hpa, hpb, hia, hib, hsub]
  simp [curveLen, hfinal]

/-- C2 counterexample: on a concrete located feature the emitted record's
numeric fields are featureLength 2, north-side projection length 2 and
manual length 0, while the spec's boundary-B arc length between the
tangent-line-B projections is 1 — no field of the result holds `lengthB`,
and no projection onto tangent-line-B ever happens. -/
theorem process_ditch_missing_lengthB :
    process_one_ditch [squareCellW] northLineW [] goodDitchW =
      DitchOutcome.row ⟨"n", "d", "r", "good", 2, 2, 0⟩ ∧
    specLengthB [squareCellW] southLineW goodDitchW = some 1 ∧
    (1 : ℝ) ≠ 2 ∧ (1 : ℝ) ≠ 0 := by
  refine ⟨process_one_goodDitchW, specLengthB_goodDitchW, by norm_num, by norm_num⟩

/-- C2 amended: for a feature with both endpoints located, the Endpoint
Projector projects each endpoint only onto the containing cell's
tangent-line-1 (boundary A, the north dam line) and reports featureLength,
the boundary-A length between these projections measured along the full
north dam line, and the manual-projection length; no tangent-line-B
projection or `lengthB` exists, and the output does not depend on the south
dam line parameter at all. -/
theorem process_ditch_endpoints_north_only
    (ds : List Ditch) (shapes : List ClosedShape) (north southA southB : List RPt)
    (manual : List ((String × String) × List RPt)) (d : Ditch)
    {i j : Nat} {s1 s2 : ClosedShape}
    (h1 : make_shape_finder shapes (d.points.headD default) = some (i, s1))
    (h2 : make_shape_finder shapes (d.points.getLastD default) = some (j, s2)) :
    process_ditch_endpoints ds shapes north southA manual =
      process_ditch_endpoints ds shapes north southB manual ∧
    process_one_ditch shapes north manual d =
      DitchOutcome.row ⟨d.name, d.date, d.riverpart, d.code,
        curveLen d.points,
        curveLen (extract_subcurve north
          (some (interpolate s1.tangent_line_1
            (project s1.tangent_line_1 (d.points.headD default))))
          (some (interpolate s2.tangent_line_1
            (project s2.tangent_line_1 (d.points.getLastD default))))),
        match lookupManual manual (d.riverpart, d.code) with
        | some g => curveLen g
        | none => 0⟩ := by
  constructor
  · rfl
  · unfold process_one_ditch
    rw [h1, h2]

/-- C2 amended witness: the concrete located feature. -/
theorem process_ditch_endpoints_north_only_witness :
    process_ditch_endpoints [goodDitchW] [squareCellW] northLineW southLineW [] =
      process_ditch_endpoints [goodDitchW] [squareCellW] northLineW [] [] ∧
    process_one_ditch [squareCellW] northLineW [] goodDitchW =
      DitchOutcome.row ⟨goodDitchW.name, goodDitchW.date, goodDitchW.riverpart,
        goodDitchW.code,
        curveLen goodDitchW.points,
        curveLen (extract_subcurve northLineW
          (some (interpolate squareCellW.tangent_line_1
            (project squareCellW.tangent_line_1 (goodDitchW.points.headD default))))
          (some (interpolate squareCellW.tangent_line_1
            (project squareCellW.tangent_line_1 (goodDitchW.points.getLastD default))))),
        match lookupManual [] (goodDitchW.riverpart, goodDitchW.code) with
        | some g => curveLen g
        | none => 0⟩ :=
  process_ditch_endpoints_north_only [goodDitchW] [squareCellW] northLineW southLineW []
    [] goodDitchW locate_start_squareCellW locate_end_squareCellW

/-- C5 counterexample: a feature whose start point has no containing cell is
skipped — the outcome list holds only the console warning, the CSV rows hold
no record for it (it is dropped from the output), while the following
feature is still processed. -/
theorem process_ditch_drops_unresolved :
    process_ditch_endpoints [badDitchW, goodDitchW] [squareCellW] northLineW southLineW [] =
      [DitchOutcome.unresolvedStart "r" "bad",
        DitchOutcome.row ⟨"n", "d", "r", "good", 2, 2, 0⟩] ∧
    ditchRows (process_ditch_endpoints [badDitchW, goodDitchW] [squareCellW]
      northLineW southLineW []) = [⟨"n", "d", "r", "good", 2, 2, 0⟩] := by
  have h1 : process_ditch_endpoints [badDitchW, goodDitchW] [squareCellW]
      northLineW southLineW [] =
      [DitchOutcome.unresolvedStart "r" "bad",
        DitchOutcome.row ⟨"n", "d", "r", "good", 2, 2, 0⟩] := by
    show [process_one_ditch [squareCellW] northLineW [] badDitchW,
      process_one_ditch [squareCellW] northLineW [] goodDitchW] = _
    rw [process_one_badDitchW, process_one_goodDitchW]
  refine ⟨h1, ?_⟩
  rw [h1]
  rfl

/-- C5 amended: a feature either of whose endpoints has no containing cell
produces a warning outcome instead of a row — it is reported but appears in
no CSV row — and the remaining features' outcomes are unchanged (processing
continues, no exception). -/
theorem process_ditch_endpoints_skips_unlocated
    (d : Ditch) (ds : List Ditch) (shapes : List ClosedShape)
    (north south : List RPt) (manual : List ((String × String) × List RPt))
    (h : make_shape_finder shapes (d.points.headD default) = none ∨
         make_shape_finder shapes (d.points.getLastD default) = none) :
    ∃ w : DitchOutcome,
      process_ditch_endpoints (d :: ds) shapes north south manual =
        w :: process_ditch_endpoints ds shapes north south manual ∧
      (∀ r : DitchRow, w ≠ DitchOutcome.row r) ∧
      ditchRows (process_ditch_endpoints (d :: ds) shapes north south manual) =
        ditchRows (process_ditch_endpoints ds shapes north south manual) := by
  refine ⟨process_one_ditch shapes north manual d, rfl, ?_, ?_⟩
  · intro r hr
    unfold process_one_ditch at hr
    rcases h with hstart | hend
    · rw [hstart] at hr
      cases hr
    · cases hstartv : make_shape_finder shapes (d.points.headD default) with
      | none => rw [hstartv] at hr; cases hr
      | some pr =>
        rw [hstartv, hend] at hr
        cases hr
  · show ditchRows (process_one_ditch shapes north manual d ::
      process_ditch_endpoints ds shapes north south manual) = _
    unfold ditchRows
    rw [List.filterMap_cons]
    have hnr : ∀ r : DitchRow, process_one_ditch shapes north manual d ≠
        DitchOutcome.row r := by
      intro r hr
      unfold process_one_ditch at hr
      rcases h with hstart | hend
      · rw [hstart] at hr
        cases hr
      · cases hstartv : make_shape_finder shapes (d.points.headD default) with
        | none => rw [hstartv] at hr; cases hr
        | some pr =>
          rw [hstartv, hend] at hr
          cases hr
    cases hw : process_one_ditch shapes north manual d with
    | row r => exact absurd hw (hnr r)
    | unresolvedStart a b => rfl
    | unresolvedEnd a b => rfl

/-- C5 amended witness: the concrete unlocatable feature followed by a
locatable one. -/
theorem process_ditch_endpoints_skips_unlocated_witness :
    ∃ w : DitchOutcome,
      process_ditch_endpoints [badDitchW, goodDitchW] [squareCellW]
        northLineW southLineW [] =
        w :: process_ditch_endpoints [goodDitchW] [squareCellW]
          northLineW southLineW [] ∧
      (∀ r : DitchRow, w ≠ DitchOutcome.row r) ∧
      ditchRows (process_ditch_endpoints [badDitchW, goodDitchW] [squareCellW]
        northLineW southLineW []) =
        ditchRows (process_ditch_endpoints [goodDitchW] [squareCellW]
          northLineW southLineW []) :=
  process_ditch_endpoints_skips_unlocated badDitchW [goodDitchW] [squareCellW]
    northLineW southLineW [] (Or.inl locate_bad_squareCellW)

/-! ### Theorems: mesh bisection analysis (src/processing/close_shape.py) -/

theorem rdist_nonneg (p q : RPt) : 0 ≤ rdist p q := Real.sqrt_nonneg _

theorem rdist_eq_zero_iff (p q : RPt) : rdist p q = 0 ↔ p = q := by
  constructor
  · intro h
    have h' : (p.x - q.x) ^ 2 + (p.y - q.y) ^ 2 ≤ 0 := Real.sqrt_eq_zero'.1 h
    obtain ⟨px, py⟩ := p
    obtain ⟨qx, qy⟩ := q
    simp only [RPt.mk.injEq]
    constructor <;> nlinarith [sq_nonneg (px - qx), sq_nonneg (py - qy)]
  · intro h
    subst h
    unfold rdist
    simp

theorem sqDistR_nonneg (p q : RPt) : 0 ≤ sqDistR p q := by
  unfold sqDistR
  positivity

theorem sqDistR_self (p : RPt) : sqDistR p p = 0 := by
  unfold sqDistR
  ring

theorem sqDistR_eq_zero_iff (p q : RPt) : sqDistR p q = 0 ↔ p = q := by
  constructor
  · intro h
    obtain ⟨px, py⟩ := p
    obtain ⟨qx, qy⟩ := q
    unfold sqDistR at h
    simp only [RPt.mk.injEq]
    constructor <;> nlinarith [sq_nonneg (px - qx), sq_nonneg (py - qy)]
  · intro h
    subst h
    exact sqDistR_self p

theorem curveLen_nil : curveLen ([] : List RPt) = 0 := rfl

theorem curveLen_one (p : RPt) : curveLen [p] = 0 := rfl

theorem curveLen_cons2 (p q : RPt) (rest : List RPt) :
    curveLen (p :: q :: rest) = rdist p q + curveLen (q :: rest) := rfl

theorem curveLen_nonneg (l : List RPt) : 0 ≤ curveLen l := by
  induction l with
  | nil => norm_num [curveLen_nil]
  | cons a t ih =>
    cases t with
    | nil => norm_num [curveLen_one]
    | cons b t2 =>
      rw [curveLen_cons2]
      have := rdist_nonneg a b
      linarith

theorem lerp_zero (p q : RPt) : lerp p q 0 = p := by
  obtain ⟨px, py⟩ := p
  simp [lerp]

theorem lerp_one (p q : RPt) : lerp p q 1 = q := by
  obtain ⟨qx, qy⟩ := q
  simp only [lerp, RPt.mk.injEq]
  constructor <;> ring

theorem lerp_same (p : RPt) (t : ℝ) : lerp p p t = p := by
  obtain ⟨px, py⟩ := p
  simp only [lerp, RPt.mk.injEq]
  constructor <;> ring

theorem lerp_lerp (p q : RPt) (a b s : ℝ) :
    lerp (lerp p q a) (lerp p q b) s = lerp p q (a + s * (b - a)) := by
  simp only [lerp, RPt.mk.injEq]
  constructor <;> ring

theorem rdist_lerp (p q : RPt) (t1 t2 : ℝ) :
    rdist (lerp p q t1) (lerp p q t2) = |t2 - t1| * rdist p q := by
  have hx : (lerp p q t1).x - (lerp p q t2).x = (t1 - t2) * (q.x - p.x) := by
    simp only [lerp]
    ring
  have hy : (lerp p q t1).y - (lerp p q t2).y = (t1 - t2) * (q.y - p.y) := by
    simp only [lerp]
    ring
  unfold rdist
  rw [hx, hy]
  rw [show ((t1 - t2) * (q.x - p.x)) ^ 2 + ((t1 - t2) * (q.y - p.y)) ^ 2 =
      (t2 - t1) ^ 2 * ((p.x - q.x) ^ 2 + (p.y - q.y) ^ 2) from by ring]
  rw [Real.sqrt_mul (sq_nonneg _), Real.sqrt_sq_eq_abs]

theorem interp_nil (d : ℝ) : interpolate [] d = ⟨0, 0⟩ := rfl

theorem interp_one (p : RPt) (d : ℝ) : interpolate [p] d = p := rfl

theorem interp_cons2 (p q : RPt) (rest : List RPt) (d : ℝ) :
    interpolate (p :: q :: rest) d =
      if d ≤ 0 then p
      else if d ≤ rdist p q then lerp p q (d / rdist p q)
      else interpolate (q :: rest) (d - rdist p q) := rfl

theorem interp_zero (q : RPt) (rest : List RPt) : interpolate (q :: rest) 0 = q := by
  cases rest with
  | nil => rfl
  | cons b t2 => rw [interp_cons2, if_pos le_rfl]

theorem interp_first_edge (p q : RPt) (rest : List RPt) (d : ℝ)
    (h0 : 0 ≤ d) (h1 : d ≤ rdist p q) :
    interpolate (p :: q :: rest) d = lerp p q (d / rdist p q) := by
  rw [interp_cons2]
  by_cases hd : d ≤ 0
  · have hd0 : d = 0 := le_antisymm hd h0
    subst hd0
    rw [if_pos le_rfl, zero_div, lerp_zero]
  · rw [if_neg hd, if_pos h1]

theorem interp_shift (p q : RPt) (rest : List RPt) (d : ℝ) (h : rdist p q ≤ d) :
    interpolate (p :: q :: rest) d = interpolate (q :: rest) (d - rdist p q) := by
  rw [interp_cons2]
  by_cases hd : d ≤ 0
  · have he0 : rdist p q = 0 := le_antisymm (h.trans hd) (rdist_nonneg p q)
    rw [he0] at h
    have hd0 : d = 0 := le_antisymm hd h
    subst hd0
    rw [if_pos le_rfl, he0, sub_zero, interp_zero]
    exact (rdist_eq_zero_iff p q).1 he0
  · rw [if_neg hd]
    by_cases h2 : d ≤ rdist p q
    · have hde : d = rdist p q := le_antisymm h2 h
      have hepos : 0 < rdist p q := by
        rcases (rdist_nonneg p q).lt_or_eq with h' | h'
        · exact h'
        · exact absurd (hde.trans h'.symm).le hd
      rw [if_pos h2, hde, div_self (ne_of_gt hepos), lerp_one, sub_self, interp_zero]
    · rw [if_neg h2]

theorem subFwd_empty (d1 d2 : ℝ) : subFwd [] d1 d2 = [interpolate [] d1] := rfl

theorem subFwd_one (p : RPt) (d1 d2 : ℝ) : subFwd [p] d1 d2 = [interpolate [p] d1] := rfl

theorem subFwd_cons2 (p q : RPt) (rest : List RPt) (d1 d2 : ℝ) :
    subFwd (p :: q :: rest) d1 d2 =
      if d1 < d2 then
        if d2 ≤ rdist p q then
          [interpolate (p :: q :: rest) d1, interpolate (p :: q :: rest) d2]
        else if rdist p q ≤ d1 then
          subFwd (q :: rest) (d1 - rdist p q) (d2 - rdist p q)
        else interpolate (p :: q :: rest) d1 :: subFwd (q :: rest) 0 (d2 - rdist p q)
      else [interpolate (p :: q :: rest) d1] := rfl

theorem subFwd_head (l : List RPt) : ∀ (d1 d2 : ℝ),
    ∃ tl, subFwd l d1 d2 = interpolate l d1 :: tl := by
  induction l with
  | nil =>
    intro d1 d2
    exact ⟨[], rfl⟩
  | cons a t ih =>
    intro d1 d2
    cases t with
    | nil => exact ⟨[], rfl⟩
    | cons b t2 =>
      rw [subFwd_cons2]
      split_ifs with h1 h2 h3
      · exact ⟨[interpolate (a :: b :: t2) d2], rfl⟩
      · obtain ⟨tl, htl⟩ := ih (d1 - rdist a b) (d2 - rdist a b)
        exact ⟨tl, by rw [htl, ← interp_shift a b t2 d1 h3]⟩
      · exact ⟨subFwd (b :: t2) 0 (d2 - rdist a b), rfl⟩
      · exact ⟨[], rfl⟩

theorem curveLen_subFwd (l : List RPt) : ∀ (d1 d2 : ℝ),
    0 ≤ d1 → d1 ≤ d2 → d2 ≤ curveLen l →
    curveLen (subFwd l d1 d2) = d2 - d1 := by
  induction l with
  | nil =>
    intro d1 d2 h0 h12 h2L
    rw [curveLen_nil] at h2L
    rw [subFwd_empty, curveLen_one]
    linarith
  | cons a t ih =>
    intro d1 d2 h0 h12 h2L
    cases t with
    | nil =>
      rw [curveLen_one] at h2L
      rw [subFwd_one, curveLen_one]
      linarith
    | cons b t2 =>
      rw [curveLen_cons2] at h2L
      rw [subFwd_cons2]
      split_ifs with h1 h2 h3
      · have hepos : 0 < rdist a b := lt_of_lt_of_le (lt_of_le_of_lt h0 h1) h2
        rw [curveLen_cons2, curveLen_one, add_zero]
        rw [interp_first_edge a b t2 d1 h0 (h12.trans h2),
            interp_first_edge a b t2 d2 (h0.trans h12) h2, rdist_lerp]
        rw [div_sub_div_same, abs_of_nonneg (div_nonneg (by linarith) hepos.le),
            div_mul_cancel₀ _ (ne_of_gt hepos)]
      · rw [ih (d1 - rdist a b) (d2 - rdist a b) (by linarith) (by linarith) (by linarith)]
        ring
      · obtain ⟨tl, htl⟩ := subFwd_head (b :: t2) 0 (d2 - rdist a b)
        have hepos : 0 < rdist a b := lt_of_le_of_lt h0 (not_le.1 h3)
        have htail : curveLen (interpolate (b :: t2) 0 :: tl) = d2 - rdist a b - 0 := by
          rw [← htl]
          exact ih 0 (d2 - rdist a b) le_rfl (by linarith [not_le.1 h2]) (by linarith)
        have h0b : interpolate (b :: t2) 0 = lerp a b 1 := by
          rw [interp_zero, lerp_one]
        have hfst : rdist (lerp a b (d1 / rdist a b)) (lerp a b 1) = rdist a b - d1 := by
          rw [rdist_lerp,
              abs_of_nonneg (by rw [sub_nonneg, div_le_one hepos]; exact (not_le.1 h3).le),
              sub_mul, one_mul, div_mul_cancel₀ _ (ne_of_gt hepos)]
        rw [htl, curveLen_cons2, htail, h0b,
            interp_first_edge a b t2 d1 h0 (not_le.1 h3).le, hfst]
        ring
      · have hd : d1 = d2 := le_antisymm h12 (not_lt.1 h1)
        rw [curveLen_one]
        linarith

theorem interp_subFwd (l : List RPt) : ∀ (d1 d2 : ℝ),
    0 ≤ d1 → d1 ≤ d2 → d2 ≤ curveLen l → ∀ t : ℝ, 0 ≤ t → t ≤ d2 - d1 →
    interpolate (subFwd l d1 d2) t = interpolate l (d1 + t) := by
  induction l with
  | nil =>
    intro d1 d2 h0 h12 h2L tt ht0 htle
    rw [subFwd_empty, interp_one, interp_nil, interp_nil]
  | cons a tail ih =>
    intro d1 d2 h0 h12 h2L tt ht0 htle
    cases tail with
    | nil =>
      rw [subFwd_one, interp_one, interp_one, interp_one]
    | cons b t2 =>
      rw [curveLen_cons2] at h2L
      rw [subFwd_cons2]
      split_ifs with h1 h2 h3
      · have hepos : 0 < rdist a b := lt_of_lt_of_le (lt_of_le_of_lt h0 h1) h2
        have hA : interpolate (a :: b :: t2) d1 = lerp a b (d1 / rdist a b) :=
          interp_first_edge a b t2 d1 h0 (h12.trans h2)
        have hB : interpolate (a :: b :: t2) d2 = lerp a b (d2 / rdist a b) :=
          interp_first_edge a b t2 d2 (h0.trans h12) h2
        have hrAB : rdist (interpolate (a :: b :: t2) d1)
            (interpolate (a :: b :: t2) d2) = d2 - d1 := by
          rw [hA, hB, rdist_lerp, div_sub_div_same,
              abs_of_nonneg (div_nonneg (by linarith) hepos.le),
              div_mul_cancel₀ _ (ne_of_gt hepos)]
        have hne1 : d2 - d1 ≠ 0 := ne_of_gt (by linarith)
        have hne2 : rdist a b ≠ 0 := ne_of_gt hepos
        rw [interp_first_edge _ _ [] tt ht0 (by rw [hrAB]; exact htle), hrAB, hA, hB,
            lerp_lerp, interp_first_edge a b t2 (d1 + tt) (by linarith) (by linarith)]
        congr 1
        field_simp
      · rw [ih (d1 - rdist a b) (d2 - rdist a b) (by linarith) (by linarith) (by linarith)
            tt ht0 (by linarith),
            interp_shift a b t2 (d1 + tt) (by linarith)]
        congr 1
        ring
      · obtain ⟨tl, htl⟩ := subFwd_head (b :: t2) 0 (d2 - rdist a b)
        have hepos : 0 < rdist a b := lt_of_le_of_lt h0 (not_le.1 h3)
        have hd1e : d1 < rdist a b := not_le.1 h3
        have hed2 : rdist a b < d2 := not_le.1 h2
        have hA : interpolate (a :: b :: t2) d1 = lerp a b (d1 / rdist a b) :=
          interp_first_edge a b t2 d1 h0 hd1e.le
        have h0b : interpolate (b :: t2) 0 = lerp a b 1 := by
          rw [interp_zero, lerp_one]
        have hfst : rdist (lerp a b (d1 / rdist a b)) (lerp a b 1) = rdist a b - d1 := by
          rw [rdist_lerp, abs_of_nonneg (by rw [sub_nonneg, div_le_one hepos]; exact hd1e.le),
              sub_mul, one_mul, div_mul_cancel₀ _ (ne_of_gt hepos)]
        rw [htl, h0b, hA]
        by_cases htt : tt ≤ rdist a b - d1
        · have hne1 : rdist a b - d1 ≠ 0 := ne_of_gt (by linarith)
          have hne2 : rdist a b ≠ 0 := ne_of_gt hepos
          rw [interp_first_edge _ _ tl tt ht0 (by rw [hfst]; exact htt), hfst, lerp_lerp,
              interp_first_edge a b t2 (d1 + tt) (by linarith) (by linarith)]
          congr 1
          field_simp
        · have hlt : rdist a b - d1 < tt := not_le.1 htt
          rw [interp_shift _ _ tl tt (by rw [hfst]; exact hlt.le), hfst, ← h0b, ← htl]
          rw [ih 0 (d2 - rdist a b) le_rfl (by linarith) (by linarith)
              (tt - (rdist a b - d1)) (by linarith) (by linarith),
              interp_shift a b t2 (d1 + tt) (by linarith)]
          congr 1
          ring
      · have hd : d1 = d2 := le_antisymm h12 (not_lt.1 h1)
        have htt0 : tt = 0 := le_antisymm (by linarith) ht0
        subst htt0
        rw [interp_one, add_zero]

theorem edgeParam_nonneg (a b p : RPt) : 0 ≤ edgeParam a b p := le_max_left 0 _

theorem edgeParam_le_one (a b p : RPt) : edgeParam a b p ≤ 1 :=
  max_le zero_le_one (min_le_left 1 _)

theorem projectAux_empty (p : RPt) (acc bD bP : ℝ) : projectAux p [] acc bD bP = bP := rfl

theorem projectAux_one (p a : RPt) (acc bD bP : ℝ) : projectAux p [a] acc bD bP = bP := rfl

theorem projectAux_cons2 (p a b : RPt) (rest : List RPt) (acc bD bP : ℝ) :
    projectAux p (a :: b :: rest) acc bD bP =
      if sqDistR p (lerp a b (edgeParam a b p)) < bD then
        projectAux p (b :: rest) (acc + rdist a b)
          (sqDistR p (lerp a b (edgeParam a b p))) (acc + edgeParam a b p * rdist a b)
      else projectAux p (b :: rest) (acc + rdist a b) bD bP := rfl

theorem project_cons (a : RPt) (rest : List RPt) (p : RPt) :
    project (a :: rest) p = projectAux p (a :: rest) 0 (sqDistR p a) 0 := rfl

theorem project_empty (p : RPt) : project [] p = 0 := rfl

theorem projectAux_zero (p : RPt) : ∀ (l : List RPt) (acc pos : ℝ),
    projectAux p l acc 0 pos = pos := by
  intro l
  induction l with
  | nil => intro acc pos; rfl
  | cons a t ih =>
    intro acc pos
    cases t with
    | nil => rfl
    | cons b t2 =>
      rw [projectAux_cons2, if_neg (not_lt.2 (sqDistR_nonneg _ _)), ih]

theorem edgeZeros_empty (p : RPt) (d acc : ℝ) : EdgeZeros p d [] acc := trivial

theorem edgeZeros_one (p : RPt) (d acc : ℝ) (a : RPt) : EdgeZeros p d [a] acc := trivial

theorem edgeZeros_cons2 (p : RPt) (d : ℝ) (a b : RPt) (rest : List RPt) (acc : ℝ) :
    EdgeZeros p d (a :: b :: rest) acc ↔
      ((sqDistR p (lerp a b (edgeParam a b p)) = 0 →
        acc + edgeParam a b p * rdist a b = d) ∧
      EdgeZeros p d (b :: rest) (acc + rdist a b)) := Iff.rfl

theorem edgeHitsZero_cons2 (p a b : RPt) (rest : List RPt) :
    EdgeHitsZero p (a :: b :: rest) ↔
      (sqDistR p (lerp a b (edgeParam a b p)) = 0 ∨ EdgeHitsZero p (b :: rest)) := Iff.rfl

theorem edgeHitsZero_empty (p : RPt) : ¬ EdgeHitsZero p [] := fun h => h

theorem edgeHitsZero_one (p a : RPt) : ¬ EdgeHitsZero p [a] := fun h => h

theorem projectAux_eq_of (p : RPt) (d : ℝ) : ∀ (l : List RPt) (acc bD bP : ℝ),
    EdgeZeros p d l acc →
    (EdgeHitsZero p l ∨ (bD = 0 ∧ bP = d)) →
    0 ≤ bD → (bD = 0 → bP = d) →
    projectAux p l acc bD bP = d := by
  intro l
  induction l with
  | nil =>
    intro acc bD bP hz hh hnn hinv
    rcases hh with hh | ⟨h0, hP⟩
    · exact absurd hh (edgeHitsZero_empty p)
    · rw [projectAux_empty]
      exact hP
  | cons a t ih =>
    intro acc bD bP hz hh hnn hinv
    cases t with
    | nil =>
      rcases hh with hh | ⟨h0, hP⟩
      · exact absurd hh (edgeHitsZero_one p a)
      · rw [projectAux_one]
        exact hP
    | cons b t2 =>
      rw [edgeZeros_cons2] at hz
      rw [projectAux_cons2]
      split_ifs with himp
      · apply ih
        · exact hz.2
        · rcases hh with hh | ⟨h0, hP⟩
          · rcases (edgeHitsZero_cons2 p a b t2).1 hh with hzero | htail
            · exact Or.inr ⟨hzero, hz.1 hzero⟩
            · exact Or.inl htail
          · exact absurd himp (by rw [h0]; exact not_lt.2 (sqDistR_nonneg _ _))
        · exact sqDistR_nonneg _ _
        · exact hz.1
      · apply ih
        · exact hz.2
        · rcases hh with hh | ⟨h0, hP⟩
          · rcases (edgeHitsZero_cons2 p a b t2).1 hh with hzero | htail
            · have hle := not_lt.1 himp
              rw [hzero] at hle
              exact Or.inr ⟨le_antisymm hle hnn, hinv (le_antisymm hle hnn)⟩
            · exact Or.inl htail
          · exact Or.inr ⟨h0, hP⟩
        · exact hnn
        · exact hinv

theorem edgeZeros_of_inj (l : List RPt) (hinj : InjInterp l) (d : ℝ)
    (hd0 : 0 ≤ d) (hdL : d ≤ curveLen l) :
    ∀ (lsuf : List RPt) (acc : ℝ), 0 ≤ acc →
      acc + curveLen lsuf = curveLen l →
      (∀ s : ℝ, 0 ≤ s → s ≤ curveLen lsuf → interpolate lsuf s = interpolate l (acc + s)) →
      EdgeZeros (interpolate l d) d lsuf acc := by
  intro lsuf
  induction lsuf with
  | nil =>
    intro acc _ _ _
    exact edgeZeros_empty _ _ _
  | cons x t ih =>
    intro acc hacc htot hlink
    cases t with
    | nil => exact edgeZeros_one _ _ _ _
    | cons y t2 =>
      rw [edgeZeros_cons2]
      constructor
      · intro hzero
        have hcand : interpolate l d = lerp x y (edgeParam x y (interpolate l d)) :=
          (sqDistR_eq_zero_iff _ _).1 hzero
        have htp0 : 0 ≤ edgeParam x y (interpolate l d) := edgeParam_nonneg _ _ _
        have htp1 : edgeParam x y (interpolate l d) ≤ 1 := edgeParam_le_one _ _ _
        have hte : edgeParam x y (interpolate l d) * rdist x y ≤ rdist x y :=
          mul_le_of_le_one_left (rdist_nonneg x y) htp1
        have hte0 : 0 ≤ edgeParam x y (interpolate l d) * rdist x y :=
          mul_nonneg htp0 (rdist_nonneg x y)
        have hintsuf : interpolate (x :: y :: t2)
            (edgeParam x y (interpolate l d) * rdist x y)
            = lerp x y (edgeParam x y (interpolate l d)) := by
          rw [interp_first_edge x y t2 _ hte0 hte]
          by_cases he : rdist x y = 0
          · have hxy : x = y := (rdist_eq_zero_iff x y).1 he
            rw [he, mul_zero, zero_div, lerp_zero, ← hxy, lerp_same]
          · rw [mul_div_cancel_right₀ _ he]
        have hlen : rdist x y ≤ curveLen (x :: y :: t2) := by
          rw [curveLen_cons2]
          have := curveLen_nonneg (y :: t2)
          linarith
        have hmain : interpolate l
            (acc + edgeParam x y (interpolate l d) * rdist x y) = interpolate l d := by
          rw [← hlink _ hte0 (hte.trans hlen), hintsuf]
          exact hcand.symm
        exact hinj _ d (add_nonneg hacc hte0)
          (by have h' := hte.trans hlen; linarith) hd0 hdL hmain
      · apply ih (acc + rdist x y) (add_nonneg hacc (rdist_nonneg x y))
        · rw [curveLen_cons2] at htot
          linarith
        · intro s hs0 hsL
          have h1 : interpolate (y :: t2) s = interpolate (x :: y :: t2) (rdist x y + s) := by
            rw [interp_shift x y t2 (rdist x y + s) (by linarith)]
            congr 1
            ring
          rw [h1, hlink (rdist x y + s) (by linarith [rdist_nonneg x y])
              (by rw [curveLen_cons2]; linarith)]
          congr 1
          ring

theorem edgeHitsZero_interp (l : List RPt) : ∀ (d : ℝ), 0 ≤ d → d ≤ curveLen l →
    2 ≤ l.length → EdgeHitsZero (interpolate l d) l := by
  induction l with
  | nil =>
    intro d _ _ hlen
    norm_num at hlen
  | cons x t ih =>
    intro d hd0 hdL hlen
    cases t with
    | nil => norm_num at hlen
    | cons y t2 =>
      by_cases hde : d ≤ rdist x y
      · rw [edgeHitsZero_cons2]
        left
        by_cases he : rdist x y = 0
        · have hd00 : d = 0 := le_antisymm (he ▸ hde) hd0
          subst hd00
          have hxy : x = y := (rdist_eq_zero_iff x y).1 he
          rw [interp_zero, ← hxy, lerp_same]
          exact sqDistR_self x
        · have hepos : 0 < rdist x y := lt_of_le_of_ne (rdist_nonneg x y) (Ne.symm he)
          have hpt : interpolate (x :: y :: t2) d = lerp x y (d / rdist x y) :=
            interp_first_edge x y t2 d hd0 hde
          have hsq : rdist x y ^ 2 = (x.x - y.x) ^ 2 + (x.y - y.y) ^ 2 := by
            unfold rdist
            exact Real.sq_sqrt (by positivity)
          have he2 : (y.x - x.x) ^ 2 + (y.y - x.y) ^ 2 = rdist x y ^ 2 := by
            rw [hsq]
            ring
          have hparam : edgeParam x y (interpolate (x :: y :: t2) d) = d / rdist x y := by
            rw [hpt]
            unfold edgeParam
            rw [show ((lerp x y (d / rdist x y)).x - x.x) * (y.x - x.x) +
                ((lerp x y (d / rdist x y)).y - x.y) * (y.y - x.y) =
                d / rdist x y * ((y.x - x.x) ^ 2 + (y.y - x.y) ^ 2) from by
              simp only [lerp]
              ring]
            rw [he2, mul_div_assoc, div_self (pow_ne_zero 2 he), mul_one]
            rw [min_eq_right (by rw [div_le_one hepos]; exact hde),
                max_eq_right (div_nonneg hd0 hepos.le)]
          rw [hparam, ← hpt]
          exact sqDistR_self _
      · cases t2 with
        | nil =>
          exfalso
          rw [curveLen_cons2, curveLen_one] at hdL
          exact hde (by linarith)
        | cons z t3 =>
          rw [edgeHitsZero_cons2]
          right
          rw [interp_shift x y (z :: t3) d (not_le.1 hde).le]
          refine ih (d - rdist x y) (by linarith [not_le.1 hde]) ?_ (by norm_num)
          rw [curveLen_cons2] at hdL
          linarith

theorem project_interp (l : List RPt) (hinj : InjInterp l) (d : ℝ)
    (hd0 : 0 ≤ d) (hdL : d ≤ curveLen l) :
    project l (interpolate l d) = d := by
  cases l with
  | nil =>
    rw [curveLen_nil] at hdL
    rw [project_empty]
    linarith
  | cons a t =>
    cases t with
    | nil =>
      rw [curveLen_one] at hdL
      rw [project_cons, projectAux_one]
      linarith
    | cons b t2 =>
      rw [project_cons]
      apply projectAux_eq_of
      · exact edgeZeros_of_inj (a :: b :: t2) hinj d hd0 hdL (a :: b :: t2) 0 le_rfl
          (by rw [zero_add]) (fun s hs0 hsL => by rw [zero_add])
      · exact Or.inl (edgeHitsZero_interp (a :: b :: t2) d hd0 hdL (by norm_num))
      · exact sqDistR_nonneg _ _
      · intro h0
        have hpa : interpolate (a :: b :: t2) d = a := (sqDistR_eq_zero_iff _ _).1 h0
        have hda : d = 0 := by
          apply hinj d 0 hd0 hdL le_rfl (curveLen_nonneg _)
          rw [interp_zero]
          exact hpa
        exact hda.symm

theorem injInterp_subFwd (l : List RPt) (hinj : InjInterp l) (d1 d2 : ℝ)
    (h0 : 0 ≤ d1) (h12 : d1 ≤ d2) (h2L : d2 ≤ curveLen l) :
    InjInterp (subFwd l d1 d2) := by
  intro t1 t2 ht10 ht1L ht20 ht2L heq
  rw [curveLen_subFwd l d1 d2 h0 h12 h2L] at ht1L ht2L
  rw [interp_subFwd l d1 d2 h0 h12 h2L t1 ht10 ht1L,
      interp_subFwd l d1 d2 h0 h12 h2L t2 ht20 ht2L] at heq
  have := hinj (d1 + t1) (d1 + t2) (by linarith) (by linarith) (by linarith) (by linarith) heq
  linarith

theorem substring_fwd (l : List RPt) (d1 d2 : ℝ) (h : d1 ≤ d2) :
    substring l d1 d2 = subFwd l d1 d2 := by
  unfold substring
  rw [if_pos h]

theorem subcurve_props (l : List RPt) (hinj : InjInterp l) (d1 d2 : ℝ)
    (h0 : 0 ≤ d1) (h12 : d1 ≤ d2) (h2L : d2 ≤ curveLen l) :
    curveLen (substring l d1 d2) = d2 - d1 ∧
    InjInterp (substring l d1 d2) ∧
    interpolate (substring l d1 d2) 0 = interpolate l d1 ∧
    interpolate (substring l d1 d2) (d2 - d1) = interpolate l d2 := by
  rw [substring_fwd l d1 d2 h12]
  refine ⟨curveLen_subFwd l d1 d2 h0 h12 h2L,
    injInterp_subFwd l hinj d1 d2 h0 h12 h2L, ?_, ?_⟩
  · have h := interp_subFwd l d1 d2 h0 h12 h2L 0 le_rfl (by linarith)
    rw [add_zero] at h
    exact h
  · have h := interp_subFwd l d1 d2 h0 h12 h2L (d2 - d1) (by linarith) le_rfl
    rw [show d1 + (d2 - d1) = d2 from by ring] at h
    exact h

theorem extract_interp (l : List RPt) (hinj : InjInterp l) (d1 d2 : ℝ)
    (h10 : 0 ≤ d1) (h1L : d1 ≤ curveLen l) (h20 : 0 ≤ d2) (h2L : d2 ≤ curveLen l) :
    extract_subcurve l (some (interpolate l d1)) (some (interpolate l d2)) =
      substring l d1 d2 := by
  show substring l (project l (interpolate l d1)) (project l (interpolate l d2)) = _
  rw [project_interp l hinj d1 h10 h1L, project_interp l hinj d2 h20 h2L]

theorem split_fuel_aux (k : Nat) : ∀ (upper lower : List RPt) (meters : ℝ)
    (ca cb na nb : RPt),
    0 < meters → InjInterp upper → InjInterp lower →
    ca = interpolate upper 0 → na = interpolate upper (curveLen upper) →
    nb = interpolate lower 0 → cb = interpolate lower (curveLen lower) →
    curveLen upper ≤ meters * 2 ^ k → curveLen lower ≤ meters * 2 ^ k →
    (split_shape_if_needed (k + 1) upper lower meters ca cb na nb).isSome := by
  induction k with
  | zero =>
    intro upper lower meters ca cb na nb hm hu hl hca hna hnb hcb hub hlb
    rw [pow_zero, mul_one] at hub hlb
    have hcond : ¬(curveLen upper > meters ∨ curveLen lower > meters) := by
      push_neg
      exact ⟨hub, hlb⟩
    rw [split_shape_if_needed, if_neg hcond]
    rfl
  | succ k ih =>
    intro upper lower meters ca cb na nb hm hu hl hca hna hnb hcb hub hlb
    by_cases hcond : curveLen upper > meters ∨ curveLen lower > meters
    · rw [split_shape_if_needed, if_pos hcond]
      have hL : 0 ≤ curveLen upper := curveLen_nonneg upper
      have hL' : 0 ≤ curveLen lower := curveLen_nonneg lower
      have hmidU : interpolateNormalized upper (1 / 2) =
          interpolate upper (1 / 2 * curveLen upper) := rfl
      have hmidL : interpolateNormalized lower (1 / 2) =
          interpolate lower (1 / 2 * curveLen lower) := rfl
      rw [pow_succ] at hub hlb
      have hlu : extract_subcurve upper (some ca)
          (some (interpolateNormalized upper (1 / 2))) =
          substring upper 0 (1 / 2 * curveLen upper) := by
        rw [hca, hmidU]
        exact extract_interp upper hu 0 (1 / 2 * curveLen upper) le_rfl hL
          (by linarith) (by linarith)
      obtain ⟨hlu_len, hlu_inj, hlu_0, hlu_e⟩ :=
        subcurve_props upper hu 0 (1 / 2 * curveLen upper) le_rfl (by linarith) (by linarith)
      have hll : extract_subcurve lower (some (interpolateNormalized lower (1 / 2)))
          (some cb) =
          substring lower (1 / 2 * curveLen lower) (curveLen lower) := by
        rw [hcb, hmidL]
        exact extract_interp lower hl (1 / 2 * curveLen lower) (curveLen lower)
          (by linarith) (by linarith) hL' le_rfl
      obtain ⟨hll_len, hll_inj, hll_0, hll_e⟩ :=
        subcurve_props lower hl (1 / 2 * curveLen lower) (curveLen lower)
          (by linarith) (by linarith) le_rfl
      have hru : extract_subcurve upper (some (interpolateNormalized upper (1 / 2)))
          (some na) =
          substring upper (1 / 2 * curveLen upper) (curveLen upper) := by
        rw [hna, hmidU]
        exact extract_interp upper hu (1 / 2 * curveLen upper) (curveLen upper)
          (by linarith) (by linarith) hL le_rfl
      obtain ⟨hru_len, hru_inj, hru_0, hru_e⟩ :=
        subcurve_props upper hu (1 / 2 * curveLen upper) (curveLen upper)
          (by linarith) (by linarith) le_rfl
      have hrl : extract_subcurve lower (some nb)
          (some (interpolateNormalized lower (1 / 2))) =
          substring lower 0 (1 / 2 * curveLen lower) := by
        rw [hnb, hmidL]
        exact extract_interp lower hl 0 (1 / 2 * curveLen lower) le_rfl hL'
          (by linarith) (by linarith)
      obtain ⟨hrl_len, hrl_inj, hrl_0, hrl_e⟩ :=
        subcurve_props lower hl 0 (1 / 2 * curveLen lower) le_rfl (by linarith) (by linarith)
      have hleft : (split_shape_if_needed (k + 1)
          (extract_subcurve upper (some ca) (some (interpolateNormalized upper (1 / 2))))
          (extract_subcurve lower (some (interpolateNormalized lower (1 / 2))) (some cb))
          meters ca cb (interpolateNormalized upper (1 / 2))
          (interpolateNormalized lower (1 / 2))).isSome := by
        rw [hlu, hll]
        apply ih _ _ meters ca cb _ _ hm hlu_inj hll_inj
        · rw [hlu_0]
          exact hca
        · rw [hlu_len, hlu_e, hmidU]
        · rw [hll_0]
          exact hmidL
        · rw [hll_len, hll_e]
          exact hcb
        · rw [hlu_len]
          linarith
        · rw [hll_len]
          linarith
      have hright : (split_shape_if_needed (k + 1)
          (extract_subcurve upper (some (interpolateNormalized upper (1 / 2))) (some na))
          (extract_subcurve lower (some nb) (some (interpolateNormalized lower (1 / 2))))
          meters (interpolateNormalized upper (1 / 2))
          (interpolateNormalized lower (1 / 2)) na nb).isSome := by
        rw [hru, hrl]
        apply ih _ _ meters _ _ na nb hm hru_inj hrl_inj
        · rw [hru_0, hmidU]
        · rw [hru_len, hru_e]
          exact hna
        · rw [hrl_0]
          exact hnb
        · rw [hrl_len, hrl_e, hmidL]
        · rw [hru_len]
          linarith
        · rw [hrl_len]
          linarith
      obtain ⟨ls, hls⟩ := Option.isSome_iff_exists.1 hleft
      obtain ⟨rs, hrs⟩ := Option.isSome_iff_exists.1 hright
      rw [hls, hrs]
      rfl
    · rw [split_shape_if_needed, if_neg hcond]
      rfl

/-- C9 amended: the bisection halves and terminates only for faithfully
projecting boundary sub-curves.  When the arc-length parameterizations of
both sub-curves are injective and the four corner points are the curves'
arc-length endpoints (the invariant maintained by the recursion itself),
each of the four child sub-curves of `split_shape_if_needed` has exactly
half the parent's arc length, and for every positive maximum `meters` some
finite recursion depth (fuel) suffices, i.e. the recursion terminates.
Without the injectivity hypotheses the halving claim is refuted by
`split_shape_not_halved`. -/
theorem split_shape_halving_terminates
    (upper lower : List RPt) (meters : ℝ) (ca cb na nb : RPt)
    (hm : 0 < meters) (hu : InjInterp upper) (hl : InjInterp lower)
    (hca : ca = interpolate upper 0) (hna : na = interpolate upper (curveLen upper))
    (hnb : nb = interpolate lower 0) (hcb : cb = interpolate lower (curveLen lower)) :
    curveLen (extract_subcurve upper (some ca)
        (some (interpolateNormalized upper (1 / 2)))) = curveLen upper / 2 ∧
    curveLen (extract_subcurve upper (some (interpolateNormalized upper (1 / 2)))
        (some na)) = curveLen upper / 2 ∧
    curveLen (extract_subcurve lower (some (interpolateNormalized lower (1 / 2)))
        (some cb)) = curveLen lower / 2 ∧
    curveLen (extract_subcurve lower (some nb)
        (some (interpolateNormalized lower (1 / 2)))) = curveLen lower / 2 ∧
    ∃ fuel, (split_shape_if_needed fuel upper lower meters ca cb na nb).isSome := by
  have hL : 0 ≤ curveLen upper := curveLen_nonneg upper
  have hL' : 0 ≤ curveLen lower := curveLen_nonneg lower
  have hmidU : interpolateNormalized upper (1 / 2) =
      interpolate upper (1 / 2 * curveLen upper) := rfl
  have hmidL : interpolateNormalized lower (1 / 2) =
      interpolate lower (1 / 2 * curveLen lower) := rfl
  refine ⟨?_, ?_, ?_, ?_, ?_⟩
  · rw [hca, hmidU, extract_interp upper hu 0 (1 / 2 * curveLen upper) le_rfl hL
        (by linarith) (by linarith),
      (subcurve_props upper hu 0 (1 / 2 * curveLen upper) le_rfl
        (by linarith) (by linarith)).1]
    ring
  · rw [hna, hmidU, extract_interp upper hu (1 / 2 * curveLen upper) (curveLen upper)
        (by linarith) (by linarith) hL le_rfl,
      (subcurve_props upper hu (1 / 2 * curveLen upper) (curveLen upper)
        (by linarith) (by linarith) le_rfl).1]
    ring
  · rw [hcb, hmidL, extract_interp lower hl (1 / 2 * curveLen lower) (curveLen lower)
        (by linarith) (by linarith) hL' le_rfl,
      (subcurve_props lower hl (1 / 2 * curveLen lower) (curveLen lower)
        (by linarith) (by linarith) le_rfl).1]
    ring
  · rw [hnb, hmidL, extract_interp lower hl 0 (1 / 2 * curveLen lower) le_rfl hL'
        (by linarith) (by linarith),
      (subcurve_props lower hl 0 (1 / 2 * curveLen lower) le_rfl
        (by linarith) (by linarith)).1]
    ring
  · obtain ⟨k1, hk1⟩ := pow_unbounded_of_one_lt (curveLen upper / meters)
      (by norm_num : (1:ℝ) < 2)
    obtain ⟨k2, hk2⟩ := pow_unbounded_of_one_lt (curveLen lower / meters)
      (by norm_num : (1:ℝ) < 2)
    refine ⟨max k1 k2 + 1, split_fuel_aux (max k1 k2) upper lower meters ca cb na nb
      hm hu hl hca hna hnb hcb ?_ ?_⟩
    · rw [div_lt_iff₀ hm] at hk1
      have h2 : (2:ℝ) ^ k1 ≤ 2 ^ max k1 k2 :=
        pow_le_pow_right₀ (by norm_num) (le_max_left k1 k2)
      have h3 : meters * 2 ^ k1 ≤ meters * 2 ^ max k1 k2 :=
        mul_le_mul_of_nonneg_left h2 hm.le
      nlinarith
    · rw [div_lt_iff₀ hm] at hk2
      have h2 : (2:ℝ) ^ k2 ≤ 2 ^ max k1 k2 :=
        pow_le_pow_right₀ (by norm_num) (le_max_right k1 k2)
      have h3 : meters * 2 ^ k2 ≤ meters * 2 ^ max k1 k2 :=
        mul_le_mul_of_nonneg_left h2 hm.le
      nlinarith

/-- C9 witness: degenerate empty boundary curves faithfully project, so
the bisection needs no split and terminates at once. -/
theorem split_shape_halving_terminates_witness :
    (0:ℝ) < 1 ∧ InjInterp [] ∧
    (curveLen (extract_subcurve [] (some ⟨0, 0⟩)
        (some (interpolateNormalized [] (1 / 2)))) = curveLen ([] : List RPt) / 2 ∧
    curveLen (extract_subcurve [] (some (interpolateNormalized [] (1 / 2)))
        (some ⟨0, 0⟩)) = curveLen ([] : List RPt) / 2 ∧
    curveLen (extract_subcurve [] (some (interpolateNormalized [] (1 / 2)))
        (some ⟨0, 0⟩)) = curveLen ([] : List RPt) / 2 ∧
    curveLen (extract_subcurve [] (some ⟨0, 0⟩)
        (some (interpolateNormalized [] (1 / 2)))) = curveLen ([] : List RPt) / 2 ∧
    ∃ fuel, (split_shape_if_needed fuel [] [] 1 ⟨0, 0⟩ ⟨0, 0⟩ ⟨0, 0⟩ ⟨0, 0⟩).isSome) := by
  have hinj : InjInterp ([] : List RPt) := by
    intro d1 d2 h1 h2 h3 h4 _
    rw [curveLen_nil] at h2 h4
    linarith
  exact ⟨by norm_num, hinj,
    split_shape_halving_terminates [] [] 1 ⟨0, 0⟩ ⟨0, 0⟩ ⟨0, 0⟩ ⟨0, 0⟩ (by norm_num)
      hinj hinj rfl rfl rfl rfl⟩

/-- C9 counterexample: on the self-overlapping north line `c9U` (total arc
length 10, endpoints at arc 0 and 10) the midpoint interpolation gives
(3,0), but that coordinate first occurs at arc position 3, so the
projection-based `extract_subcurve` cuts the children at arc 3: the left
child has length 3 and the right child length 7 — the recursive call's
span is NOT half the parent's, and the right child exceeds the half. -/
theorem split_shape_not_halved :
    curveLen c9U = 10 ∧
    RPt.mk 0 0 = interpolate c9U 0 ∧
    RPt.mk 1 3 = interpolate c9U (curveLen c9U) ∧
    curveLen (extract_subcurve c9U (some ⟨0, 0⟩)
      (some (interpolateNormalized c9U (1 / 2)))) = 3 ∧
    curveLen (extract_subcurve c9U (some (interpolateNormalized c9U (1 / 2)))
      (some ⟨1, 3⟩)) = 7 ∧
    (3 : ℝ) ≠ 10 / 2 ∧ (10 : ℝ) / 2 < 7 := by
  have h1 : rdist ⟨0, 0⟩ ⟨4, 0⟩ = 4 := rdist_eval (by norm_num) (by norm_num)
  have h2 : rdist ⟨4, 0⟩ ⟨1, 0⟩ = 3 := rdist_eval (by norm_num) (by norm_num)
  have h3 : rdist ⟨1, 0⟩ ⟨1, 3⟩ = 3 := rdist_eval (by norm_num) (by norm_num)
  have h4 : rdist ⟨3, 0⟩ ⟨4, 0⟩ = 1 := rdist_eval (by norm_num) (by norm_num)
  have h5 : rdist ⟨0, 0⟩ ⟨3, 0⟩ = 3 := rdist_eval (by norm_num) (by norm_num)
  have hlen : curveLen c9U = 10 := by
    show curveLen [⟨0, 0⟩, ⟨4, 0⟩, ⟨1, 0⟩, ⟨1, 3⟩] = 10
    rw [curveLen_cons2, curveLen_cons2, curveLen_cons2, curveLen_one, h1, h2, h3]
    norm_num
  have hmid : interpolateNormalized c9U (1 / 2) = ⟨3, 0⟩ := by
    show interpolate c9U (1 / 2 * curveLen c9U) = _
    rw [hlen, show (1 / 2 : ℝ) * 10 = 5 from by norm_num]
    norm_num [c9U, interpolate, lerp, h1, h2, h3, RPt.mk.injEq]
  have hp0 : project c9U ⟨0, 0⟩ = 0 := by
    show project (⟨0, 0⟩ :: [⟨4, 0⟩, ⟨1, 0⟩, ⟨1, 3⟩]) ⟨0, 0⟩ = 0
    rw [project_cons, sqDistR_self, projectAux_zero]
  have hpm : project c9U ⟨3, 0⟩ = 3 := by
    norm_num [c9U, project, projectAux, edgeParam, lerp, sqDistR, h1, h2, h3]
  have hp3 : project c9U ⟨1, 3⟩ = 10 := by
    norm_num [c9U, project, projectAux, edgeParam, lerp, sqDistR, h1, h2, h3]
  have hleft : extract_subcurve c9U (some ⟨0, 0⟩)
      (some (interpolateNormalized c9U (1 / 2))) = [⟨0, 0⟩, ⟨3, 0⟩] := by
    rw [hmid]
    show substring c9U (project c9U ⟨0, 0⟩) (project c9U ⟨3, 0⟩) = _
    rw [hp0, hpm]
    norm_num [substring, subFwd, interpolate, lerp, c9U, h1, h2, h3, RPt.mk.injEq]
  have hright : extract_subcurve c9U (some (interpolateNormalized c9U (1 / 2)))
      (some ⟨1, 3⟩) = [⟨3, 0⟩, ⟨4, 0⟩, ⟨1, 0⟩, ⟨1, 3⟩] := by
    rw [hmid]
    show substring c9U (project c9U ⟨3, 0⟩) (project c9U ⟨1, 3⟩) = _
    rw [hpm, hp3]
    norm_num [substring, subFwd, interpolate, lerp, c9U, h1, h2, h3, RPt.mk.injEq]
  refine ⟨hlen, ?_, ?_, ?_, ?_, by norm_num, by norm_num⟩
  · show _ = interpolate (⟨0, 0⟩ :: [⟨4, 0⟩, ⟨1, 0⟩, ⟨1, 3⟩]) 0
    rw [interp_zero]
  · rw [hlen]
    norm_num [c9U, interpolate, lerp, h1, h2, h3, RPt.mk.injEq]
  · rw [hleft, curveLen_cons2, curveLen_one, h5]
    norm_num
  · rw [hright, curveLen_cons2, curveLen_cons2, curveLen_cons2, curveLen_one, h4, h2, h3]
    norm_num

/-! ### Theorems: curve stitcher (src/processing/merging.py) -/

theorem sqDist_nonneg (p q : Pt) : 0 ≤ sqDist p q := by
  unfold sqDist
  positivity

theorem sqDist_eq_zero_iff (p q : Pt) : sqDist p q = 0 ↔ p = q := by
  constructor
  · intro h
    obtain ⟨px, py⟩ := p
    obtain ⟨qx, qy⟩ := q
    unfold sqDist at h
    simp only [Pt.mk.injEq]
    constructor <;> nlinarith [sq_nonneg (px - qx), sq_nonneg (py - qy)]
  · intro h
    subst h
    unfold sqDist
    ring

theorem sqDist_pos (p q : Pt) (h : q ≠ p) : 0 < sqDist p q :=
  lt_of_le_of_ne (sqDist_nonneg p q)
    (fun h0 => h ((sqDist_eq_zero_iff p q).1 h0.symm).symm)

theorem headPt_cons (a : Pt) (l : List Pt) : headPt (a :: l) = a := rfl

theorem lastPt_eq_getLast (l : List Pt) (h : l ≠ []) : lastPt (l) = l.getLast h := by
  unfold lastPt
  rw [List.getLastD_eq_getLast? default l, List.getLast?_eq_getLast l h]
  rfl

theorem getLastD_irrel (l : List Pt) (h : l ≠ []) (d1 d2 : Pt) :
    l.getLastD d1 = l.getLastD d2 := by
  rw [List.getLastD_eq_getLast? d1 l, List.getLastD_eq_getLast? d2 l,
      List.getLast?_eq_getLast l h]
  rfl

theorem lastPt_cons (a : Pt) (l : List Pt) (h : l ≠ []) : lastPt (a :: l) = lastPt l := by
  unfold lastPt
  rw [List.getLastD_cons default a l]
  exact getLastD_irrel l h a default

theorem headPt_append (l1 l2 : List Pt) (h : l1 ≠ []) : headPt (l1 ++ l2) = headPt l1 := by
  cases l1 with
  | nil => exact absurd rfl h
  | cons a t => rfl

theorem lastPt_append (l1 l2 : List Pt) (h : l2 ≠ []) : lastPt (l1 ++ l2) = lastPt l2 := by
  induction l1 with
  | nil => rfl
  | cons a t ih =>
    rw [List.cons_append, lastPt_cons a (t ++ l2) (by simp [h]), ih]

theorem headPt_reverse (l : List Pt) : headPt l.reverse = lastPt l := by
  unfold headPt lastPt
  rw [List.headD_eq_head? l.reverse, List.head?_reverse, List.getLastD_eq_getLast? default l]

theorem lastPt_reverse (l : List Pt) : lastPt l.reverse = headPt l := by
  have h := headPt_reverse l.reverse
  rw [List.reverse_reverse] at h
  exact h.symm

theorem reverse_dropLast {α : Type} (l : List α) : l.dropLast.reverse = l.reverse.tail := by
  induction l with
  | nil => rfl
  | cons a t ih =>
    cases t with
    | nil => rfl
    | cons b t2 =>
      rw [List.dropLast_cons₂, List.reverse_cons, ih,
        show (a :: b :: t2).reverse = (b :: t2).reverse ++ [a] from
          List.reverse_cons a (b :: t2)]
      obtain ⟨x, xs, hx⟩ : ∃ x xs, (b :: t2).reverse = x :: xs := by
        cases hrev : (b :: t2).reverse with
        | nil => exact absurd (congrArg List.length hrev) (by simp)
        | cons x xs => exact ⟨x, xs, rfl⟩
      rw [hx]
      simp

theorem tail_ne_nil_of_len2 {α : Type} (l : List α) (h : 2 ≤ l.length) : l.tail ≠ [] := by
  cases l with
  | nil => norm_num at h
  | cons a t =>
    cases t with
    | nil => norm_num at h
    | cons b t2 => simp

theorem ne_nil_of_len2 {α : Type} (l : List α) (h : 2 ≤ l.length) : l ≠ [] := by
  cases l with
  | nil => norm_num at h
  | cons a t => simp

theorem getLastD_irr {α : Type} (l : List α) (h : l ≠ []) (d1 d2 : α) :
    l.getLastD d1 = l.getLastD d2 := by
  rw [List.getLastD_eq_getLast? d1 l, List.getLastD_eq_getLast? d2 l,
      List.getLast?_eq_getLast l h]
  rfl

theorem getLastD_append {α : Type} (l1 l2 : List α) (d : α) (h : l2 ≠ []) :
    (l1 ++ l2).getLastD d = l2.getLastD d := by
  induction l1 with
  | nil => rfl
  | cons a t ih =>
    rw [List.cons_append, List.getLastD_cons d a (t ++ l2),
        getLastD_irr (t ++ l2) (by simp [h]) a d, ih]

theorem joinChunks_nil : joinChunks [] = [] := rfl

theorem joinChunks_cons (c : List Pt) (cs : List (List Pt)) :
    joinChunks (c :: cs) = c ++ (joinChunks cs).tail := rfl

theorem joinChunks_ne_nil (cs : List (List Pt)) (h : cs ≠ [])
    (hc : ∀ c ∈ cs, c ≠ []) : joinChunks cs ≠ [] := by
  cases cs with
  | nil => exact absurd rfl h
  | cons c cs' =>
    rw [joinChunks_cons]
    have hcne := hc c (by simp)
    simp [hcne]

theorem headPt_joinChunks (c : List Pt) (cs : List (List Pt)) (hc : c ≠ []) :
    headPt (joinChunks (c :: cs)) = headPt c := by
  rw [joinChunks_cons]
  exact headPt_append c _ hc

theorem joinChunks_snoc (d : List Pt) : ∀ (M : List (List Pt)), M ≠ [] →
    (∀ c ∈ M, c ≠ []) →
    joinChunks (M ++ [d]) = joinChunks M ++ d.tail := by
  intro M
  induction M with
  | nil => intro hM _; exact absurd rfl hM
  | cons c M' ih =>
    intro hM hc
    cases M' with
    | nil => simp [joinChunks_cons, joinChunks_nil]
    | cons c2 M'' =>
      have hc' : ∀ x ∈ (c2 :: M''), x ≠ [] := fun x hx => hc x (by simp [hx])
      have hne := joinChunks_ne_nil (c2 :: M'') (by simp) hc'
      rw [List.cons_append, joinChunks_cons, ih (by simp) hc',
          show joinChunks (c :: c2 :: M'') = c ++ (joinChunks (c2 :: M'')).tail from
            joinChunks_cons c (c2 :: M'')]
      cases hJ : joinChunks (c2 :: M'') with
      | nil => exact absurd hJ hne
      | cons j js => simp

theorem glue_eq (A B : List Pt) (hA : A ≠ []) (hB : B ≠ []) (h : lastPt A = headPt B) :
    A ++ B.tail = A.dropLast ++ B := by
  cases B with
  | nil => exact absurd rfl hB
  | cons b bt =>
    have h2 : A.getLast hA = b := by
      rw [← lastPt_eq_getLast A hA, h]
      rfl
    conv_lhs => rw [← List.dropLast_append_getLast hA]
    rw [h2, List.append_assoc]
    rfl

theorem chained_cons2 (c1 c2 : List Pt) (cs : List (List Pt)) :
    Chained (c1 :: c2 :: cs) ↔ (lastPt c1 = headPt c2 ∧ Chained (c2 :: cs)) := Iff.rfl

theorem chained_tail (c : List Pt) (cs : List (List Pt)) (h : Chained (c :: cs)) :
    Chained cs := by
  cases cs with
  | nil => trivial
  | cons c2 cs' => exact ((chained_cons2 c c2 cs').1 h).2

theorem chained_split_right : ∀ (X : List (List Pt)) (c : List Pt) (FB : List (List Pt)),
    Chained (X ++ c :: FB) → Chained (c :: FB) := by
  intro X
  induction X with
  | nil =>
    intro c FB h
    exact h
  | cons x X' ih =>
    intro c FB h
    exact ih c FB (chained_tail x _ h)

theorem chainFrom_cons (v : Pt) (c : List Pt) (cs : List (List Pt)) :
    ChainFrom v (c :: cs) ↔ (headPt c = v ∧ ChainFrom (lastPt c) cs) := Iff.rfl

theorem chainFromRev_cons (v : Pt) (c : List Pt) (cs : List (List Pt)) :
    ChainFromRev v (c :: cs) ↔ (lastPt c = v ∧ ChainFromRev (headPt c) cs) := Iff.rfl

theorem chainFrom_of_chained : ∀ (FB : List (List Pt)) (c : List Pt),
    Chained (c :: FB) → ChainFrom (lastPt c) FB := by
  intro FB
  induction FB with
  | nil =>
    intro c _
    trivial
  | cons d FB' ih =>
    intro c h
    rw [chained_cons2] at h
    exact (chainFrom_cons _ _ _).2 ⟨h.1.symm, ih d h.2⟩

theorem chainFromRev_of_chained : ∀ (RA : List (List Pt)) (c : List Pt)
    (FB : List (List Pt)),
    Chained (RA.reverse ++ c :: FB) → ChainFromRev (headPt c) RA := by
  intro RA
  induction RA with
  | nil =>
    intro c FB _
    trivial
  | cons b RA' ih =>
    intro c FB h
    have h' : Chained (RA'.reverse ++ b :: c :: FB) := by
      rw [show (b :: RA').reverse ++ c :: FB = RA'.reverse ++ b :: c :: FB from by simp] at h
      exact h
    have hbc := (chained_cons2 b c FB).1 (chained_split_right RA'.reverse b (c :: FB) h')
    exact (chainFromRev_cons _ _ _).2 ⟨hbc.1, ih b (c :: FB) h'⟩

theorem heads_shift : ∀ (FB : List (List Pt)) (c : List Pt), Chained (c :: FB) →
    FB.map headPt ++ [lastPt ((c :: FB).getLastD [])] = lastPt c :: FB.map lastPt := by
  intro FB
  induction FB with
  | nil =>
    intro c _
    rfl
  | cons d FB' ih =>
    intro c h
    rw [chained_cons2] at h
    have hlast : ((c :: d :: FB').getLastD []) = ((d :: FB').getLastD []) := by
      rw [List.getLastD_cons [] c (d :: FB')]
      exact getLastD_irr (d :: FB') (by simp) c []
    rw [List.map_cons, List.cons_append, hlast, ih d h.2, List.map_cons, h.1]

theorem junctions_decomp (FA : List (List Pt)) (c : List Pt) (FB : List (List Pt))
    (hch : Chained (FA ++ c :: FB)) :
    junctions (FA ++ c :: FB) = FA.map headPt ++ headPt c :: lastPt c :: FB.map lastPt := by
  unfold junctions
  rw [List.map_append, List.map_cons, getLastD_append FA (c :: FB) [] (by simp),
      List.append_assoc, List.cons_append,
      heads_shift FB c (chained_split_right FA c FB hch)]

theorem chainFrom_endpoints : ∀ (R : List (List Pt)) (v : Pt), ChainFrom v R →
    ∀ c ∈ R, headPt c ∈ v :: R.map lastPt ∧ lastPt c ∈ R.map lastPt := by
  intro R
  induction R with
  | nil =>
    intro v _ c hc
    cases hc
  | cons d R' ih =>
    intro v h c hc
    rw [chainFrom_cons] at h
    rcases List.mem_cons.1 hc with rfl | hc'
    · exact ⟨by rw [h.1]; simp, by simp⟩
    · obtain ⟨h1, h2⟩ := ih (lastPt d) h.2 c hc'
      constructor
      · rcases List.mem_cons.1 h1 with h1' | h1'
        · rw [h1']
          simp
        · rw [List.map_cons]
          exact List.mem_cons_of_mem v (List.mem_cons_of_mem _ h1')
      · rw [List.map_cons]
        exact List.mem_cons_of_mem _ h2

theorem chainFromRev_endpoints : ∀ (L : List (List Pt)) (v : Pt), ChainFromRev v L →
    ∀ c ∈ L, lastPt c ∈ v :: L.map headPt ∧ headPt c ∈ L.map headPt := by
  intro L
  induction L with
  | nil =>
    intro v _ c hc
    cases hc
  | cons b L' ih =>
    intro v h c hc
    rw [chainFromRev_cons] at h
    rcases List.mem_cons.1 hc with rfl | hc'
    · exact ⟨by rw [h.1]; simp, by simp⟩
    · obtain ⟨h1, h2⟩ := ih (headPt b) h.2 c hc'
      constructor
      · rcases List.mem_cons.1 h1 with h1' | h1'
        · rw [h1']
          simp
        · rw [List.map_cons]
          exact List.mem_cons_of_mem v (List.mem_cons_of_mem _ h1')
      · rw [List.map_cons]
        exact List.mem_cons_of_mem _ h2

theorem curveLenQ_nil : curveLenQ [] = 0 := rfl

theorem curveLenQ_one (p : Pt) : curveLenQ [p] = 0 := rfl

theorem curveLenQ_cons2 (p q : Pt) (l : List Pt) :
    curveLenQ (p :: q :: l) = rdist (ptR p) (ptR q) + curveLenQ (q :: l) := rfl

theorem curveLenQ_glue : ∀ (A B : List Pt), A ≠ [] → B ≠ [] → lastPt A = headPt B →
    curveLenQ (A ++ B.tail) = curveLenQ A + curveLenQ B := by
  intro A
  induction A with
  | nil =>
    intro B h
    exact absurd rfl h
  | cons a A' ih =>
    intro B hA hB h
    cases A' with
    | nil =>
      cases B with
      | nil => exact absurd rfl hB
      | cons b bt =>
        have hab : a = b := h
        subst hab
        rw [List.singleton_append, curveLenQ_one, zero_add]
        rfl
    | cons a2 A'' =>
      have hA' : lastPt (a2 :: A'') = headPt B := by
        rw [← h]
        exact (lastPt_cons a (a2 :: A'') (by simp)).symm
      rw [show (a :: a2 :: A'') ++ B.tail = a :: a2 :: (A'' ++ B.tail) from rfl,
          curveLenQ_cons2, curveLenQ_cons2,
          show a2 :: (A'' ++ B.tail) = (a2 :: A'') ++ B.tail from rfl,
          ih B (by simp) hB hA']
      ring

theorem rdist_symm (p q : RPt) : rdist p q = rdist q p := by
  unfold rdist
  rw [show (p.x - q.x) ^ 2 + (p.y - q.y) ^ 2 = (q.x - p.x) ^ 2 + (q.y - p.y) ^ 2 from by
    ring]

theorem curveLen_append_one : ∀ (X : List RPt) (p a : RPt),
    curveLen ((p :: X) ++ [a]) = curveLen (p :: X) + rdist (X.getLastD p) a := by
  intro X
  induction X with
  | nil =>
    intro p a
    rw [show ([p] ++ [a] : List RPt) = [p, a] from rfl, curveLen_cons2, curveLen_one,
        curveLen_one]
    norm_num
  | cons q X' ih =>
    intro p a
    rw [show (p :: q :: X') ++ [a] = p :: ((q :: X') ++ [a]) from rfl,
        show p :: ((q :: X') ++ [a]) = p :: q :: (X' ++ [a]) from rfl,
        curveLen_cons2,
        show q :: (X' ++ [a]) = (q :: X') ++ [a] from rfl,
        ih q a, curveLen_cons2,
        show (q :: X').getLastD p = X'.getLastD q from List.getLastD_cons p q X']
    ring

theorem curveLen_reverse : ∀ (l : List RPt), curveLen l.reverse = curveLen l := by
  intro l
  induction l with
  | nil => rfl
  | cons a t ih =>
    cases t with
    | nil => rfl
    | cons b t2 =>
      rw [show (a :: b :: t2).reverse = (b :: t2).reverse ++ [a] from
            List.reverse_cons a (b :: t2)]
      cases hrev : (b :: t2).reverse with
      | nil => exact absurd (congrArg List.length hrev) (by simp)
      | cons q Y =>
        rw [curveLen_append_one Y q a]
        have h1 : curveLen (q :: Y) = curveLen (b :: t2) := by
          rw [← hrev]
          exact ih
        have h2 : Y.getLastD q = b := by
          have : (q :: Y).getLastD default = b := by
            rw [← hrev, List.getLastD_eq_getLast? default, List.getLast?_reverse]
            rfl
          rw [List.getLastD_cons default q Y] at this
          exact this
        rw [h1, h2, curveLen_cons2, rdist_symm b a]
        ring

theorem curveLenQ_reverse (l : List Pt) : curveLenQ l.reverse = curveLenQ l := by
  unfold curveLenQ
  rw [List.map_reverse, curveLen_reverse]

theorem curveLenQ_joinChunks : ∀ (M : List (List Pt)), M ≠ [] → (∀ c ∈ M, c ≠ []) →
    Chained M → curveLenQ (joinChunks M) = (M.map curveLenQ).sum := by
  intro M
  induction M with
  | nil =>
    intro hM _ _
    exact absurd rfl hM
  | cons c M' ih =>
    intro hM hc hch
    cases M' with
    | nil => simp [joinChunks_cons, joinChunks_nil]
    | cons c2 M'' =>
      have hc' : ∀ x ∈ (c2 :: M''), x ≠ [] := fun x hx => hc x (by simp [hx])
      have hJne := joinChunks_ne_nil (c2 :: M'') (by simp) hc'
      have hcc := (chained_cons2 c c2 M'').1 hch
      have hhead : headPt (joinChunks (c2 :: M'')) = headPt c2 :=
        headPt_joinChunks c2 M'' (hc' c2 (by simp))
      rw [joinChunks_cons,
          curveLenQ_glue c (joinChunks (c2 :: M'')) (hc c (by simp)) hJne
            (by rw [hhead]; exact hcc.1),
          ih (by simp) hc' hcc.2, List.map_cons, List.sum_cons]
      simp

theorem closestStep_none (e : Pt) (pl : Polyline) :
    closestStep e none pl =
      if sqDist e (lastPt pl.points) < sqDist e (headPt pl.points) then
        some (pl, true, sqDist e (lastPt pl.points))
      else some (pl, false, sqDist e (headPt pl.points)) := rfl

theorem closestStep_some_lt (e : Pt) (z : Polyline) (bb : Bool) (dd : ℚ) (pl : Polyline)
    (h : sqDist e (headPt pl.points) < dd) :
    closestStep e (some (z, bb, dd)) pl =
      if sqDist e (lastPt pl.points) < sqDist e (headPt pl.points) then
        some (pl, true, sqDist e (lastPt pl.points))
      else some (pl, false, sqDist e (headPt pl.points)) := by
  unfold closestStep
  dsimp only
  rw [if_pos h]

theorem closestStep_some_ge (e : Pt) (z : Polyline) (bb : Bool) (dd : ℚ) (pl : Polyline)
    (h : ¬ sqDist e (headPt pl.points) < dd) :
    closestStep e (some (z, bb, dd)) pl =
      if sqDist e (lastPt pl.points) < dd then
        some (pl, true, sqDist e (lastPt pl.points))
      else some (z, bb, dd) := by
  unfold closestStep
  dsimp only
  rw [if_neg h]

theorem closestStep_keep_zero (e : Pt) (z : Polyline) (bb : Bool) (pl : Polyline) :
    closestStep e (some (z, bb, 0)) pl = some (z, bb, 0) := by
  rw [closestStep_some_ge e z bb 0 pl (not_lt.2 (sqDist_nonneg e _)),
      if_neg (not_lt.2 (sqDist_nonneg e _))]

theorem foldl_keep_zero (e : Pt) (z : Polyline) (bb : Bool) : ∀ (B : List Polyline),
    List.foldl (closestStep e) (some (z, bb, 0)) B = some (z, bb, 0) := by
  intro B
  induction B with
  | nil => rfl
  | cons pl B' ih => rw [List.foldl_cons, closestStep_keep_zero, ih]

theorem closestStep_pos (e : Pt) (st : Option (Polyline × Bool × ℚ)) (pl : Polyline)
    (hst : st = none ∨ ∃ z bb dd, st = some (z, bb, dd) ∧ 0 < dd)
    (hh : headPt pl.points ≠ e) (hl : lastPt pl.points ≠ e) :
    ∃ z bb dd, closestStep e st pl = some (z, bb, dd) ∧ 0 < dd := by
  have hph : 0 < sqDist e (headPt pl.points) := sqDist_pos e _ hh
  have hpl : 0 < sqDist e (lastPt pl.points) := sqDist_pos e _ hl
  rcases hst with rfl | ⟨z, bb, dd, rfl, hdd⟩
  · rw [closestStep_none]
    by_cases hc : sqDist e (lastPt pl.points) < sqDist e (headPt pl.points)
    · rw [if_pos hc]
      exact ⟨pl, true, _, rfl, hpl⟩
    · rw [if_neg hc]
      exact ⟨pl, false, _, rfl, hph⟩
  · by_cases h1 : sqDist e (headPt pl.points) < dd
    · rw [closestStep_some_lt e z bb dd pl h1]
      by_cases hc : sqDist e (lastPt pl.points) < sqDist e (headPt pl.points)
      · rw [if_pos hc]
        exact ⟨pl, true, _, rfl, hpl⟩
      · rw [if_neg hc]
        exact ⟨pl, false, _, rfl, hph⟩
    · rw [closestStep_some_ge e z bb dd pl h1]
      by_cases hc : sqDist e (lastPt pl.points) < dd
      · rw [if_pos hc]
        exact ⟨pl, true, _, rfl, hpl⟩
      · rw [if_neg hc]
        exact ⟨z, bb, dd, rfl, hdd⟩

theorem foldl_pos (e : Pt) : ∀ (A : List Polyline) (st : Option (Polyline × Bool × ℚ)),
    (st = none ∨ ∃ z bb dd, st = some (z, bb, dd) ∧ 0 < dd) →
    (∀ pl ∈ A, headPt pl.points ≠ e ∧ lastPt pl.points ≠ e) →
    (List.foldl (closestStep e) st A = none ∨
      ∃ z bb dd, List.foldl (closestStep e) st A = some (z, bb, dd) ∧ 0 < dd) := by
  intro A
  induction A with
  | nil =>
    intro st hst _
    rcases hst with rfl | h
    · exact Or.inl rfl
    · exact Or.inr h
  | cons pl A' ih =>
    intro st hst hA
    rw [List.foldl_cons]
    exact ih _ (Or.inr (closestStep_pos e st pl hst (hA pl (by simp)).1 (hA pl (by simp)).2))
      (fun x hx => hA x (by simp [hx]))

theorem foldl_pos_some (e : Pt) : ∀ (A : List Polyline) (st : Option (Polyline × Bool × ℚ)),
    (∃ z bb dd, st = some (z, bb, dd) ∧ 0 < dd) →
    (∀ pl ∈ A, headPt pl.points ≠ e ∧ lastPt pl.points ≠ e) →
    ∃ z bb dd, List.foldl (closestStep e) st A = some (z, bb, dd) ∧ 0 < dd := by
  intro A
  induction A with
  | nil =>
    intro st hst _
    exact hst
  | cons pl A' ih =>
    intro st hst hA
    rw [List.foldl_cons]
    exact ih _ (closestStep_pos e st pl (Or.inr hst) (hA pl (by simp)).1 (hA pl (by simp)).2)
      (fun x hx => hA x (by simp [hx]))

theorem closestStep_zero_hit (e : Pt) (st : Option (Polyline × Bool × ℚ)) (pl0 : Polyline)
    (hst : st = none ∨ ∃ z bb dd, st = some (z, bb, dd) ∧ 0 < dd)
    (hmatch : (headPt pl0.points = e ∧ lastPt pl0.points ≠ e) ∨
      (lastPt pl0.points = e ∧ headPt pl0.points ≠ e)) :
    closestStep e st pl0 =
      some (pl0, (if headPt pl0.points = e then false else true), 0) := by
  rcases hmatch with ⟨hh, hl⟩ | ⟨hl, hh⟩
  · have h0 : sqDist e (headPt pl0.points) = 0 := by
      rw [hh]
      exact (sqDist_eq_zero_iff e e).2 rfl
    rw [if_pos hh]
    rcases hst with rfl | ⟨z, bb, dd, rfl, hdd⟩
    · rw [closestStep_none, h0, if_neg (not_lt.2 (sqDist_nonneg _ _))]
    · rw [closestStep_some_lt e z bb dd pl0 (by rw [h0]; exact hdd), h0,
          if_neg (not_lt.2 (sqDist_nonneg _ _))]
  · have h0 : sqDist e (lastPt pl0.points) = 0 := by
      rw [hl]
      exact (sqDist_eq_zero_iff e e).2 rfl
    have hhp : 0 < sqDist e (headPt pl0.points) := sqDist_pos e _ hh
    rw [if_neg hh]
    rcases hst with rfl | ⟨z, bb, dd, rfl, hdd⟩
    · rw [closestStep_none, h0, if_pos hhp]
    · by_cases h1 : sqDist e (headPt pl0.points) < dd
      · rw [closestStep_some_lt e z bb dd pl0 h1, h0, if_pos hhp]
      · rw [closestStep_some_ge e z bb dd pl0 h1, h0, if_pos hdd]

theorem find_closest_split (e : Pt) (A B : List Polyline) (pl0 : Polyline)
    (hA : ∀ pl ∈ A, headPt pl.points ≠ e ∧ lastPt pl.points ≠ e)
    (hmatch : (headPt pl0.points = e ∧ lastPt pl0.points ≠ e) ∨
      (lastPt pl0.points = e ∧ headPt pl0.points ≠ e)) :
    find_closest_polyline e (A ++ pl0 :: B) =
      some (pl0, (if headPt pl0.points = e then pl0.points else pl0.points.reverse), 0) := by
  unfold find_closest_polyline
  rw [List.foldl_append, List.foldl_cons]
  have h2 : closestStep e (List.foldl (closestStep e) none A) pl0 =
      some (pl0, (if headPt pl0.points = e then false else true), 0) := by
    rcases foldl_pos e A none (Or.inl rfl) hA with h1 | h1
    · rw [h1]
      exact closestStep_zero_hit e none pl0 (Or.inl rfl) hmatch
    · exact closestStep_zero_hit e _ pl0 (Or.inr h1) hmatch
  rw [h2, foldl_keep_zero]
  by_cases hc : headPt pl0.points = e
  · rw [if_pos hc, if_pos hc]
    rfl
  · rw [if_neg hc, if_neg hc]
    rfl

theorem find_closest_pos (e : Pt) (pool : List Polyline) (hne : pool ≠ [])
    (hall : ∀ pl ∈ pool, headPt pl.points ≠ e ∧ lastPt pl.points ≠ e) :
    ∃ z pts dd, find_closest_polyline e pool = some (z, pts, dd) ∧ 0 < dd := by
  unfold find_closest_polyline
  cases pool with
  | nil => exact absurd rfl hne
  | cons pl pls =>
    rw [List.foldl_cons]
    have h1 : ∃ z bb dd, closestStep e none pl = some (z, bb, dd) ∧ 0 < dd :=
      closestStep_pos e none pl (Or.inl rfl) (hall pl (by simp)).1 (hall pl (by simp)).2
    obtain ⟨z, bb, dd, h2, hdd⟩ :=
      foldl_pos_some e pls (closestStep e none pl) h1 (fun x hx => hall x (by simp [hx]))
    exact ⟨z, (if bb then z.points.reverse else z.points), dd, by rw [h2], hdd⟩

theorem forall₂_mem_left {α β : Type} {R : α → β → Prop} :
    ∀ {l1 : List α} {l2 : List β}, List.Forall₂ R l1 l2 → ∀ a ∈ l1, ∃ b ∈ l2, R a b := by
  intro l1 l2 h
  induction h with
  | nil =>
    intro a ha
    cases ha
  | cons hR hrest ih =>
    intro a ha
    rcases List.mem_cons.1 ha with rfl | ha'
    · exact ⟨_, by simp, hR⟩
    · obtain ⟨b, hb, hRb⟩ := ih a ha'
      exact ⟨b, by simp [hb], hRb⟩

theorem pool_pos (e : Pt) (rem rem' : List Polyline) (chunks : List (List Pt))
    (hperm : List.Perm rem rem')
    (hf2 : List.Forall₂ ChunkOf rem' chunks)
    (hne : rem ≠ [])
    (hother : ∀ c ∈ chunks, headPt c ≠ e ∧ lastPt c ≠ e) :
    ∃ z pts dd, find_closest_polyline e rem = some (z, pts, dd) ∧ 0 < dd := by
  apply find_closest_pos e rem hne
  intro pl hpl
  obtain ⟨c, hc, hR⟩ := forall₂_mem_left hf2 pl (hperm.mem_iff.1 hpl)
  rcases hR with h | h
  · exact ⟨by rw [h]; exact (hother c hc).1, by rw [h]; exact (hother c hc).2⟩
  · exact ⟨by rw [h, headPt_reverse]; exact (hother c hc).2,
      by rw [h, lastPt_reverse]; exact (hother c hc).1⟩

theorem pool_zero (e : Pt) (rem rem' : List Polyline) (C1 C2 : List (List Pt)) (c0 : List Pt)
    (hperm : List.Perm rem rem')
    (hf2 : List.Forall₂ ChunkOf rem' (C1 ++ c0 :: C2))
    (hCne : ∀ c ∈ C1 ++ C2, c ≠ [])
    (hother : ∀ c ∈ C1 ++ C2, headPt c ≠ e ∧ lastPt c ≠ e)
    (hc0e : headPt c0 = e ∨ lastPt c0 = e)
    (hc0d : headPt c0 ≠ lastPt c0) :
    ∃ q : Polyline, ChunkOf q c0 ∧ q ∈ rem ∧
      find_closest_polyline e rem =
        some (q, (if headPt c0 = e then c0 else c0.reverse), 0) ∧
      ∃ rem₂, List.Perm (rem.erase q) rem₂ ∧ List.Forall₂ ChunkOf rem₂ (C1 ++ C2) := by
  have htake := List.forall₂_take_append rem' C1 (c0 :: C2) hf2
  have hdrop := List.forall₂_drop_append rem' C1 (c0 :: C2) hf2
  obtain ⟨q, B, hqc0, hBf2, hdropeq⟩ := List.forall₂_cons_right_iff.1 hdrop
  have hremeq : rem' = rem'.take C1.length ++ q :: B := by
    rw [← hdropeq]
    exact (List.take_append_drop C1.length rem').symm
  have hqh : (headPt q.points = headPt c0 ∧ lastPt q.points = lastPt c0) ∨
      (headPt q.points = lastPt c0 ∧ lastPt q.points = headPt c0) := by
    rcases hqc0 with h | h
    · exact Or.inl ⟨by rw [h], by rw [h]⟩
    · exact Or.inr ⟨by rw [h, headPt_reverse], by rw [h, lastPt_reverse]⟩
  have he2 : (headPt c0 = e ∧ lastPt c0 ≠ e) ∨ (lastPt c0 = e ∧ headPt c0 ≠ e) := by
    rcases hc0e with h | h
    · exact Or.inl ⟨h, fun h2 => hc0d (h.trans h2.symm)⟩
    · exact Or.inr ⟨h, fun h2 => hc0d (h2.trans h.symm)⟩
  have hqmatch : (headPt q.points = e ∧ lastPt q.points ≠ e) ∨
      (lastPt q.points = e ∧ headPt q.points ≠ e) := by
    rcases hqh with ⟨h1, h2⟩ | ⟨h1, h2⟩ <;> rcases he2 with ⟨h3, h4⟩ | ⟨h3, h4⟩
    · exact Or.inl ⟨by rw [h1, h3], by rw [h2]; exact h4⟩
    · exact Or.inr ⟨by rw [h2, h3], by rw [h1]; exact h4⟩
    · exact Or.inr ⟨by rw [h2, h3], by rw [h1]; exact h4⟩
    · exact Or.inl ⟨by rw [h1, h3], by rw [h2]; exact h4⟩
  have hCend : ∀ c ∈ C1 ++ C2, ∀ x : Polyline, ChunkOf x c →
      headPt x.points ≠ e ∧ lastPt x.points ≠ e := by
    intro c hc x hx
    have hoth := hother c hc
    rcases hx with h | h
    · exact ⟨by rw [h]; exact hoth.1, by rw [h]; exact hoth.2⟩
    · exact ⟨by rw [h, headPt_reverse]; exact hoth.2, by rw [h, lastPt_reverse]; exact hoth.1⟩
  have hAend : ∀ x ∈ rem'.take C1.length, headPt x.points ≠ e ∧ lastPt x.points ≠ e := by
    intro x hx
    obtain ⟨c, hc, hR⟩ := forall₂_mem_left htake x hx
    exact hCend c (List.mem_append_left C2 hc) x hR
  have hBend : ∀ x ∈ B, headPt x.points ≠ e ∧ lastPt x.points ≠ e := by
    intro x hx
    obtain ⟨c, hc, hR⟩ := forall₂_mem_left hBf2 x hx
    exact hCend c (List.mem_append_right C1 hc) x hR
  have hqA : q ∉ rem'.take C1.length := by
    intro hq
    have h := hAend q hq
    rcases hqmatch with ⟨h1, _⟩ | ⟨h1, _⟩
    · exact h.1 h1
    · exact h.2 h1
  have hqB : q ∉ B := by
    intro hq
    have h := hBend q hq
    rcases hqmatch with ⟨h1, _⟩ | ⟨h1, _⟩
    · exact h.1 h1
    · exact h.2 h1
  have hqrem' : q ∈ rem' := by
    rw [hremeq]
    simp
  have hqrem : q ∈ rem := hperm.mem_iff.2 hqrem'
  have hcount : rem.count q = 1 := by
    rw [List.Perm.count_eq hperm q, hremeq, List.count_append, List.count_cons_self,
        List.count_eq_zero.2 hqA, List.count_eq_zero.2 hqB]
  obtain ⟨A2, B2, hrem2⟩ := List.append_of_mem hqrem
  have hqnotin : q ∉ A2 ∧ q ∉ B2 := by
    have hcc := hcount
    rw [hrem2, List.count_append, List.count_cons_self] at hcc
    constructor
    · intro hq
      have h1 := List.count_pos_iff.2 hq
      omega
    · intro hq
      have h1 := List.count_pos_iff.2 hq
      omega
  have hmem_end : ∀ x, x ∈ rem → x ≠ q → headPt x.points ≠ e ∧ lastPt x.points ≠ e := by
    intro x hx hxq
    have hxrem' : x ∈ rem' := hperm.mem_iff.1 hx
    rw [hremeq] at hxrem'
    rcases List.mem_append.1 hxrem' with hxA | hxqB
    · exact hAend x hxA
    · rcases List.mem_cons.1 hxqB with h | hxB
      · exact absurd h hxq
      · exact hBend x hxB
  have hA2end : ∀ x ∈ A2, headPt x.points ≠ e ∧ lastPt x.points ≠ e := by
    intro x hx
    refine hmem_end x (by rw [hrem2]; simp [hx]) ?_
    intro h
    subst h
    exact hqnotin.1 hx
  have hfc := find_closest_split e A2 B2 q hA2end hqmatch
  have hptseq : (if headPt q.points = e then q.points else q.points.reverse) =
      (if headPt c0 = e then c0 else c0.reverse) := by
    rcases hqc0 with h | h
    · rw [h]
    · rw [h]
      rcases he2 with ⟨h3, h4⟩ | ⟨h3, h4⟩
      · rw [if_neg (by rw [headPt_reverse]; exact h4), List.reverse_reverse, if_pos h3]
      · rw [if_pos (by rw [headPt_reverse]; exact h3), if_neg h4]
  have hremerase : List.Perm (rem.erase q) (rem'.take C1.length ++ B) := by
    have h1 := hperm.erase q
    rw [hremeq, List.erase_append_right _ hqA, List.erase_cons_head] at h1
    exact h1
  refine ⟨q, hqc0, hqrem, ?_, rem'.take C1.length ++ B, hremerase,
    List.rel_append htake hBf2⟩
  rw [hrem2, hfc, hptseq]

theorem considerStart_ne_none (st : Option (Pt × Polyline × List Pt)) (pl : Polyline)
    (pt : Pt) : considerStart st pl pt ≠ none := by
  cases st with
  | none => simp [considerStart]
  | some trip =>
    obtain ⟨mp, z, pts⟩ := trip
    unfold considerStart
    dsimp only
    by_cases hc : pt.x < mp.x ∨ (pt.x = mp.x ∧ pt.y < mp.y)
    · rw [if_pos hc]
      simp
    · rw [if_neg hc]
      simp

theorem considerStart_ok (pool : List Polyline) (st : Option (Pt × Polyline × List Pt))
    (pl : Polyline) (pt : Pt) (hpl : pl ∈ pool)
    (hst : ∀ mp z pts, st = some (mp, z, pts) →
      z ∈ pool ∧ (pts = z.points ∨ pts = z.points.reverse)) :
    ∀ mp z pts, considerStart st pl pt = some (mp, z, pts) →
      z ∈ pool ∧ (pts = z.points ∨ pts = z.points.reverse) := by
  intro mp z pts h
  cases st with
  | none =>
    rw [show considerStart none pl pt =
        some (pt, pl, if pt = headPt pl.points then pl.points else pl.points.reverse) from
        rfl] at h
    simp only [Option.some.injEq, Prod.mk.injEq] at h
    obtain ⟨h1, h2, h3⟩ := h
    subst h2
    refine ⟨hpl, ?_⟩
    by_cases hc : pt = headPt pl.points
    · rw [if_pos hc] at h3
      exact Or.inl h3.symm
    · rw [if_neg hc] at h3
      exact Or.inr h3.symm
  | some trip =>
    obtain ⟨mp0, z0, pts0⟩ := trip
    rw [show considerStart (some (mp0, z0, pts0)) pl pt =
        (if pt.x < mp0.x ∨ (pt.x = mp0.x ∧ pt.y < mp0.y) then
          some (pt, pl, if pt = headPt pl.points then pl.points else pl.points.reverse)
        else some (mp0, z0, pts0)) from rfl] at h
    by_cases hc : pt.x < mp0.x ∨ (pt.x = mp0.x ∧ pt.y < mp0.y)
    · rw [if_pos hc] at h
      simp only [Option.some.injEq, Prod.mk.injEq] at h
      obtain ⟨h1, h2, h3⟩ := h
      subst h2
      refine ⟨hpl, ?_⟩
      by_cases hc2 : pt = headPt pl.points
      · rw [if_pos hc2] at h3
        exact Or.inl h3.symm
      · rw [if_neg hc2] at h3
        exact Or.inr h3.symm
    · rw [if_neg hc] at h
      exact hst mp z pts h

theorem find_starting_spec (pool : List Polyline) (hne : pool ≠ []) :
    ∃ sp pts, find_starting_polyline pool = some (sp, pts) ∧ sp ∈ pool ∧
      (pts = sp.points ∨ pts = sp.points.reverse) := by
  have fold_pres : ∀ (L : List Polyline), (∀ x ∈ L, x ∈ pool) →
      ∀ st, (∀ mp z pts, st = some (mp, z, pts) →
        z ∈ pool ∧ (pts = z.points ∨ pts = z.points.reverse)) →
      (∀ mp z pts, List.foldl
          (fun st pl => considerStart (considerStart st pl (headPt pl.points))
            pl (lastPt pl.points)) st L = some (mp, z, pts) →
        z ∈ pool ∧ (pts = z.points ∨ pts = z.points.reverse)) := by
    intro L
    induction L with
    | nil =>
      intro _ st hst
      exact hst
    | cons x L' ih =>
      intro hL st hst
      rw [List.foldl_cons]
      refine ih (fun y hy => hL y (by simp [hy])) _ ?_
      exact considerStart_ok pool _ x (lastPt x.points) (hL x (by simp))
        (considerStart_ok pool st x (headPt x.points) (hL x (by simp)) hst)
  have fold_some : ∀ (L : List Polyline) (st : Option (Pt × Polyline × List Pt)),
      st ≠ none →
      List.foldl (fun st pl => considerStart (considerStart st pl (headPt pl.points))
        pl (lastPt pl.points)) st L ≠ none := by
    intro L
    induction L with
    | nil =>
      intro st hst
      exact hst
    | cons x L' ih =>
      intro st _
      rw [List.foldl_cons]
      exact ih _ (considerStart_ne_none _ x (lastPt x.points))
  unfold find_starting_polyline
  cases pool with
  | nil => exact absurd rfl hne
  | cons p0 ps =>
    have hfsome : List.foldl (fun st pl => considerStart (considerStart st pl
        (headPt pl.points)) pl (lastPt pl.points)) none (p0 :: ps) ≠ none := by
      rw [List.foldl_cons]
      exact fold_some ps _ (considerStart_ne_none _ p0 (lastPt p0.points))
    cases hfold : List.foldl (fun st pl => considerStart (considerStart st pl
        (headPt pl.points)) pl (lastPt pl.points)) none (p0 :: ps) with
    | none => exact absurd hfold hfsome
    | some trip =>
      obtain ⟨mp, z, pts⟩ := trip
      have hok := fold_pres (p0 :: ps) (fun x hx => hx) none (by intro _ _ _ h; cases h)
        mp z pts hfold
      exact ⟨z, pts, rfl, hok.1, hok.2⟩

theorem mergeLoop_zero_fuel (merged : List Pt) (rem : List Polyline) :
    mergeLoop 0 merged rem = merged := rfl

theorem mergeLoop_nil_rem (fuel : Nat) (merged : List Pt) :
    mergeLoop fuel merged [] = merged := by
  cases fuel with
  | zero => rfl
  | succ f => rfl

theorem mergeLoop_step (fuel : Nat) (merged : List Pt) (pl : Polyline) (pls : List Polyline)
    (app pre : Polyline) (appPts prePts : List Pt) (dEnd dStart : ℚ)
    (hend : find_closest_polyline (lastPt merged) (pl :: pls) = some (app, appPts, dEnd))
    (hstart : find_closest_polyline (headPt merged) (pl :: pls) = some (pre, prePts, dStart)) :
    mergeLoop (fuel + 1) merged (pl :: pls) =
      if dStart < dEnd then
        mergeLoop fuel (prePts.reverse.dropLast ++ merged) ((pl :: pls).erase pre)
      else mergeLoop fuel (merged ++ appPts.tail) ((pl :: pls).erase app) := by
  rw [mergeLoop, hend, hstart]

theorem dropLast_reverse_eq {α : Type} (Y : List α) :
    Y.reverse.dropLast = Y.tail.reverse := by
  have h := reverse_dropLast Y.reverse
  rw [List.reverse_reverse] at h
  calc Y.reverse.dropLast = Y.reverse.dropLast.reverse.reverse :=
        (List.reverse_reverse _).symm
    _ = Y.tail.reverse := by rw [h]

theorem grow_right (Lrev M R' : List (List Pt)) (d : List Pt)
    (hM : M ≠ []) (hm2 : ∀ c ∈ M, 2 ≤ c.length) (hd2 : 2 ≤ d.length) :
    joinChunks (M ++ [d]) = joinChunks M ++ d.tail ∧
    headPt (joinChunks (M ++ [d])) = headPt (joinChunks M) ∧
    lastPt (joinChunks (M ++ [d])) = lastPt d := by
  have hMne : ∀ c ∈ M, c ≠ [] := fun c hc => ne_nil_of_len2 c (hm2 c hc)
  have hJne := joinChunks_ne_nil M hM hMne
  have hsnoc := joinChunks_snoc d M hM hMne
  refine ⟨hsnoc, ?_, ?_⟩
  · rw [hsnoc, headPt_append _ _ hJne]
  · rw [hsnoc, lastPt_append _ _ (tail_ne_nil_of_len2 d hd2)]
    cases d with
    | nil => norm_num at hd2
    | cons d0 dt =>
      have hdt : dt ≠ [] := by
        cases dt with
        | nil => norm_num at hd2
        | cons x xs => simp
      exact (lastPt_cons d0 dt hdt).symm

theorem grow_left (b : List Pt) (M : List (List Pt))
    (hM : M ≠ []) (hm2 : ∀ c ∈ M, 2 ≤ c.length) (hb2 : 2 ≤ b.length)
    (hlink : lastPt b = headPt (joinChunks M)) :
    joinChunks (b :: M) = b.dropLast ++ joinChunks M ∧
    headPt (joinChunks (b :: M)) = headPt b ∧
    lastPt (joinChunks (b :: M)) = lastPt (joinChunks M) := by
  have hMne : ∀ c ∈ M, c ≠ [] := fun c hc => ne_nil_of_len2 c (hm2 c hc)
  have hJne := joinChunks_ne_nil M hM hMne
  have hbne : b ≠ [] := ne_nil_of_len2 b hb2
  have hglue : joinChunks (b :: M) = b.dropLast ++ joinChunks M := by
    rw [joinChunks_cons]
    exact glue_eq b (joinChunks M) hbne hJne hlink
  refine ⟨hglue, ?_, ?_⟩
  · rw [joinChunks_cons, headPt_append _ _ hbne]
  · rw [hglue, lastPt_append _ _ hJne]

theorem nodup_shift_right (hM lM x : Pt) (LH RL' : List Pt)
    (hnd : (hM :: lM :: (LH ++ x :: RL')).Nodup) :
    (hM :: x :: (LH ++ RL')).Nodup := by
  have h2 : List.Perm (hM :: lM :: (LH ++ x :: RL')) (hM :: lM :: x :: (LH ++ RL')) :=
    List.Perm.cons _ (List.Perm.cons _ List.perm_middle)
  have h3 : List.Perm (hM :: lM :: x :: (LH ++ RL')) (lM :: hM :: x :: (LH ++ RL')) :=
    List.Perm.swap lM hM _
  exact (List.nodup_cons.1 ((h2.trans h3).nodup hnd)).2

theorem nodup_shift_left (hM lM x : Pt) (LH' RL : List Pt)
    (hnd : (hM :: lM :: ((x :: LH') ++ RL)).Nodup) :
    (x :: lM :: (LH' ++ RL)).Nodup := by
  have h2 : List.Perm (hM :: lM :: (x :: (LH' ++ RL))) (hM :: x :: lM :: (LH' ++ RL)) :=
    List.Perm.cons _ (List.Perm.swap x lM _)
  exact (List.nodup_cons.1 (h2.nodup hnd)).2

theorem consume_right (Lrev M R' : List (List Pt)) (d : List Pt) (merged2 : List Pt)
    (hM : M ≠ []) (hm2 : ∀ c ∈ M, 2 ≤ c.length) (hd2 : 2 ≤ d.length)
    (hcl : ChainFromRev (headPt (joinChunks M)) Lrev)
    (hcr : ChainFrom (lastPt (joinChunks M)) (d :: R'))
    (hnd : (headPt (joinChunks M) :: lastPt (joinChunks M) ::
      (Lrev.map headPt ++ (d :: R').map lastPt)).Nodup)
    (hor2 : merged2 = joinChunks M ++ d.tail ∨
      merged2 = (joinChunks M ++ d.tail).reverse) :
    (M ++ [d]) ≠ [] ∧
    (∀ c ∈ M ++ [d], 2 ≤ c.length) ∧
    ChainFromRev (headPt (joinChunks (M ++ [d]))) Lrev ∧
    ChainFrom (lastPt (joinChunks (M ++ [d]))) R' ∧
    (merged2 = joinChunks (M ++ [d]) ∨ merged2 = (joinChunks (M ++ [d])).reverse) ∧
    (headPt (joinChunks (M ++ [d])) :: lastPt (joinChunks (M ++ [d])) ::
      (Lrev.map headPt ++ R'.map lastPt)).Nodup := by
  obtain ⟨hsnoc, hhead, hlast⟩ := grow_right Lrev M R' d hM hm2 hd2
  have hcr' := (chainFrom_cons _ _ _).1 hcr
  refine ⟨by simp, ?_, ?_, ?_, ?_, ?_⟩
  · intro c hc
    rcases List.mem_append.1 hc with h | h
    · exact hm2 c h
    · rw [List.mem_singleton.1 h]
      exact hd2
  · rw [hhead]
    exact hcl
  · rw [hlast]
    exact hcr'.2
  · rw [hsnoc]
    exact hor2
  · rw [hhead, hlast]
    exact nodup_shift_right (headPt (joinChunks M)) (lastPt (joinChunks M)) (lastPt d)
      (Lrev.map headPt) (R'.map lastPt) hnd

theorem consume_left (b : List Pt) (Lrev' M R : List (List Pt)) (merged2 : List Pt)
    (hM : M ≠ []) (hm2 : ∀ c ∈ M, 2 ≤ c.length) (hb2 : 2 ≤ b.length)
    (hcl : ChainFromRev (headPt (joinChunks M)) (b :: Lrev'))
    (hcr : ChainFrom (lastPt (joinChunks M)) R)
    (hnd : (headPt (joinChunks M) :: lastPt (joinChunks M) ::
      ((b :: Lrev').map headPt ++ R.map lastPt)).Nodup)
    (hor2 : merged2 = b.dropLast ++ joinChunks M ∨
      merged2 = (b.dropLast ++ joinChunks M).reverse) :
    (b :: M) ≠ [] ∧
    (∀ c ∈ b :: M, 2 ≤ c.length) ∧
    ChainFromRev (headPt (joinChunks (b :: M))) Lrev' ∧
    ChainFrom (lastPt (joinChunks (b :: M))) R ∧
    (merged2 = joinChunks (b :: M) ∨ merged2 = (joinChunks (b :: M)).reverse) ∧
    (headPt (joinChunks (b :: M)) :: lastPt (joinChunks (b :: M)) ::
      (Lrev'.map headPt ++ R.map lastPt)).Nodup := by
  have hcl' := (chainFromRev_cons _ _ _).1 hcl
  obtain ⟨hglue, hhead, hlast⟩ := grow_left b M hM hm2 hb2 hcl'.1
  refine ⟨by simp, ?_, ?_, ?_, ?_, ?_⟩
  · intro c hc
    rcases List.mem_cons.1 hc with rfl | h
    · exact hb2
    · exact hm2 c h
  · rw [hhead]
    exact hcl'.2
  · rw [hlast]
    exact hcr
  · rw [hglue]
    exact hor2
  · rw [hhead, hlast]
    exact nodup_shift_left _ _ (headPt b) (Lrev'.map headPt) (R.map lastPt) hnd

theorem mergeLoop_spec : ∀ (fuel : Nat) (rem : List Polyline) (Lrev M R : List (List Pt))
    (merged : List Pt),
    rem.length ≤ fuel →
    M ≠ [] →
    (∀ c ∈ Lrev, 2 ≤ c.length) →
    (∀ c ∈ M, 2 ≤ c.length) →
    (∀ c ∈ R, 2 ≤ c.length) →
    ChainFromRev (headPt (joinChunks M)) Lrev →
    ChainFrom (lastPt (joinChunks M)) R →
    (merged = joinChunks M ∨ merged = (joinChunks M).reverse) →
    (headPt (joinChunks M) :: lastPt (joinChunks M) ::
      (Lrev.map headPt ++ R.map lastPt)).Nodup →
    (∃ rem', List.Perm rem rem' ∧ List.Forall₂ ChunkOf rem' (Lrev ++ R)) →
    (mergeLoop fuel merged rem = joinChunks (Lrev.reverse ++ M ++ R) ∨
      mergeLoop fuel merged rem = (joinChunks (Lrev.reverse ++ M ++ R)).reverse) := by
  intro fuel
  induction fuel with
  | zero =>
    intro rem Lrev M R merged hfuel hM hl2 hm2 hr2 hcl hcr hor hnd hrem
    have hremnil : rem = [] := List.length_eq_zero.1 (Nat.le_zero.1 hfuel)
    subst hremnil
    obtain ⟨rem', hperm, hf2⟩ := hrem
    have hrem'nil : rem' = [] := hperm.symm.eq_nil
    subst hrem'nil
    obtain ⟨hLnil, hRnil⟩ := List.append_eq_nil.1 (List.forall₂_nil_left_iff.1 hf2)
    subst hLnil
    subst hRnil
    rw [mergeLoop_zero_fuel]
    simpa using hor
  | succ fuel ih =>
    intro rem Lrev M R merged hfuel hM hl2 hm2 hr2 hcl hcr hor hnd hrem
    cases rem with
    | nil =>
      obtain ⟨rem', hperm, hf2⟩ := hrem
      have hrem'nil : rem' = [] := hperm.symm.eq_nil
      subst hrem'nil
      obtain ⟨hLnil, hRnil⟩ := List.append_eq_nil.1 (List.forall₂_nil_left_iff.1 hf2)
      subst hLnil
      subst hRnil
      rw [mergeLoop_nil_rem]
      simpa using hor
    | cons pl pls =>
      obtain ⟨rem', hperm, hf2⟩ := hrem
      have hnd1 := List.nodup_cons.1 hnd
      have hnd2 := List.nodup_cons.1 hnd1.2
      have hhMne : headPt (joinChunks M) ≠ lastPt (joinChunks M) := by
        intro h
        exact hnd1.1 (by rw [h]; simp)
      have hhMnotinL : headPt (joinChunks M) ∉ Lrev.map headPt := fun h =>
        hnd1.1 (by simp [h])
      have hhMnotinR : headPt (joinChunks M) ∉ R.map lastPt := fun h =>
        hnd1.1 (by simp [h])
      have hlMnotinL : lastPt (joinChunks M) ∉ Lrev.map headPt := fun h =>
        hnd2.1 (by simp [h])
      have hlMnotinR : lastPt (joinChunks M) ∉ R.map lastPt := fun h =>
        hnd2.1 (by simp [h])
      have hLnotlM : ∀ c ∈ Lrev, headPt c ≠ lastPt (joinChunks M) ∧
          lastPt c ≠ lastPt (joinChunks M) := by
        intro c hc
        obtain ⟨hlast, hhead⟩ := chainFromRev_endpoints Lrev _ hcl c hc
        constructor
        · intro h
          exact hlMnotinL (h ▸ hhead)
        · intro h
          rcases List.mem_cons.1 hlast with h2 | h2
          · exact hhMne (h2.symm.trans h)
          · exact hlMnotinL (h ▸ h2)
      have hRnothM : ∀ c ∈ R, headPt c ≠ headPt (joinChunks M) ∧
          lastPt c ≠ headPt (joinChunks M) := by
        intro c hc
        obtain ⟨hhead, hlast⟩ := chainFrom_endpoints R _ hcr c hc
        constructor
        · intro h
          rcases List.mem_cons.1 hhead with h2 | h2
          · exact hhMne (h.symm.trans h2)
          · exact hhMnotinR (h ▸ h2)
        · intro h
          exact hhMnotinR (h ▸ hlast)
      cases R with
      | nil =>
        cases Lrev with
        | nil =>
          have h1 := List.forall₂_nil_right_iff.1 hf2
          subst h1
          exact absurd hperm.eq_nil (by simp)
        | cons b Lrev' =>
          rw [List.append_nil] at hf2
          have hcl1 := (chainFromRev_cons _ _ _).1 hcl
          have hbnothM : headPt b ≠ headPt (joinChunks M) := by
            intro h
            exact hhMnotinL (by simp [← h])
          obtain ⟨qb, hqbC, hqbmem, hfcB, remB, hremBp, hremBf⟩ :=
            pool_zero (headPt (joinChunks M)) (pl :: pls) rem' [] Lrev' b hperm hf2
              (fun c hc => ne_nil_of_len2 c
                (hl2 c (List.mem_cons_of_mem b (by simpa using hc))))
              (fun c hc => by
                obtain ⟨hl, hh⟩ := chainFromRev_endpoints Lrev' (headPt b) hcl1.2 c hc
                constructor
                · intro h
                  exact hhMnotinL (h ▸ List.mem_cons_of_mem _ hh)
                · intro h
                  exact hhMnotinL (h ▸ hl))
              (Or.inr hcl1.1)
              (fun h => hbnothM (h.trans hcl1.1))
          obtain ⟨zP, ptsP, ddP, hfcP, hddP⟩ :=
            pool_pos (lastPt (joinChunks M)) (pl :: pls) rem' (b :: Lrev') hperm hf2
              (by simp) hLnotlM
          have hfuel2 : ((pl :: pls).erase qb).length ≤ fuel := by
            rw [List.length_erase_of_mem hqbmem, List.length_cons]
            simp only [List.length_cons] at hfuel
            omega
          have hl2' : ∀ c ∈ Lrev', 2 ≤ c.length := fun c hc => hl2 c (by simp [hc])
          have hremBf' : List.Forall₂ ChunkOf remB (Lrev' ++ ([] : List (List Pt))) := by
            rw [List.append_nil]
            exact hremBf
          rcases hor with hor | hor
          · have hend : find_closest_polyline (lastPt merged) (pl :: pls) =
                some (zP, ptsP, ddP) := by
              rw [hor]
              exact hfcP
            have hstart : find_closest_polyline (headPt merged) (pl :: pls) =
                some (qb, b.reverse, 0) := by
              rw [hor, hfcB, if_neg hbnothM]
            rw [mergeLoop_step fuel merged pl pls zP qb ptsP b.reverse ddP 0 hend hstart,
                if_pos hddP, List.reverse_reverse, hor]
            obtain ⟨hb1, hb2', hb3, hb4, hb5, hb6⟩ :=
              consume_left b Lrev' M [] (b.dropLast ++ joinChunks M) hM hm2
                (hl2 b (by simp)) hcl hcr hnd (Or.inl rfl)
            have hres := ih ((pl :: pls).erase qb) Lrev' (b :: M) []
              (b.dropLast ++ joinChunks M) hfuel2 hb1 hl2' hb2' hr2 hb3 hb4 hb5 hb6
              ⟨remB, hremBp, hremBf'⟩
            have htg : Lrev'.reverse ++ (b :: M) ++ ([] : List (List Pt)) =
                (b :: Lrev').reverse ++ M ++ [] := by simp
            rw [htg] at hres
            exact hres
          · have hend : find_closest_polyline (lastPt merged) (pl :: pls) =
                some (qb, b.reverse, 0) := by
              rw [hor, lastPt_reverse, hfcB, if_neg hbnothM]
            have hstart : find_closest_polyline (headPt merged) (pl :: pls) =
                some (zP, ptsP, ddP) := by
              rw [hor, headPt_reverse]
              exact hfcP
            rw [mergeLoop_step fuel merged pl pls qb zP b.reverse ptsP 0 ddP hend hstart,
                if_neg (not_lt.2 hddP.le)]
            have hm' : merged ++ b.reverse.tail = (b.dropLast ++ joinChunks M).reverse := by
              rw [hor, List.reverse_append, reverse_dropLast]
            rw [hm']
            obtain ⟨hb1, hb2', hb3, hb4, hb5, hb6⟩ :=
              consume_left b Lrev' M [] ((b.dropLast ++ joinChunks M).reverse) hM hm2
                (hl2 b (by simp)) hcl hcr hnd (Or.inr rfl)
            have hres := ih ((pl :: pls).erase qb) Lrev' (b :: M) []
              ((b.dropLast ++ joinChunks M).reverse) hfuel2 hb1 hl2' hb2' hr2 hb3 hb4 hb5
              hb6 ⟨remB, hremBp, hremBf'⟩
            have htg : Lrev'.reverse ++ (b :: M) ++ ([] : List (List Pt)) =
                (b :: Lrev').reverse ++ M ++ [] := by simp
            rw [htg] at hres
            exact hres
      | cons d R' =>
        have hcr1 := (chainFrom_cons _ _ _).1 hcr
        have hdnotlast : headPt d ≠ lastPt d := by
          intro h
          apply hlMnotinR
          rw [show lastPt (joinChunks M) = lastPt d from hcr1.1.symm.trans h]
          simp
        have hr2' : ∀ c ∈ R', 2 ≤ c.length := fun c hc => hr2 c (by simp [hc])
        have hotherR' : ∀ c ∈ R', headPt c ≠ lastPt (joinChunks M) ∧
            lastPt c ≠ lastPt (joinChunks M) := by
          intro c hc
          obtain ⟨hh, hl⟩ := chainFrom_endpoints R' (lastPt d) hcr1.2 c hc
          constructor
          · intro h
            exact hlMnotinR (h ▸ hh)
          · intro h
            exact hlMnotinR (h ▸ List.mem_cons_of_mem _ hl)
        cases Lrev with
        | nil =>
          obtain ⟨qd, hqdC, hqdmem, hfcD, remD, hremDp, hremDf⟩ :=
            pool_zero (lastPt (joinChunks M)) (pl :: pls) rem' [] R' d hperm hf2
              (fun c hc => ne_nil_of_len2 c
                (hr2 c (List.mem_cons_of_mem d (by simpa using hc))))
              (fun c hc => hotherR' c (by simpa using hc))
              (Or.inl hcr1.1) hdnotlast
          obtain ⟨zP, ptsP, ddP, hfcP, hddP⟩ :=
            pool_pos (headPt (joinChunks M)) (pl :: pls) rem' (d :: R') hperm hf2
              (by simp) hRnothM
          have hfuel2 : ((pl :: pls).erase qd).length ≤ fuel := by
            rw [List.length_erase_of_mem hqdmem, List.length_cons]
            simp only [List.length_cons] at hfuel
            omega
          rcases hor with hor | hor
          · have hend : find_closest_polyline (lastPt merged) (pl :: pls) =
                some (qd, d, 0) := by
              rw [hor, hfcD, if_pos hcr1.1]
            have hstart : find_closest_polyline (headPt merged) (pl :: pls) =
                some (zP, ptsP, ddP) := by
              rw [hor]
              exact hfcP
            rw [mergeLoop_step fuel merged pl pls qd zP d ptsP 0 ddP hend hstart,
                if_neg (not_lt.2 hddP.le), hor]
            obtain ⟨hb1, hb2', hb3, hb4, hb5, hb6⟩ :=
              consume_right [] M R' d (joinChunks M ++ d.tail) hM hm2 (hr2 d (by simp))
                hcl hcr hnd (Or.inl rfl)
            have hres := ih ((pl :: pls).erase qd) [] (M ++ [d]) R'
              (joinChunks M ++ d.tail) hfuel2 hb1 (by intro c hc; cases hc) hb2' hr2'
              hb3 hb4 hb5 hb6 ⟨remD, hremDp, hremDf⟩
            have htg : ([] : List (List Pt)).reverse ++ (M ++ [d]) ++ R' =
                ([] : List (List Pt)).reverse ++ M ++ (d :: R') := by simp
            rw [htg] at hres
            exact hres
          · have hend : find_closest_polyline (lastPt merged) (pl :: pls) =
                some (zP, ptsP, ddP) := by
              rw [hor, lastPt_reverse]
              exact hfcP
            have hstart : find_closest_polyline (headPt merged) (pl :: pls) =
                some (qd, d, 0) := by
              rw [hor, headPt_reverse, hfcD, if_pos hcr1.1]
            rw [mergeLoop_step fuel merged pl pls zP qd ptsP d ddP 0 hend hstart,
                if_pos hddP]
            have hm' : d.reverse.dropLast ++ merged =
                (joinChunks M ++ d.tail).reverse := by
              rw [hor, dropLast_reverse_eq, List.reverse_append]
            rw [hm']
            obtain ⟨hb1, hb2', hb3, hb4, hb5, hb6⟩ :=
              consume_right [] M R' d ((joinChunks M ++ d.tail).reverse) hM hm2
                (hr2 d (by simp)) hcl hcr hnd (Or.inr rfl)
            have hres := ih ((pl :: pls).erase qd) [] (M ++ [d]) R'
              ((joinChunks M ++ d.tail).reverse) hfuel2 hb1 (by intro c hc; cases hc)
              hb2' hr2' hb3 hb4 hb5 hb6 ⟨remD, hremDp, hremDf⟩
            have htg : ([] : List (List Pt)).reverse ++ (M ++ [d]) ++ R' =
                ([] : List (List Pt)).reverse ++ M ++ (d :: R') := by simp
            rw [htg] at hres
            exact hres
        | cons b Lrev' =>
          have hcl1 := (chainFromRev_cons _ _ _).1 hcl
          have hbnothM : headPt b ≠ headPt (joinChunks M) := by
            intro h
            exact hhMnotinL (by simp [← h])
          obtain ⟨qd, hqdC, hqdmem, hfcD, remD, hremDp, hremDf⟩ :=
            pool_zero (lastPt (joinChunks M)) (pl :: pls) rem' (b :: Lrev') R' d hperm hf2
              (fun c hc => by
                rcases List.mem_append.1 hc with h | h
                · exact ne_nil_of_len2 c (hl2 c h)
                · exact ne_nil_of_len2 c (hr2 c (List.mem_cons_of_mem d h)))
              (fun c hc => by
                rcases List.mem_append.1 hc with h | h
                · exact hLnotlM c h
                · exact hotherR' c h)
              (Or.inl hcr1.1) hdnotlast
          obtain ⟨qb, hqbC, hqbmem, hfcB, remB, hremBp, hremBf⟩ :=
            pool_zero (headPt (joinChunks M)) (pl :: pls) rem' [] (Lrev' ++ (d :: R')) b
              hperm hf2
              (fun c hc => by
                rcases List.mem_append.1 (by simpa using hc :
                    c ∈ Lrev' ++ (d :: R')) with h | h
                · exact ne_nil_of_len2 c (hl2 c (List.mem_cons_of_mem b h))
                · exact ne_nil_of_len2 c (hr2 c h)
              )
              (fun c hc => by
                rcases List.mem_append.1 (by simpa using hc :
                    c ∈ Lrev' ++ (d :: R')) with h | h
                · obtain ⟨hl, hh⟩ := chainFromRev_endpoints Lrev' (headPt b) hcl1.2 c h
                  constructor
                  · intro h2
                    exact hhMnotinL (h2 ▸ List.mem_cons_of_mem _ hh)
                  · intro h2
                    exact hhMnotinL (h2 ▸ hl)
                · exact hRnothM c h
              )
              (Or.inr hcl1.1)
              (fun h => hbnothM (h.trans hcl1.1))
          rcases hor with hor | hor
          · have hend : find_closest_polyline (lastPt merged) (pl :: pls) =
                some (qd, d, 0) := by
              rw [hor, hfcD, if_pos hcr1.1]
            have hstart : find_closest_polyline (headPt merged) (pl :: pls) =
                some (qb, b.reverse, 0) := by
              rw [hor, hfcB, if_neg hbnothM]
            have hfuel2 : ((pl :: pls).erase qd).length ≤ fuel := by
              rw [List.length_erase_of_mem hqdmem, List.length_cons]
              simp only [List.length_cons] at hfuel
              omega
            rw [mergeLoop_step fuel merged pl pls qd qb d b.reverse 0 0 hend hstart,
                if_neg (lt_irrefl 0), hor]
            obtain ⟨hb1, hb2', hb3, hb4, hb5, hb6⟩ :=
              consume_right (b :: Lrev') M R' d (joinChunks M ++ d.tail) hM hm2
                (hr2 d (by simp)) hcl hcr hnd (Or.inl rfl)
            have hres := ih ((pl :: pls).erase qd) (b :: Lrev') (M ++ [d]) R'
              (joinChunks M ++ d.tail) hfuel2 hb1 hl2 hb2' hr2' hb3 hb4 hb5 hb6
              ⟨remD, hremDp, hremDf⟩
            have htg : (b :: Lrev').reverse ++ (M ++ [d]) ++ R' =
                (b :: Lrev').reverse ++ M ++ (d :: R') := by simp
            rw [htg] at hres
            exact hres
          · have hend : find_closest_polyline (lastPt merged) (pl :: pls) =
                some (qb, b.reverse, 0) := by
              rw [hor, lastPt_reverse, hfcB, if_neg hbnothM]
            have hstart : find_closest_polyline (headPt merged) (pl :: pls) =
                some (qd, d, 0) := by
              rw [hor, headPt_reverse, hfcD, if_pos hcr1.1]
            have hfuel2 : ((pl :: pls).erase qb).length ≤ fuel := by
              rw [List.length_erase_of_mem hqbmem, List.length_cons]
              simp only [List.length_cons] at hfuel
              omega
            rw [mergeLoop_step fuel merged pl pls qb qd b.reverse d 0 0 hend hstart,
                if_neg (lt_irrefl 0)]
            have hm' : merged ++ b.reverse.tail =
                (b.dropLast ++ joinChunks M).reverse := by
              rw [hor, List.reverse_append, reverse_dropLast]
            rw [hm']
            obtain ⟨hb1, hb2', hb3, hb4, hb5, hb6⟩ :=
              consume_left b Lrev' M (d :: R') ((b.dropLast ++ joinChunks M).reverse)
                hM hm2 (hl2 b (by simp)) hcl hcr hnd (Or.inr rfl)
            have hres := ih ((pl :: pls).erase qb) Lrev' (b :: M) (d :: R')
              ((b.dropLast ++ joinChunks M).reverse) hfuel2 hb1
              (fun c hc => hl2 c (by simp [hc])) hb2' hr2 hb3 hb4 hb5 hb6
              ⟨remB, hremBp, hremBf⟩
            have htg : Lrev'.reverse ++ (b :: M) ++ (d :: R') =
                (b :: Lrev').reverse ++ M ++ (d :: R') := by simp
            rw [htg] at hres
            exact hres

theorem forall₂_erase (sp : Polyline) :
    ∀ (l1 : List Polyline) (l2 : List (List Pt)),
    List.Forall₂ ChunkOf l1 l2 → sp ∈ l1 →
    ∃ (c : List Pt) (FA FB : List (List Pt)),
      l2 = FA ++ c :: FB ∧ ChunkOf sp c ∧
      List.Forall₂ ChunkOf (l1.erase sp) (FA ++ FB) := by
  intro l1 l2 h
  induction h with
  | nil =>
    intro hsp
    cases hsp
  | @cons x c l1' l2' hR hrest ih =>
    intro hsp
    by_cases hx : sp = x
    · subst hx
      refine ⟨c, [], l2', rfl, hR, ?_⟩
      rw [List.erase_cons_head]
      exact hrest
    · have hsp' : sp ∈ l1' := by
        rcases List.mem_cons.1 hsp with h | h
        · exact absurd h hx
        · exact h
      obtain ⟨c0, FA, FB, hdec, hRc0, hf⟩ := ih hsp'
      refine ⟨c0, c :: FA, FB, by rw [hdec, List.cons_append], hRc0, ?_⟩
      rw [show (x :: l1').erase sp = x :: l1'.erase sp from by
        rw [List.erase_cons_tail]
        simp [Ne.symm hx]]
      exact List.Forall₂.cons hR hf

theorem forall₂_len_sum : ∀ (l1 : List Polyline) (l2 : List (List Pt)),
    List.Forall₂ ChunkOf l1 l2 →
    l1.map (fun pl => curveLenQ pl.points) = l2.map curveLenQ := by
  intro l1 l2 h
  induction h with
  | nil => rfl
  | cons hR hrest ih =>
    rw [List.map_cons, List.map_cons, ih]
    congr 1
    rcases hR with h | h
    · rw [h]
    · rw [h, curveLenQ_reverse]

/-- C4: for a non-empty pool of fragments that decomposes, up to
per-fragment orientation and ordering, a single simple chained path
(adjacent chunks sharing their junction endpoint exactly and all junction
points pairwise distinct), `merge_polylines` consumes every fragment and
returns the expected path up to orientation, whose total arc length is the
sum of the input fragments' arc lengths. -/
theorem merge_polylines_simple_path (pool pool' : List Polyline)
    (frags : List (List Pt))
    (hne : pool ≠ [])
    (hperm : List.Perm pool pool')
    (hmatch : List.Forall₂ ChunkOf pool' frags)
    (hlen2 : ∀ c ∈ frags, 2 ≤ c.length)
    (hchain : Chained frags)
    (hnd : (junctions frags).Nodup) :
    ∃ merged : Polyline, merge_polylines pool = some merged ∧
      (merged.points = joinChunks frags ∨
        merged.points = (joinChunks frags).reverse) ∧
      curveLenQ merged.points =
        (pool.map (fun pl => curveLenQ pl.points)).sum := by
  obtain ⟨sp, pts, hfs, hspmem, hpts⟩ := find_starting_spec pool hne
  have hspmem' : sp ∈ pool' := hperm.mem_iff.1 hspmem
  obtain ⟨c, FA, FB, hdec, hspC, hf⟩ := forall₂_erase sp pool' frags hmatch hspmem'
  have hchain' : Chained (FA ++ c :: FB) := hdec ▸ hchain
  have hlen2' : ∀ x ∈ FA ++ c :: FB, 2 ≤ x.length := fun x hx => hlen2 x (hdec ▸ hx)
  have hc2 : 2 ≤ c.length := hlen2' c (by simp)
  have hcne : c ≠ [] := ne_nil_of_len2 c hc2
  have hJc : joinChunks [c] = c := by
    rw [joinChunks_cons, joinChunks_nil]
    simp
  have hor0 : pts = joinChunks [c] ∨ pts = (joinChunks [c]).reverse := by
    rw [hJc]
    rcases hpts with h | h <;> rcases hspC with h2 | h2
    · exact Or.inl (h.trans h2)
    · exact Or.inr (h.trans h2)
    · exact Or.inr (by rw [h, h2])
    · exact Or.inl (by rw [h, h2, List.reverse_reverse])
  have hcl0 : ChainFromRev (headPt (joinChunks [c])) FA.reverse := by
    rw [hJc]
    apply chainFromRev_of_chained FA.reverse c FB
    rw [List.reverse_reverse]
    exact hchain'
  have hcr0 : ChainFrom (lastPt (joinChunks [c])) FB := by
    rw [hJc]
    exact chainFrom_of_chained FB c (chained_split_right FA c FB hchain')
  have hnd0 : (headPt (joinChunks [c]) :: lastPt (joinChunks [c]) ::
      (FA.reverse.map headPt ++ FB.map lastPt)).Nodup := by
    rw [hJc]
    have hjd := junctions_decomp FA c FB hchain'
    rw [hdec, hjd] at hnd
    have hp1 : List.Perm (FA.map headPt ++ headPt c :: lastPt c :: FB.map lastPt)
        (headPt c :: lastPt c :: (FA.map headPt ++ FB.map lastPt)) := by
      have h1 : List.Perm (FA.map headPt ++ headPt c :: (lastPt c :: FB.map lastPt))
          (headPt c :: (FA.map headPt ++ (lastPt c :: FB.map lastPt))) :=
        List.perm_middle
      have h2 : List.Perm (FA.map headPt ++ lastPt c :: FB.map lastPt)
          (lastPt c :: (FA.map headPt ++ FB.map lastPt)) := List.perm_middle
      exact h1.trans (List.Perm.cons _ h2)
    have hp2 : List.Perm (headPt c :: lastPt c :: (FA.map headPt ++ FB.map lastPt))
        (headPt c :: lastPt c :: (FA.reverse.map headPt ++ FB.map lastPt)) := by
      refine List.Perm.cons _ (List.Perm.cons _ (List.Perm.append ?_ (List.Perm.refl _)))
      rw [List.map_reverse]
      exact (List.reverse_perm _).symm
    exact (hp1.trans hp2).nodup hnd
  have hrem0 : ∃ rem'', List.Perm (pool.erase sp) rem'' ∧
      List.Forall₂ ChunkOf rem'' (FA.reverse ++ FB) := by
    have htk := List.forall₂_take_append (pool'.erase sp) FA FB hf
    have hdr := List.forall₂_drop_append (pool'.erase sp) FA FB hf
    refine ⟨((pool'.erase sp).take FA.length).reverse ++ (pool'.erase sp).drop FA.length,
      ?_, List.rel_append (List.forall₂_reverse_iff.2 htk) hdr⟩
    have h1 : List.Perm (pool.erase sp) (pool'.erase sp) := hperm.erase sp
    have h2 : List.Perm (pool'.erase sp)
        (((pool'.erase sp).take FA.length).reverse ++ (pool'.erase sp).drop FA.length) := by
      conv_lhs => rw [← List.take_append_drop FA.length (pool'.erase sp)]
      exact List.Perm.append (List.reverse_perm _).symm (List.Perm.refl _)
    exact h1.trans h2
  obtain ⟨p0, ps, rfl⟩ : ∃ p0 ps, pool = p0 :: ps := by
    cases pool with
    | nil => exact absurd rfl hne
    | cons a b => exact ⟨a, b, rfl⟩
  have hmp : merge_polylines (p0 :: ps) =
      some ⟨"merged", mergeLoop (p0 :: ps).length pts ((p0 :: ps).erase sp)⟩ := by
    unfold merge_polylines
    rw [hfs]
  have hfuelb : ((p0 :: ps).erase sp).length ≤ (p0 :: ps).length := by
    rw [List.length_erase_of_mem hspmem]
    omega
  have hl20 : ∀ x ∈ FA.reverse, 2 ≤ x.length := fun x hx =>
    hlen2' x (List.mem_append_left _ (List.mem_reverse.1 hx))
  have hr20 : ∀ x ∈ FB, 2 ≤ x.length := fun x hx =>
    hlen2' x (List.mem_append_right _ (List.mem_cons_of_mem c hx))
  have hml := mergeLoop_spec (p0 :: ps).length ((p0 :: ps).erase sp) FA.reverse [c] FB pts
    hfuelb (by simp) hl20
    (by intro x hx; rw [List.mem_singleton.1 hx]; exact hc2) hr20 hcl0 hcr0 hor0 hnd0 hrem0
  have htg : FA.reverse.reverse ++ [c] ++ FB = FA ++ c :: FB := by simp
  rw [htg] at hml
  refine ⟨⟨"merged", mergeLoop (p0 :: ps).length pts ((p0 :: ps).erase sp)⟩, hmp, ?_, ?_⟩
  · rcases hml with h | h
    · exact Or.inl (by rw [hdec]; exact h)
    · exact Or.inr (by rw [hdec]; exact h)
  · show curveLenQ (mergeLoop (p0 :: ps).length pts ((p0 :: ps).erase sp)) = _
    have hlen : curveLenQ (mergeLoop (p0 :: ps).length pts ((p0 :: ps).erase sp)) =
        curveLenQ (joinChunks (FA ++ c :: FB)) := by
      rcases hml with h | h
      · rw [h]
      · rw [h, curveLenQ_reverse]
    rw [hlen, curveLenQ_joinChunks (FA ++ c :: FB) (by simp)
        (fun x hx => ne_nil_of_len2 x (hlen2' x hx)) hchain',
      ← hdec, ← forall₂_len_sum pool' frags hmatch]
    exact ((hperm.map _).sum_eq).symm

/-- C4 witness: two fragments of a horizontal path, given out of order and
with the second one reversed, are stitched into the full path. -/
theorem merge_polylines_simple_path_witness :
    Chained [[(⟨0, 0⟩ : Pt), ⟨1, 0⟩], [⟨1, 0⟩, ⟨2, 0⟩]] ∧
    (junctions [[(⟨0, 0⟩ : Pt), ⟨1, 0⟩], [⟨1, 0⟩, ⟨2, 0⟩]]).Nodup ∧
    (∃ merged : Polyline,
      merge_polylines [⟨"b", [⟨2, 0⟩, ⟨1, 0⟩]⟩, ⟨"a", [⟨0, 0⟩, ⟨1, 0⟩]⟩] = some merged ∧
      (merged.points = joinChunks [[(⟨0, 0⟩ : Pt), ⟨1, 0⟩], [⟨1, 0⟩, ⟨2, 0⟩]] ∨
        merged.points =
          (joinChunks [[(⟨0, 0⟩ : Pt), ⟨1, 0⟩], [⟨1, 0⟩, ⟨2, 0⟩]]).reverse) ∧
      curveLenQ merged.points =
        (([⟨"b", [⟨2, 0⟩, ⟨1, 0⟩]⟩, ⟨"a", [⟨0, 0⟩, ⟨1, 0⟩]⟩] : List Polyline).map
          (fun pl => curveLenQ pl.points)).sum) := by
  have hchain : Chained [[(⟨0, 0⟩ : Pt), ⟨1, 0⟩], [⟨1, 0⟩, ⟨2, 0⟩]] := ⟨rfl, trivial⟩
  have hnd : (junctions [[(⟨0, 0⟩ : Pt), ⟨1, 0⟩], [⟨1, 0⟩, ⟨2, 0⟩]]).Nodup := by
    rw [show junctions [[(⟨0, 0⟩ : Pt), ⟨1, 0⟩], [⟨1, 0⟩, ⟨2, 0⟩]] =
        [⟨0, 0⟩, ⟨1, 0⟩, ⟨2, 0⟩] from rfl]
    norm_num [List.nodup_cons, Pt.mk.injEq]
  refine ⟨hchain, hnd, ?_⟩
  apply merge_polylines_simple_path
    [⟨"b", [⟨2, 0⟩, ⟨1, 0⟩]⟩, ⟨"a", [⟨0, 0⟩, ⟨1, 0⟩]⟩]
    [⟨"a", [⟨0, 0⟩, ⟨1, 0⟩]⟩, ⟨"b", [⟨2, 0⟩, ⟨1, 0⟩]⟩]
    [[(⟨0, 0⟩ : Pt), ⟨1, 0⟩], [⟨1, 0⟩, ⟨2, 0⟩]]
    (by simp)
    (List.Perm.swap (⟨"a", [⟨0, 0⟩, ⟨1, 0⟩]⟩ : Polyline)
      (⟨"b", [⟨2, 0⟩, ⟨1, 0⟩]⟩ : Polyline) ([] : List Polyline))
    (List.Forall₂.cons (Or.inl rfl)
      (List.Forall₂.cons (Or.inr rfl) List.Forall₂.nil))
    ?_ hchain hnd
  intro c hc
  rcases List.mem_cons.1 hc with rfl | hc2
  · norm_num
  · rcases List.mem_cons.1 hc2 with rfl | hc3
    · norm_num
    · cases hc3
